import Mathlib

/-! netperf: download engine, byte aggregator and write sink

A shallow embedding of the Go packages `internal/downloader`,
`internal/metrics` and `internal/config`, with the properties of the retry
loop, the worker pool, the byte counters, the peak tracker, the EWMA filter,
the file sink, the formatting functions, the file names and the
configuration.

Conventions of the embedding:

* a Go `error` is identified by its message; `none : Option GoError` is `nil`;
* Go `int`, `int64` and `time.Duration` are 64-bit two's complement integers,
  modelled as `Int` with an explicit `wrap64`; `atomic.Int32` uses `wrap32`;
* the outside world (HTTP responses, the context, the random source, the
  scheduler, the file system, `url.Parse`) is given by explicit oracles that
  the functions consume;
* a `float64` is a NaN, an infinity or the rational it denotes; every
  `float64` operation rounds the exact result to nearest with ties to even
  (IEEE 754 binary64, operations rounded one by one as on amd64), and
  `Sprintf("%.nf")` rounds the exact value.
-/

namespace Netperf

/-! ## Machine integers -/

/-- Two's complement reduction of an integer to the `int64` range. -/
def wrap64 (x : Int) : Int := (x + 2 ^ 63) % 2 ^ 64 - 2 ^ 63

/-- Two's complement reduction of an integer to the `int32` range. -/
def wrap32 (x : Int) : Int := (x + 2 ^ 31) % 2 ^ 32 - 2 ^ 31

/-- Largest `int64`. -/
def maxInt64 : Int := 2 ^ 63 - 1

/-- Smallest `int64`. -/
def minInt64 : Int := -2 ^ 63

/-! ## `float64`: IEEE 754 binary64, round to nearest with ties to even -/

/-- A `float64` value.  Finite values are the rationals they denote (both
zeros are `fin 0`); comparisons and arithmetic follow IEEE 754. -/
inductive F64
  | nan
  | posInf
  | negInf
  | fin (q : ℚ)
deriving DecidableEq

/-- The Go comparison `x <= y` on `float64`: false when either side is NaN. -/
def F64.le : F64 → F64 → Bool
  | F64.fin a, F64.fin b => decide (a ≤ b)
  | F64.nan, _ => false
  | _, F64.nan => false
  | F64.negInf, _ => true
  | _, F64.posInf => true
  | F64.posInf, _ => false
  | F64.fin _, F64.negInf => false

/-- The Go comparison `x > y` on `float64`. -/
def F64.gt (x y : F64) : Bool := F64.le y x && !F64.le x y

/-- `math.IsNaN`. -/
def F64.isNaN : F64 → Bool
  | F64.nan => true
  | _ => false

/-- `math.IsInf(x, 0)`. -/
def F64.isInf : F64 → Bool
  | F64.posInf => true
  | F64.negInf => true
  | _ => false

/-- The integer nearest to `n / d`, ties going to the even one. -/
def roundHalfEven (n d : Nat) : Nat :=
  if 2 * (n % d) < d then n / d
  else if d < 2 * (n % d) then n / d + 1
  else if (n / d) % 2 = 0 then n / d else n / d + 1

/-- The number of binary digits of `n`, counted with `fuel` steps. -/
def bitLenAux : Nat → Nat → Nat
  | 0, _ => 0
  | fuel + 1, n => if n = 0 then 0 else 1 + bitLenAux fuel (n / 2)

/-- The number of binary digits of `n`. -/
def bitLen (n : Nat) : Nat := bitLenAux n n

/-- The exponent `e` with `2^e <= n/d < 2^(e+1)`, for positive `n` and `d`. -/
def floorLog2 (n d : Nat) : Int :=
  if bitLen n ≥ bitLen d then
    (if d * 2 ^ (bitLen n - bitLen d) ≤ n then ((bitLen n - bitLen d : Nat) : Int)
     else ((bitLen n - bitLen d : Nat) : Int) - 1)
  else
    (if d ≤ n * 2 ^ (bitLen d - bitLen n) then -((bitLen d - bitLen n : Nat) : Int)
     else -((bitLen d - bitLen n : Nat) : Int) - 1)

/-- The exponent of the unit in the last place of the `float64` format at the
magnitude `n / d`: 52 below the exponent of `n / d`, and `-1074` in the
subnormal range. -/
def ulpExp (n d : Nat) : Int := max (floorLog2 n d - 52) (-1074)

/-- The integer nearest to `(n / d) / 2^e`, ties going to the even one. -/
def scaledRound (n d : Nat) (e : Int) : Nat :=
  match e with
  | Int.ofNat k => roundHalfEven n (d * 2 ^ k)
  | Int.negSucc k => roundHalfEven (n * 2 ^ (k + 1)) d

/-- The `float64` that a real result `q` is rounded to: the nearest multiple
of the unit in the last place, ties going to the even multiple, and an
infinity when that multiple reaches `2^1024`. -/
def F64.round (q : ℚ) : F64 :=
  if q = 0 then F64.fin 0
  else if (2 : ℚ) ^ 1024 ≤
      (scaledRound q.num.natAbs q.den (ulpExp q.num.natAbs q.den) : ℚ) *
        2 ^ ulpExp q.num.natAbs q.den then
    (if q < 0 then F64.negInf else F64.posInf)
  else
    F64.fin (if q < 0 then
        -((scaledRound q.num.natAbs q.den (ulpExp q.num.natAbs q.den) : ℚ) *
          2 ^ ulpExp q.num.natAbs q.den)
      else (scaledRound q.num.natAbs q.den (ulpExp q.num.natAbs q.den) : ℚ) *
        2 ^ ulpExp q.num.natAbs q.den)

/-- The `float64` negation `-x`. -/
def F64.neg : F64 → F64
  | F64.nan => F64.nan
  | F64.posInf => F64.negInf
  | F64.negInf => F64.posInf
  | F64.fin a => F64.fin (-a)

/-- The `float64` sum `x + y`. -/
def F64.add : F64 → F64 → F64
  | F64.fin a, F64.fin b => F64.round (a + b)
  | F64.nan, _ => F64.nan
  | _, F64.nan => F64.nan
  | F64.posInf, F64.negInf => F64.nan
  | F64.negInf, F64.posInf => F64.nan
  | F64.posInf, _ => F64.posInf
  | _, F64.posInf => F64.posInf
  | F64.negInf, _ => F64.negInf
  | _, F64.negInf => F64.negInf

/-- The `float64` difference `x - y`. -/
def F64.sub (x y : F64) : F64 := F64.add x (F64.neg y)

/-- The `float64` product `x * y`. -/
def F64.mul : F64 → F64 → F64
  | F64.fin a, F64.fin b => F64.round (a * b)
  | F64.nan, _ => F64.nan
  | _, F64.nan => F64.nan
  | F64.posInf, F64.posInf => F64.posInf
  | F64.posInf, F64.negInf => F64.negInf
  | F64.negInf, F64.posInf => F64.negInf
  | F64.negInf, F64.negInf => F64.posInf
  | F64.posInf, F64.fin b => if b = 0 then F64.nan else if 0 < b then F64.posInf else F64.negInf
  | F64.negInf, F64.fin b => if b = 0 then F64.nan else if 0 < b then F64.negInf else F64.posInf
  | F64.fin a, F64.posInf => if a = 0 then F64.nan else if 0 < a then F64.posInf else F64.negInf
  | F64.fin a, F64.negInf => if a = 0 then F64.nan else if 0 < a then F64.negInf else F64.posInf

/-- The `float64` quotient `x / y`; a zero divisor is taken as `+0`. -/
def F64.div : F64 → F64 → F64
  | F64.fin a, F64.fin b =>
    if b = 0 then (if a = 0 then F64.nan else if 0 < a then F64.posInf else F64.negInf)
    else F64.round (a / b)
  | F64.nan, _ => F64.nan
  | _, F64.nan => F64.nan
  | F64.fin _, _ => F64.fin 0
  | F64.posInf, F64.fin b => if 0 ≤ b then F64.posInf else F64.negInf
  | F64.negInf, F64.fin b => if 0 ≤ b then F64.negInf else F64.posInf
  | _, _ => F64.nan

/-- The conversion `float64(d)` of an integer. -/
def F64.ofInt (d : Int) : F64 := F64.round d

/-- `m` is the integer nearest to `y`, the even one of the two when `y` lies
half way between two integers. -/
def NearestEven (m : Nat) (y : ℚ) : Prop :=
  |y - m| ≤ 1 / 2 ∧ (|y - m| = 1 / 2 → m % 2 = 0)

/-- IEEE 754 rounding to `float64`, stated on its own: `r` is the value that
round to nearest, ties to even, assigns to the real number `q`.  The unit in
the last place is `2^e`, where `e` is 52 below the exponent of `q` and at
least `-1074`; the magnitude of `r` is the multiple `m * 2^e` nearest to that
of `q`, and an infinity when this multiple reaches `2^1024`. -/
def IsF64Round (q : ℚ) (r : F64) : Prop :=
  ∃ (e : Int) (m : Nat),
    -1074 ≤ e ∧ |q| < 2 ^ (e + 53) ∧ (e = -1074 ∨ 2 ^ (e + 52) ≤ |q|) ∧
    NearestEven m (|q| / 2 ^ e) ∧
    r = if (2 : ℚ) ^ 1024 ≤ m * 2 ^ e then (if q < 0 then F64.negInf else F64.posInf)
        else F64.fin (if q < 0 then -(m * 2 ^ e) else m * 2 ^ e)

/-- The IEEE 754 sum, stated on its own: `r` is `x + y`. -/
def IsSum : F64 → F64 → F64 → Prop
  | F64.fin a, F64.fin b, r => IsF64Round (a + b) r
  | F64.nan, _, r => r = F64.nan
  | _, F64.nan, r => r = F64.nan
  | F64.posInf, F64.negInf, r => r = F64.nan
  | F64.negInf, F64.posInf, r => r = F64.nan
  | F64.posInf, _, r => r = F64.posInf
  | _, F64.posInf, r => r = F64.posInf
  | F64.negInf, _, r => r = F64.negInf
  | _, F64.negInf, r => r = F64.negInf

/-- The IEEE 754 product, stated on its own: `r` is `x * y`.  An infinity
times zero is NaN; otherwise an infinite factor gives the infinity whose
sign is the product of the signs. -/
def IsProduct : F64 → F64 → F64 → Prop
  | F64.fin a, F64.fin b, r => IsF64Round (a * b) r
  | F64.nan, _, r => r = F64.nan
  | _, F64.nan, r => r = F64.nan
  | F64.posInf, F64.posInf, r => r = F64.posInf
  | F64.posInf, F64.negInf, r => r = F64.negInf
  | F64.negInf, F64.posInf, r => r = F64.negInf
  | F64.negInf, F64.negInf, r => r = F64.posInf
  | F64.posInf, F64.fin b, r =>
    (b = 0 → r = F64.nan) ∧ (0 < b → r = F64.posInf) ∧ (b < 0 → r = F64.negInf)
  | F64.negInf, F64.fin b, r =>
    (b = 0 → r = F64.nan) ∧ (0 < b → r = F64.negInf) ∧ (b < 0 → r = F64.posInf)
  | F64.fin a, F64.posInf, r =>
    (a = 0 → r = F64.nan) ∧ (0 < a → r = F64.posInf) ∧ (a < 0 → r = F64.negInf)
  | F64.fin a, F64.negInf, r =>
    (a = 0 → r = F64.nan) ∧ (0 < a → r = F64.negInf) ∧ (a < 0 → r = F64.posInf)

/-- The integer part of `q`: the conversion of a `float64` to an integer
truncates toward zero. -/
def truncQ (q : ℚ) : Int := if 0 ≤ q then ⌊q⌋ else ⌈q⌉

/-- The conversion `int64(x)` of a `float64`.  For NaN, the infinities and
values outside the `int64` range the Go specification leaves the result to
the implementation; this is the result on amd64, the smallest `int64`. -/
def F64.toInt64 : F64 → Int
  | F64.fin q => if minInt64 ≤ truncQ q ∧ truncQ q ≤ maxInt64 then truncQ q else minInt64
  | _ => minInt64


/-! ## download.go: `Downloader.Download` -/

/-- A Go `error`, identified by its message. -/
abbrev GoError := String

/-- `Result` of download.go; the zero value is `Result{}`. -/
structure Result where
  Destination : String := ""
  Discarded : Bool := false
deriving DecidableEq, Repr

/-- `Options` of download.go. -/
structure Options where
  Save : Bool
  OutDir : String
  Retries : Int
deriving DecidableEq, Repr

/-- `Downloader` of download.go: whether `client` is non-nil, whether `agg`
is non-nil, and the options.  The aggregator itself lives in the threaded
state. -/
structure Downloader where
  client : Bool
  agg : Bool
  opts : Options
deriving DecidableEq, Repr

/-- What `Download` sees of its `context.Context`.  `errAfter i` is the value
of `ctx.Err()` when attempt `i` (0-indexed) has returned; `doneInWait i` is
`some e` when `ctx.Done()` fires before the timer of the backoff wait that
follows attempt `i`, `e` being `ctx.Err()` at that moment. -/
structure Context where
  errAfter : Nat → Option GoError
  doneInWait : Nat → Option GoError

/-- A context that is never cancelled. -/
def Context.background : Context := ⟨fun _ => none, fun _ => none⟩

/-- The `baseDelay` of `Download`: 500ms in nanoseconds. -/
def baseDelay : Int := 500 * 1000000

/-- `jitter` of download.go, `r` being the value drawn from `rng.Float64()`:
`factor := 0.8 + r*0.4` and `time.Duration(float64(d) * factor)`, each
operation rounded to `float64`. -/
def jitter (d : Int) (r : ℚ) : Int :=
  if d ≤ 0 then 0
  else
    F64.toInt64 (F64.mul (F64.ofInt d)
      (F64.add (F64.round (4 / 5)) (F64.mul (F64.fin r) (F64.round (2 / 5)))))

/-- The `delay := jitter(baseDelay << attempt)` of `Download`; the shift is
the `int64` one, `rnd attempt` is the random draw of that call of `jitter`. -/
def backoffDelay (rnd : Nat → ℚ) (attempt : Nat) : Int :=
  jitter (wrap64 (baseDelay * 2 ^ attempt)) (rnd attempt)

/-- What a call of `Download` did: the returned pair, the number of `tryOnce`
calls, the delays of the backoff waits it started, and the final state. -/
structure Outcome (σ : Type) where
  res : Result
  err : Option GoError
  attempts : Nat
  waits : List Int
  state : σ

/-- The `for attempt := 0; attempt <= d.opts.Retries; attempt++` loop of
`Download`.  `tryOnce attempt s` is the call `d.tryOnce(ctx, rawURL)` of that
iteration on state `s`.  The result is `none` only when the fuel runs out. -/
def downloadLoop {σ : Type} (tryOnce : Nat → σ → (Result × Option GoError) × σ)
    (ctx : Context) (rnd : Nat → ℚ) (retries : Int) :
    Nat → Nat → Option GoError → List Int → σ → Option (Outcome σ)
  | fuel, attempt, lastErr, waits, s =>
    if (attempt : Int) ≤ retries then
      match fuel with
      | 0 => none
      | fuel + 1 =>
        let r := tryOnce attempt s
        match r.1.2 with
        | none => some ⟨r.1.1, none, attempt + 1, waits, r.2⟩
        | some e =>
          match ctx.errAfter attempt with
          | some ce => some ⟨r.1.1, some ce, attempt + 1, waits, r.2⟩
          | none =>
            if (attempt : Int) = retries then
              some ⟨{}, some e, attempt + 1, waits, r.2⟩
            else
              let delay := backoffDelay rnd attempt
              match ctx.doneInWait attempt with
              | some ce => some ⟨r.1.1, some ce, attempt + 1, waits ++ [delay], r.2⟩
              | none => downloadLoop tryOnce ctx rnd retries fuel (attempt + 1) (some e)
                  (waits ++ [delay]) r.2
    else some ⟨{}, lastErr, attempt, waits, s⟩

/-- `Downloader.Download`. -/
def Download {σ : Type} (d : Downloader)
    (tryOnce : Nat → σ → (Result × Option GoError) × σ)
    (ctx : Context) (rnd : Nat → ℚ) (s : σ) : Option (Outcome σ) :=
  if d.client = false then
    some ⟨{}, some "http client not configured", 0, [], s⟩
  else
    downloadLoop tryOnce ctx rnd d.opts.Retries (d.opts.Retries + 1).toNat 0 none [] s

/-- The state in which attempt `i` starts when no earlier attempt ended the
call: the state threaded through attempts `0 .. i-1`. -/
def attemptState {σ : Type} (tryOnce : Nat → σ → (Result × Option GoError) × σ) (s : σ) :
    Nat → σ
  | 0 => s
  | i + 1 => (tryOnce i (attemptState tryOnce s i)).2

/-- The error returned by attempt `i` of a call started in state `s`. -/
def attemptErr {σ : Type} (tryOnce : Nat → σ → (Result × Option GoError) × σ) (s : σ)
    (i : Nat) : Option GoError :=
  (tryOnce i (attemptState tryOnce s i)).1.2

/-- The `Result` returned by attempt `i` of a call started in state `s`. -/
def attemptRes {σ : Type} (tryOnce : Nat → σ → (Result × Option GoError) × σ) (s : σ)
    (i : Nat) : Result :=
  (tryOnce i (attemptState tryOnce s i)).1.1

/-- The error carried into attempt `n`: that of attempt `n - 1`. -/
def carriedErr {σ : Type} (tryOnce : Nat → σ → (Result × Option GoError) × σ) (s : σ) :
    Nat → Option GoError
  | 0 => none
  | n + 1 => attemptErr tryOnce s n

/-! ## manager.go: `Manager.Run` -/

/-- `Manager` of manager.go (the downloader is the oracle of `runStep`). -/
structure Manager where
  workers : Int
deriving DecidableEq, Repr

/-- `NewManager`: a worker count below 1 becomes 1. -/
def NewManager (workers : Int) : Manager :=
  ⟨if workers < 1 then 1 else workers⟩

/-- A snapshot of a call of `Run`.  The worker goroutines are anonymous:
`idle` of them stand at their `select`, `busy` lists the invocations of
`Download` that are in flight (numbered in the order in which they started).
`calls` and `finished` record the URLs handed to `Download` and the
invocations that have returned. -/
structure RunState where
  pending : List String
  jobs : List String
  closed : Bool
  cancelled : Bool
  idle : Nat
  busy : List Nat
  failed : Int
  calls : List String
  finished : List Nat
deriving DecidableEq, Repr

/-- The moves of the goroutines of `Run`, and of the context. -/
inductive Event
  /-- feeder: `case jobs <- u` -/
  | send
  /-- feeder: the `range` is exhausted, the deferred `close(jobs)` runs -/
  | close
  /-- feeder: `case <-ctx.Done(): return`, the deferred `close(jobs)` runs -/
  | feederQuit
  /-- worker: `case url, ok := <-jobs` with `ok`, `Download` starts -/
  | recv
  /-- worker: invocation `k` of `Download` returns; `failed.Add(1)` on error -/
  | finish (k : Nat)
  /-- worker: `case url, ok := <-jobs` with `!ok`: `return` -/
  | exit
  /-- worker: `case <-ctx.Done(): return` -/
  | workerQuit
  /-- the context is cancelled -/
  | cancel
deriving DecidableEq, Repr

/-- The state in which `Run` has made the channel and started its goroutines. -/
def runInit (m : Manager) (urls : List String) : RunState :=
  { pending := urls, jobs := [], closed := false, cancelled := false,
    idle := m.workers.toNat, busy := [], failed := 0, calls := [], finished := [] }

/-- One move of `Run`; `none` when the move is not possible in the state.
`cap` is the capacity of `jobs`, `dlErr k` the error returned by invocation
`k` of `m.downloader.Download`. -/
def runStep (cap : Nat) (dlErr : Nat → Option GoError) : Event → RunState → Option RunState
  | Event.send, s =>
    match s.pending with
    | u :: rest =>
      if s.closed = false ∧ s.jobs.length < cap then
        some { s with pending := rest, jobs := s.jobs ++ [u] }
      else none
    | [] => none
  | Event.close, s =>
    if s.closed = false ∧ s.pending = [] then some { s with closed := true } else none
  | Event.feederQuit, s =>
    if s.closed = false ∧ s.pending ≠ [] ∧ s.cancelled = true then
      some { s with closed := true }
    else none
  | Event.recv, s =>
    match s.jobs with
    | u :: rest =>
      if 0 < s.idle then
        some { s with jobs := rest, idle := s.idle - 1, busy := s.calls.length :: s.busy,
                      calls := s.calls ++ [u] }
      else none
    | [] => none
  | Event.finish k, s =>
    if k ∈ s.busy then
      some { s with busy := s.busy.erase k, idle := s.idle + 1,
                    finished := s.finished ++ [k],
                    failed := if (dlErr k).isSome then wrap32 (s.failed + 1) else s.failed }
    else none
  | Event.exit, s =>
    if 0 < s.idle ∧ s.jobs = [] ∧ s.closed = true then some { s with idle := s.idle - 1 }
    else none
  | Event.workerQuit, s =>
    if 0 < s.idle ∧ s.cancelled = true then some { s with idle := s.idle - 1 } else none
  | Event.cancel, s => some { s with cancelled := true }

/-- A sequence of moves; `none` when one of them is not possible. -/
def runExec (cap : Nat) (dlErr : Nat → Option GoError) : List Event → RunState → Option RunState
  | [], s => some s
  | e :: es, s =>
    match runStep cap dlErr e s with
    | some s1 => runExec cap dlErr es s1
    | none => none

/-- All workers have returned: `wg.Wait()` returns. -/
def RunState.waitDone (s : RunState) : Bool := s.idle == 0 && s.busy.isEmpty

/-- The value `Run` returns once `wg.Wait()` has returned. -/
def runResult (s : RunState) : Option GoError :=
  if 0 < s.failed then some (toString s.failed ++ " downloads failed") else none

/-- The capacity `m.workers*2` of the job channel. -/
def jobsCap (m : Manager) : Nat := (m.workers * 2).toNat

/-- The executions of `Run(ctx, urls)` under a context that is never
cancelled: the sequences of moves without `cancel`, from the initial state. -/
def runsTo (m : Manager) (dlErr : Nat → Option GoError) (urls : List String)
    (evs : List Event) (s : RunState) : Prop :=
  Event.cancel ∉ evs ∧ runExec (jobsCap m) dlErr evs (runInit m urls) = some s

instance (m : Manager) (dlErr : Nat → Option GoError) (urls : List String)
    (evs : List Event) (s : RunState) : Decidable (runsTo m dlErr urls evs s) := by
  unfold runsTo
  infer_instance

/-- The number of downloads of the batch that return an error. -/
def failedDownloads (dlErr : Nat → Option GoError) (urls : List String) : Nat :=
  (List.range urls.length).countP (fun k => (dlErr k).isSome)

/-- The bound on the number of moves of `Run`: three per URL, one per
worker, and the closing of the channel. -/
def runMeasure (s : RunState) : Nat :=
  3 * s.pending.length + 2 * s.jobs.length + 2 * s.busy.length + s.idle +
    (if s.closed then 0 else 1)

/-- The invariant of `Run` under a context that is never cancelled, `W`
being the number of workers. -/
structure RunInv (W : Nat) (dlErr : Nat → Option GoError) (urls : List String)
    (s : RunState) : Prop where
  notCancelled : s.cancelled = false
  split : s.calls ++ s.jobs ++ s.pending = urls
  closedPending : s.closed = true → s.pending = []
  inFlight : (s.finished ++ s.busy).Perm (List.range s.calls.length)
  counted : s.failed = wrap32 (s.finished.countP (fun k => (dlErr k).isSome))
  workers : s.idle + s.busy.length ≤ W
  returned : s.idle + s.busy.length < W → s.closed = true ∧ s.jobs = []

/-! ## aggregator.go: byte counters, peak and EWMA -/

/-- `Aggregator` of aggregator.go: the two `atomic.Int64` counters and the
value whose bits `peakBps` holds.  The start time plays no part here. -/
structure Aggregator where
  bytesThisSec : Int
  bytesTotal : Int
  peakBps : F64
deriving DecidableEq

/-- `NewAggregator`: all cells zero. -/
def NewAggregator : Aggregator := ⟨0, 0, F64.fin 0⟩

/-- `Aggregator.AddBytes`; `atomic.Int64.Add` wraps around. -/
def Aggregator.AddBytes (a : Aggregator) (n : Int) : Aggregator :=
  if n ≤ 0 then a
  else { a with bytesThisSec := wrap64 (a.bytesThisSec + n),
                bytesTotal := wrap64 (a.bytesTotal + n) }

/-- `Aggregator.SwapBytesThisSecond`: the previous value and the new state. -/
def Aggregator.SwapBytesThisSecond (a : Aggregator) : Int × Aggregator :=
  (a.bytesThisSec, { a with bytesThisSec := 0 })

/-- `Aggregator.TotalBytes`. -/
def Aggregator.TotalBytes (a : Aggregator) : Int := a.bytesTotal

/-- `Aggregator.UpdatePeakBps`, run without a concurrent writer: the
compare-and-swap of the first iteration succeeds. -/
def Aggregator.UpdatePeakBps (a : Aggregator) (bps : F64) : Aggregator :=
  if F64.le bps (F64.fin 0) || F64.isNaN bps || F64.isInf bps then a
  else if F64.le bps a.peakBps then a
  else { a with peakBps := bps }

/-- `Aggregator.PeakBps`: bits equal to zero are the value `+0`. -/
def Aggregator.PeakBps (a : Aggregator) : F64 :=
  if a.peakBps = F64.fin 0 then F64.fin 0 else a.peakBps

/-- The sample as a rational when it is positive and finite. -/
def F64.posFinite : F64 → Option ℚ
  | F64.fin q => if 0 < q then some q else none
  | _ => none

/-- The calls `AddBytes(n)` for the `n` of a list, in order. -/
def Aggregator.addAll (a : Aggregator) (ns : List Int) : Aggregator :=
  ns.foldl Aggregator.AddBytes a

/-- The calls `UpdatePeakBps(x)` for the `x` of a list, in order. -/
def Aggregator.updateAll (a : Aggregator) (xs : List F64) : Aggregator :=
  xs.foldl Aggregator.UpdatePeakBps a

/-- The sum of the strictly positive entries of a list. -/
def positiveSum (ns : List Int) : Int := (ns.filter (fun n => 0 < n)).sum

/-- `EWMA` of aggregator.go. -/
structure EWMA where
  value : F64
  alpha : F64
deriving DecidableEq

/-- `NewEWMA`. -/
def NewEWMA (alpha : F64) : EWMA :=
  ⟨F64.fin 0,
    if F64.le alpha (F64.fin 0) || F64.le (F64.fin 1) alpha then F64.fin (1 / 4) else alpha⟩

/-- `EWMA.Update`: the returned value and the new state. -/
def EWMA.Update (e : EWMA) (observation : F64) : F64 × EWMA :=
  if F64.isNaN observation || F64.isInf observation then (e.value, e)
  else if e.value = F64.fin 0 then (observation, { e with value := observation })
  else
    (F64.add (F64.mul e.alpha observation) (F64.mul (F64.sub (F64.fin 1) e.alpha) e.value),
     { e with value :=
        F64.add (F64.mul e.alpha observation) (F64.mul (F64.sub (F64.fin 1) e.alpha) e.value) })

/-- The values returned by `Update` for the observations of a list. -/
def EWMA.updates : EWMA → List F64 → List F64
  | _, [] => []
  | e, x :: xs => (e.Update x).1 :: EWMA.updates (e.Update x).2 xs

/-! ## sink.go: the write sink, over a model of the file system -/

/-- A byte string. -/
abbrev Bytes := List UInt8

/-- The calls into package `os` made by sink.go and by the file writer; the
number in `write` is the size of the file before the write. -/
inductive FsOp
  | mkdirAll (path : String)
  | create (path : String)
  | write (path : String) (size : Nat)
  | close (path : String)
  | rename (oldpath newpath : String)
  | remove (path : String)
deriving DecidableEq, Repr

/-- The file system as the sink sees it: the regular files with their
content, the directories, and the failures that the operating system injects
(permissions, full disk, cross-device rename): `fault op` is the error with
which `op` fails, `shortWrite path size` the number of bytes that a failing
write still writes.  Parent directories are not tracked. -/
structure FS where
  files : String → Option Bytes
  dirs : String → Bool
  fault : FsOp → Option GoError
  shortWrite : String → Nat → Nat

/-- An empty file system without injected failures. -/
def FS.empty : FS := ⟨fun _ => none, fun _ => false, fun _ => none, fun _ _ => 0⟩

/-- The error of a path that does not exist (`ENOENT`). -/
def errNotExist : GoError := "no such file or directory"

/-- `os.IsNotExist`. -/
def IsNotExist (e : GoError) : Bool := e == errNotExist

/-- The path exists, as a file or as a directory: `os.Stat` succeeds. -/
def FS.exist (fs : FS) (path : String) : Bool := (fs.files path).isSome || fs.dirs path

/-- The file system with the content of `path` replaced (`none`: no file). -/
def FS.setFile (fs : FS) (path : String) (content : Option Bytes) : FS :=
  { fs with files := fun p => if p = path then content else fs.files p }

/-- The file system with `path` made (or unmade) a directory. -/
def FS.setDir (fs : FS) (path : String) (isDir : Bool) : FS :=
  { fs with dirs := fun p => if p = path then isDir else fs.dirs p }

/-- `os.MkdirAll(path, 0o755)`. -/
def FS.MkdirAll (fs : FS) (path : String) : Option GoError × FS :=
  match fs.fault (FsOp.mkdirAll path) with
  | some e => (some e, fs)
  | none =>
    if (fs.files path).isSome then (some "not a directory", fs)
    else (none, fs.setDir path true)

/-- `os.Create(path)`: the file is created or truncated. -/
def FS.Create (fs : FS) (path : String) : Option GoError × FS :=
  match fs.fault (FsOp.create path) with
  | some e => (some e, fs)
  | none =>
    if fs.dirs path then (some "is a directory", fs)
    else (none, fs.setFile path (some []))

/-- `(*os.File).Write` on an open file created at `path`: the bytes are
appended; a file that has been unlinked meanwhile swallows them. -/
def FS.Write (fs : FS) (path : String) (p : Bytes) : (Int × Option GoError) × FS :=
  match fs.files path with
  | none => ((p.length, none), fs)
  | some old =>
    match fs.fault (FsOp.write path old.length) with
    | some e =>
      ((((p.take (fs.shortWrite path old.length)).length : Nat), some e),
        fs.setFile path (some (old ++ p.take (fs.shortWrite path old.length))))
    | none => ((p.length, none), fs.setFile path (some (old ++ p)))

/-- `os.Rename(oldpath, newpath)` for a regular file `oldpath`. -/
def FS.Rename (fs : FS) (oldpath newpath : String) : Option GoError × FS :=
  match fs.fault (FsOp.rename oldpath newpath) with
  | some e => (some e, fs)
  | none =>
    match fs.files oldpath with
    | none => (some errNotExist, fs)
    | some content =>
      if fs.dirs newpath then (some "file exists", fs)
      else if oldpath = newpath then (none, fs)
      else (none, (fs.setFile oldpath none).setFile newpath (some content))

/-- `os.Remove(path)`. -/
def FS.Remove (fs : FS) (path : String) : Option GoError × FS :=
  match fs.fault (FsOp.remove path) with
  | some e => (some e, fs)
  | none =>
    if fs.exist path then
      (none, (fs.setFile path none).setDir path false)
    else (some errNotExist, fs)

/-- The `io.WriteCloser` of a sink: `nopCloser{io.Discard}`, or the
`*os.File` created at `path`, which remembers whether it has been closed. -/
inductive Writer
  | discard
  | file (path : String) (closed : Bool)
deriving DecidableEq, Repr

/-- `Write` of the sink's writer.  `io.Discard` accepts everything; a closed
file refuses. -/
def Writer.Write : Writer → FS → Bytes → (Int × Option GoError) × FS
  | Writer.discard, fs, p => ((p.length, none), fs)
  | Writer.file path closed, fs, p =>
    if closed then ((0, some "file already closed"), fs) else fs.Write path p

/-- `Close` of the sink's writer: `nopCloser.Close` returns nil; closing an
`*os.File` a second time is an error. -/
def Writer.Close : Writer → FS → Option GoError × Writer
  | Writer.discard, _ => (none, Writer.discard)
  | Writer.file path closed, fs =>
    if closed then (some "file already closed", Writer.file path true)
    else (fs.fault (FsOp.close path), Writer.file path true)

/-- `sinkHandle` of sink.go.  The closure `finalize` is a function on the
file system.  Both constructors fill `writer` and `finalize`. -/
structure sinkHandle where
  writer : Writer
  finalize : Bool → FS → Option GoError × FS
  destination : String
  discarded : Bool

/-- `newDiscardSink`. -/
def newDiscardSink : Except GoError sinkHandle :=
  Except.ok { writer := Writer.discard, finalize := fun _ fs => (none, fs),
              destination := "", discarded := true }

/-- The closure `finalize` built by `newFileSink`. -/
def fileFinalize (tmpPath finalPath : String) (success : Bool) (fs : FS) : Option GoError × FS :=
  if success then fs.Rename tmpPath finalPath
  else
    match fs.Remove tmpPath with
    | (some e, fs1) => if !IsNotExist e then (some e, fs1) else (none, fs1)
    | (none, fs1) => (none, fs1)

/-- `newFileSink(outDir, fileName)`; `join` is `filepath.Join`. -/
def newFileSink (join : String → String → String) (outDir fileName : String) (fs : FS) :
    Except GoError sinkHandle × FS :=
  let finalPath := join outDir fileName
  let tmpPath := finalPath ++ ".part"
  match fs.MkdirAll outDir with
  | (some e, fs1) => (Except.error e, fs1)
  | (none, fs1) =>
    match fs1.Create tmpPath with
    | (some e, fs2) => (Except.error e, fs2)
    | (none, fs2) =>
      (Except.ok { writer := Writer.file tmpPath false,
                   finalize := fileFinalize tmpPath finalPath,
                   destination := finalPath, discarded := false }, fs2)

/-- `sinkHandle.closeWriter`: the error and the handle with its writer closed. -/
def sinkHandle.closeWriter (s : sinkHandle) (fs : FS) : Option GoError × sinkHandle :=
  ((s.writer.Close fs).1, { s with writer := (s.writer.Close fs).2 })

/-- `sinkHandle.finalizeFailure`: the error of `finalize(false)` is dropped. -/
def sinkHandle.finalizeFailure (s : sinkHandle) (fs : FS) : FS := (s.finalize false fs).2

/-- `sinkHandle.finalizeSuccess`. -/
def sinkHandle.finalizeSuccess (s : sinkHandle) (fs : FS) : Option GoError × FS :=
  s.finalize true fs

/-- What `filepath.Join(dir, name)` returns on Unix for a clean directory and
a plain file name. -/
def slashJoin (dir name : String) : String := dir ++ "/" ++ name

/-- The handle that `newFileSink` returns for `out` and `file.bin`. -/
def exampleHandle : sinkHandle :=
  { writer := Writer.file "out/file.bin.part" false,
    finalize := fileFinalize "out/file.bin.part" "out/file.bin",
    destination := "out/file.bin", discarded := false }

/-- The file system after the round trip of the test `TestNewFileSinkSuccess`
with the bytes of "hi". -/
def exampleCommitted : FS :=
  ((exampleHandle.closeWriter
      (exampleHandle.writer.Write (newFileSink slashJoin "out" "file.bin" FS.empty).2
        [104, 105]).2).2.finalizeSuccess
    (exampleHandle.writer.Write (newFileSink slashJoin "out" "file.bin" FS.empty).2
      [104, 105]).2).2

/-! ## download.go: `counterWriter` and `tryOnce` -/

/-- `counterWriter` of download.go: the destination's `Write`, acting on a
state `σ`, and whether `agg` is non-nil. -/
structure counterWriter (σ : Type) where
  dst : σ → Bytes → (Int × Option GoError) × σ
  agg : Bool

/-- `counterWriter.Write`, on the state of the destination and the Aggregator. -/
def counterWriter.Write {σ : Type} (cw : counterWriter σ) (s : σ × Aggregator) (p : Bytes) :
    (Int × Option GoError) × (σ × Aggregator) :=
  let r := cw.dst s.1 p
  (r.1, (r.2, if 0 < r.1.1 ∧ cw.agg = true then s.2.AddBytes r.1.1 else s.2))

/-- `io.ErrShortWrite`. -/
def ErrShortWrite : GoError := "short write"

/-- The `errInvalidWrite` of package `io`. -/
def errInvalidWrite : GoError := "invalid write result"

/-- The loop of `io.CopyBuffer(writer, resp.Body, buf)` for a body that
delivers the chunks `chunks` and then ends with `readErr` (`none`: `io.EOF`).
Returns the error of the copy. -/
def copyBuffer {σ : Type} (cw : counterWriter σ) :
    List Bytes → Option GoError → σ × Aggregator → Option GoError × (σ × Aggregator)
  | [], readErr, s => (readErr, s)
  | c :: cs, readErr, s =>
    if 0 < c.length then
      let r := cw.Write s c
      let invalid : Bool := decide (r.1.1 < 0 ∨ (c.length : Int) < r.1.1)
      let nw : Int := if invalid then 0 else r.1.1
      let ew : Option GoError :=
        if invalid then (match r.1.2 with
          | none => some errInvalidWrite
          | some e => some e) else r.1.2
      match ew with
      | some e => (some e, r.2)
      | none =>
        if (c.length : Int) ≠ nw then (some ErrShortWrite, r.2)
        else copyBuffer cw cs readErr r.2
    else copyBuffer cw cs readErr s

/-- What the network answers to one attempt: the error of
`http.NewRequestWithContext`, the error of `client.Do`, the status code, and
the body as the chunks that `Read` delivers followed by the error that ends
it (`none`: `io.EOF`). -/
structure Exchange where
  reqErr : Option GoError
  doErr : Option GoError
  StatusCode : Int
  chunks : List Bytes
  readErr : Option GoError

/-- The state that an attempt acts on: the Aggregator and the file system. -/
structure World where
  agg : Aggregator
  fs : FS

/-- `Downloader.tryOnce`.  `join` is `filepath.Join`, `fileName` the value of
`FileNameFromURL(rawURL)`, `x` the answer of the network. -/
def tryOnce (d : Downloader) (join : String → String → String) (fileName : String)
    (x : Exchange) (w : World) : (Result × Option GoError) × World :=
  match x.reqErr with
  | some e => (({}, some e), w)
  | none =>
    match x.doErr with
    | some e => (({}, some e), w)
    | none =>
      if x.StatusCode < 200 ∨ x.StatusCode ≥ 300 then
        (({}, some ("unexpected status " ++ toString x.StatusCode)), w)
      else
        match (if d.opts.Save then newFileSink join d.opts.OutDir fileName w.fs
               else (newDiscardSink, w.fs)) with
        | (Except.error e, fs1) => (({}, some e), { w with fs := fs1 })
        | (Except.ok handle, fs1) =>
          let copied := copyBuffer ⟨handle.writer.Write, d.agg⟩ x.chunks x.readErr (fs1, w.agg)
          match copied.1 with
          | some e =>
            (({}, some e), ⟨copied.2.2,
              (handle.closeWriter copied.2.1).2.finalizeFailure copied.2.1⟩)
          | none =>
            match handle.closeWriter copied.2.1 with
            | (some e, h1) => (({}, some e), ⟨copied.2.2, h1.finalizeFailure copied.2.1⟩)
            | (none, h1) =>
              match h1.finalizeSuccess copied.2.1 with
              | (some e, fs3) => (({}, some e), ⟨copied.2.2, fs3⟩)
              | (none, fs3) =>
                ((⟨h1.destination, h1.discarded⟩, none), ⟨copied.2.2, fs3⟩)

/-- `Download` with `tryOnce` as its attempt: `xs i` is the answer of the
network to attempt `i`. -/
def downloadURL (d : Downloader) (join : String → String → String) (fileName : String)
    (xs : Nat → Exchange) (ctx : Context) (rnd : Nat → ℚ) (w : World) :
    Option (Outcome World) :=
  Download d (fun i w1 => tryOnce d join fileName (xs i) w1) ctx rnd w

/-- The length of a body delivered in chunks. -/
def payloadLength (chunks : List Bytes) : Nat := (chunks.map List.length).sum

/-- A body of four bytes, delivered in two chunks with status 200. -/
def exampleExchange : Exchange := ⟨none, none, 200, [[97, 98, 99], [100]], none⟩

/-- An endpoint whose first answer breaks off after five bytes and whose
second answer delivers eleven bytes. -/
def flakyExchanges (i : Nat) : Exchange :=
  if i = 0 then ⟨none, none, 200, [[1, 2, 3, 4, 5]], some "unexpected EOF"⟩
  else ⟨none, none, 200, [[1, 2, 3, 4, 5, 6, 7, 8, 9, 10, 11]], none⟩

/-- The file system in which an attempt on `out/file.bin` was opened,
written with the bytes of "hi", closed and rolled back, starting from `fs`. -/
def exampleRolledBack (fs : FS) : FS :=
  (exampleHandle.closeWriter
      (exampleHandle.writer.Write (newFileSink slashJoin "out" "file.bin" fs).2
        [104, 105]).2).2.finalizeFailure
    (exampleHandle.writer.Write (newFileSink slashJoin "out" "file.bin" fs).2 [104, 105]).2

/-- A file system in which an earlier download left one byte at `out/file.bin`. -/
def fsWithFinal : FS := FS.empty.setFile "out/file.bin" (some [7])

/-- A file system in which removing `out/file.bin.part` is denied. -/
def fsRemoveDenied : FS :=
  { FS.empty with fault := fun op =>
      if op = FsOp.remove "out/file.bin.part" then some "permission denied" else none }

/-- A file system in which `out/file.bin` is a directory. -/
def fsFinalIsDir : FS := FS.empty.setDir "out/file.bin" true

/-! ## aggregator.go: formatting -/

/-- The `float64` nearest to the non-negative rational `n / d` (ties to even,
53 significant bits), as a fraction whose denominator is a power of two.
Exact for results in the normal range, which all uses below stay in. -/
def f64Round (n d : Nat) : Nat × Nat :=
  if n = 0 then (0, 1)
  else
    match 52 - floorLog2 n d with
    | Int.ofNat sh => (roundHalfEven (n * 2 ^ sh) d, 2 ^ sh)
    | Int.negSucc sh => (roundHalfEven n (d * 2 ^ (sh + 1)) * 2 ^ (sh + 1), 1)

/-- The decimal digits of `n`, padded with zeros on the left to `width`. -/
def padDigits (width n : Nat) : String :=
  String.mk (List.replicate (width - (toString n).length) '0') ++ toString n

/-- `fmt.Sprintf("%.<prec>f", x)` for the finite value `x = ±n/d`: the exact
value rounded to `prec` decimals, ties to even. -/
def fmtFixed (prec : Nat) (neg : Bool) (n d : Nat) : String :=
  (if neg then "-" else "") ++
    toString (roundHalfEven (n * 10 ^ prec) d / 10 ^ prec) ++
    (if prec = 0 then ""
     else "." ++ padDigits prec (roundHalfEven (n * 10 ^ prec) d % 10 ^ prec))

/-- `fmt.Sprintf("%.<prec>f", x)` for a `float64` `x`. -/
def F64.fmt (prec : Nat) : F64 → String
  | F64.nan => "NaN"
  | F64.posInf => "+Inf"
  | F64.negInf => "-Inf"
  | F64.fin q => fmtFixed prec (decide (q < 0)) q.num.natAbs q.den

/-- `HumanBitsPerSecond`. -/
def HumanBitsPerSecond (bps : F64) : String :=
  if F64.le (F64.fin 1000000000) bps then
    F64.fmt 2 (F64.div bps (F64.fin 1000000000)) ++ " Gbit/s"
  else if F64.le (F64.fin 1000000) bps then
    F64.fmt 2 (F64.div bps (F64.fin 1000000)) ++ " Mbit/s"
  else if F64.le (F64.fin 1000) bps then
    F64.fmt 2 (F64.div bps (F64.fin 1000)) ++ " Kbit/s"
  else if F64.gt bps (F64.fin 0) then F64.fmt 0 bps ++ " bit/s"
  else "0 bit/s"

/-- `HumanBytes`. -/
def HumanBytes (b : F64) : String :=
  if F64.le (F64.fin 1073741824) b then
    F64.fmt 2 (F64.div b (F64.fin 1073741824)) ++ " GiB"
  else if F64.le (F64.fin 1048576) b then
    F64.fmt 2 (F64.div b (F64.fin 1048576)) ++ " MiB"
  else if F64.le (F64.fin 1024) b then
    F64.fmt 2 (F64.div b (F64.fin 1024)) ++ " KiB"
  else if F64.gt b (F64.fin 0) then F64.fmt 0 b ++ " B"
  else "0 B"

/-- The text of a non-negative number with two decimals, stated on its own:
`s` shows the multiple of `1/100` nearest to `x` (ties to the even multiple)
with all the digits of its integer part, a point and two digits. -/
def IsTwoDecimals (x : ℚ) (s : String) : Prop :=
  ∃ N : Nat, NearestEven N (x * 100) ∧
    s = toString (N / 100) ++ "." ++
      String.mk [Nat.digitChar (N / 10 % 10), Nat.digitChar (N % 10)]

/-- The text of a non-negative number without decimals: `s` shows the
integer nearest to `x` (ties to the even one). -/
def IsWhole (x : ℚ) (s : String) : Prop :=
  ∃ N : Nat, NearestEven N x ∧ s = toString N

/-- The magnitude of `float64(d / unit) + float64(d % unit) / unit` for a
duration of `a` nanoseconds: the quotient of the remainder is rounded, then
the sum is rounded.  This is `Duration.Seconds`, `Minutes` and `Hours` of
package `time` for `unit` equal to `1e9`, `60e9` and `3600e9`. -/
def durationIn (unit a : Nat) : Nat × Nat :=
  f64Round (a / unit * (f64Round (a % unit) unit).2 + (f64Round (a % unit) unit).1)
    (f64Round (a % unit) unit).2

/-- `time.Second`, in nanoseconds. -/
def Second : Nat := 1000000000

/-- `time.Minute`, in nanoseconds. -/
def Minute : Nat := 60 * Second

/-- `time.Hour`, in nanoseconds. -/
def Hour : Nat := 60 * Minute

/-- The conversion `int(x)` of a non-negative `float64` given as a fraction. -/
def truncInt (x : Nat × Nat) : Nat := x.1 / x.2

/-- `formatDuration` of aggregator.go, for a `time.Duration` of `d`
nanoseconds. -/
def formatDuration (d : Int) : String :=
  if d < Minute then
    fmtFixed 1 (decide (d < 0)) (durationIn Second d.natAbs).1
      (durationIn Second d.natAbs).2 ++ "s"
  else if d < Hour then
    toString (truncInt (durationIn Minute d.natAbs)) ++ "m " ++
      toString (truncInt (durationIn Second d.natAbs) % 60) ++ "s"
  else
    toString (truncInt (durationIn Hour d.natAbs)) ++ "h " ++
      toString (truncInt (durationIn Minute d.natAbs) % 60) ++ "m " ++
      toString (truncInt (durationIn Second d.natAbs) % 60) ++ "s"

/-! ## Strings and paths: the functions of `strings`, `path` and `path/filepath` used by the repository -/

/-- `unicode.IsSpace`. -/
def isSpace (c : Char) : Bool :=
  (9 ≤ c.toNat && c.toNat ≤ 13) || c.toNat = 32 || c.toNat = 133 || c.toNat = 160 ||
  c.toNat = 5760 || (8192 ≤ c.toNat && c.toNat ≤ 8202) || c.toNat = 8232 ||
  c.toNat = 8233 || c.toNat = 8239 || c.toNat = 8287 || c.toNat = 12288

/-- `strings.TrimSpace`. -/
def TrimSpace (s : String) : String :=
  String.mk (((s.data.dropWhile isSpace).reverse.dropWhile isSpace).reverse)

/-- The elements of a path between its slashes. -/
def splitSlash : List Char → List (List Char)
  | [] => [[]]
  | c :: cs =>
    if c = '/' then [] :: splitSlash cs
    else
      match splitSlash cs with
      | h :: t => (c :: h) :: t
      | [] => [[c]]

/-- The stack of `filepath.Clean`: `..` removes the element before it, is
dropped at the root, and is kept at the start of a relative path. -/
def cleanPush (rooted : Bool) (stack : List (List Char)) (e : List Char) : List (List Char) :=
  if e = ['.', '.'] then
    match stack with
    | top :: rest => if top = ['.', '.'] then e :: stack else rest
    | [] => if rooted then [] else [e]
  else e :: stack

/-- `filepath.Clean` on Unix. -/
def pathClean (p : String) : String :=
  if p = "" then "."
  else
    let rooted : Bool := p.data.head? = some '/'
    let elems := (splitSlash p.data).filter (fun e => e ≠ [] ∧ e ≠ ['.'])
    let body := String.mk (List.intercalate ['/'] (elems.foldl (cleanPush rooted) []).reverse)
    if rooted then "/" ++ body else if body = "" then "." else body

/-- `filepath.Join` of two elements on Unix. -/
def filepathJoin (a b : String) : String :=
  if a = "" then (if b = "" then "" else pathClean b)
  else if b = "" then pathClean a
  else pathClean (a ++ "/" ++ b)

/-- `path.Base`. -/
def pathBase (p : String) : String :=
  if p = "" then "."
  else if (((p.data.reverse.dropWhile (fun c => c = '/')).takeWhile
      (fun c => c ≠ '/')).reverse) = [] then "/"
  else String.mk (((p.data.reverse.dropWhile (fun c => c = '/')).takeWhile
      (fun c => c ≠ '/')).reverse)

/-- `strings.TrimSuffix(s, "/")`. -/
def trimSuffixSlash (s : String) : String :=
  if s.data.getLast? = some '/' then String.mk s.data.dropLast else s

/-! ## naming.go -/

/-- `fallbackName`, `now` being `time.Now().UnixNano()`. -/
def fallbackName (now : Int) : String := "download_" ++ toString now ++ ".bin"

/-- `strings.ReplaceAll` for a pattern and a replacement of one character. -/
def replaceChar (old new : Char) (s : String) : String :=
  String.mk (s.data.map (fun c => if c = old then new else c))

/-- `sanitize` of naming.go. -/
def sanitize (now : Int) (s : String) : String :=
  if TrimSpace (String.mk (s.data.takeWhile (fun c => c ≠ '?'))) = "" then fallbackName now
  else
    replaceChar '/' '-' (replaceChar '\\' '-'
      (TrimSpace (String.mk (s.data.takeWhile (fun c => c ≠ '?')))))

/-- `FileNameFromURL`; `parse raw` is the `Path` of `url.Parse(raw)`, or its
error. -/
def FileNameFromURL (parse : String → Except GoError String) (now : Int) (raw : String) :
    String :=
  match parse raw with
  | Except.error _ => fallbackName now
  | Except.ok path =>
    if pathBase path = "." ∨ pathBase path = "/" ∨ pathBase path = "" then fallbackName now
    else if trimSuffixSlash (pathBase path) = "" then fallbackName now
    else sanitize now (trimSuffixSlash (pathBase path))

/-! ## config.go -/

/-- `Config` of config.go. -/
structure Config where
  ListPath : String
  Save : Bool
  OutDir : String
  Workers : Int
  Timeout : Int
  Retries : Int
  Progress : Bool
deriving DecidableEq, Repr

/-- `DefaultWorkers`, `numCPU` being `runtime.NumCPU()`. -/
def DefaultWorkers (numCPU : Int) : Int :=
  if (if wrap64 (numCPU * 2) < 1 then 1 else wrap64 (numCPU * 2)) > 64 then 64
  else (if wrap64 (numCPU * 2) < 1 then 1 else wrap64 (numCPU * 2))

/-- The `OutDir` and `Save` part of `Normalize`. -/
def Config.normalizeOut (c : Config) : Config :=
  let c1 : Config :=
    if TrimSpace c.OutDir ≠ "" then { c with OutDir := pathClean c.OutDir, Save := true }
    else if c.Save then { c with OutDir := "downloads" }
    else c
  if c1.Save ∧ c1.OutDir = "" then { c1 with OutDir := "downloads" } else c1

/-- `Config.Normalize`: the returned error and the configuration as the call
leaves it. -/
def Config.Normalize (numCPU : Int) (c : Config) : Option GoError × Config :=
  if c.ListPath = "" then (some "-list is required", c)
  else
    let c1 : Config := if c.Workers ≤ 0 then { c with Workers := DefaultWorkers numCPU } else c
    if c1.Timeout ≤ 0 then (some "-timeout must be greater than 0", c1)
    else if c1.Retries < 0 then (some "-retries cannot be negative", c1)
    else (none, c1.normalizeOut)

/-- The `Path` that `url.Parse` yields for the URLs of the examples below;
`url.Parse` does not remove dot segments. -/
def exampleParse (raw : String) : Except GoError String :=
  if raw = "http://example.com/.." then Except.ok "/.."
  else if raw = "http://example.com/files/report.pdf" then Except.ok "/files/report.pdf"
  else Except.error "parse error"

/-! ## Theorems: the retry loop -/

/-- One iteration of the loop that fails, sees no cancellation and is not the
last one continues with the next attempt. -/
theorem downloadLoop_continue {σ : Type}
    (tryOnce : Nat → σ → (Result × Option GoError) × σ) (ctx : Context) (rnd : Nat → ℚ)
    (retries : Int) (fuel attempt : Nat) (lastErr : Option GoError) (waits : List Int)
    (s : σ) (e : GoError) (hlt : (attempt : Int) < retries)
    (herr : (tryOnce attempt s).1.2 = some e) (h1 : ctx.errAfter attempt = none)
    (h2 : ctx.doneInWait attempt = none) :
    downloadLoop tryOnce ctx rnd retries (fuel + 1) attempt lastErr waits s =
      downloadLoop tryOnce ctx rnd retries fuel (attempt + 1) (some e)
        (waits ++ [backoffDelay rnd attempt]) (tryOnce attempt s).2 := by
  rw [downloadLoop]
  simp only [if_pos (le_of_lt hlt), herr, h1, h2, if_neg (ne_of_lt hlt)]

/-- When the first `n` attempts fail, none of them is the last one and no
cancellation is seen, the loop reaches attempt `n`. -/
theorem downloadLoop_reaches {σ : Type}
    (tryOnce : Nat → σ → (Result × Option GoError) × σ) (ctx : Context) (rnd : Nat → ℚ)
    (retries : Int) (s : σ) (n : Nat)
    (hfail : ∀ i, i < n → attemptErr tryOnce s i ≠ none)
    (hctx : ∀ i, i < n → ctx.errAfter i = none ∧ ctx.doneInWait i = none)
    (hn : (n : Int) ≤ retries) (fuel : Nat) :
    downloadLoop tryOnce ctx rnd retries (fuel + n) 0 none [] s =
      downloadLoop tryOnce ctx rnd retries fuel n (carriedErr tryOnce s n)
        ((List.range n).map (backoffDelay rnd)) (attemptState tryOnce s n) := by
  induction n generalizing fuel with
  | zero => rfl
  | succ n ih =>
    have hn1 : (n : Int) < retries := by push_cast at hn; omega
    have h := ih (fun i hi => hfail i (Nat.lt_succ_of_lt hi))
      (fun i hi => hctx i (Nat.lt_succ_of_lt hi)) (le_of_lt hn1) (fuel + 1)
    have hfuel : fuel + (n + 1) = fuel + 1 + n := by omega
    rw [hfuel, h]
    obtain ⟨e, he⟩ := Option.ne_none_iff_exists'.mp (hfail n (Nat.lt_succ_self n))
    have he2 : (tryOnce n (attemptState tryOnce s n)).1.2 = some e := he
    rw [downloadLoop_continue tryOnce ctx rnd retries fuel n _ _ _ e hn1 he2
      (hctx n (Nat.lt_succ_self n)).1 (hctx n (Nat.lt_succ_self n)).2]
    simp only [carriedErr, attemptErr, he2, attemptState, List.range_succ, List.map_append,
      List.map_cons, List.map_nil]


/-- With a configured client and `k` within the retry budget, failing
attempts `0 .. k-1` without cancellation bring `Download` to attempt `k`. -/
theorem Download_reaches {σ : Type} (d : Downloader)
    (tryOnce : Nat → σ → (Result × Option GoError) × σ) (ctx : Context) (rnd : Nat → ℚ)
    (s : σ) (k : Nat) (hc : d.client = true) (hk : (k : Int) ≤ d.opts.Retries)
    (hfail : ∀ i, i < k → attemptErr tryOnce s i ≠ none)
    (hctx : ∀ i, i < k → ctx.errAfter i = none ∧ ctx.doneInWait i = none) :
    ∃ fuel, Download d tryOnce ctx rnd s =
      downloadLoop tryOnce ctx rnd d.opts.Retries (fuel + 1) k (carriedErr tryOnce s k)
        ((List.range k).map (backoffDelay rnd)) (attemptState tryOnce s k) := by
  refine ⟨(d.opts.Retries - k).toNat, ?_⟩
  have hfuel : (d.opts.Retries + 1).toNat = (d.opts.Retries - k).toNat + 1 + k := by omega
  unfold Download
  rw [if_neg (by simp [hc]), hfuel]
  exact downloadLoop_reaches tryOnce ctx rnd d.opts.Retries s k hfail hctx hk _

/-- C1: with retry budget `R ≥ 0`, a context that is never cancelled and
attempts that all fail, `Download` makes exactly `R + 1` attempts and returns
the zero `Result` with a non-nil error, the error of attempt number `R + 1`. -/
theorem Download_exhausts_retries {σ : Type} (d : Downloader)
    (tryOnce : Nat → σ → (Result × Option GoError) × σ) (ctx : Context) (rnd : Nat → ℚ)
    (s : σ) (R : Nat) (hc : d.client = true) (hR : d.opts.Retries = (R : Int))
    (hctx : ∀ i, ctx.errAfter i = none ∧ ctx.doneInWait i = none)
    (hfail : ∀ i, i ≤ R → attemptErr tryOnce s i ≠ none) :
    ∃ o, Download d tryOnce ctx rnd s = some o ∧ o.attempts = R + 1 ∧ o.err ≠ none ∧
      o.err = attemptErr tryOnce s R ∧ o.res = {} := by
  obtain ⟨fuel, h⟩ := Download_reaches d tryOnce ctx rnd s R hc (by rw [hR])
    (fun i hi => hfail i (le_of_lt hi)) (fun i _ => hctx i)
  obtain ⟨e, he⟩ := Option.ne_none_iff_exists'.mp (hfail R (le_refl R))
  have he2 : (tryOnce R (attemptState tryOnce s R)).1.2 = some e := he
  rw [h, downloadLoop]
  simp only [hR, le_refl, if_true, he2, (hctx R).1]
  exact ⟨_, rfl, rfl, by simp, by simp [attemptErr, he2], rfl⟩

/-- C1 witness: budget 2, every attempt answers with a 500 status. -/
theorem Download_exhausts_retries_witness :
    ∃ o, Download ⟨true, true, ⟨false, "", 2⟩⟩
        (fun _ (s : Unit) => (({}, some "unexpected status 500"), s))
        Context.background (fun _ => 0) () = some o ∧ o.attempts = 2 + 1 ∧ o.err ≠ none ∧
      o.err = attemptErr (fun _ (s : Unit) => (({}, some "unexpected status 500"), s)) () 2 ∧
      o.res = {} :=
  Download_exhausts_retries ⟨true, true, ⟨false, "", 2⟩⟩ _ Context.background (fun _ => 0) () 2
    rfl rfl (fun _ => ⟨rfl, rfl⟩) (fun _ _ => by simp [attemptErr])

/-- C2: with retry budget `R ≥ 0` and `k ≤ R`, a context that is never
cancelled, `k` failing attempts and a successful attempt `k + 1`, `Download`
returns the `Result` of that attempt with a nil error after exactly `k + 1`
attempts. -/
theorem Download_succeeds_after_failures {σ : Type} (d : Downloader)
    (tryOnce : Nat → σ → (Result × Option GoError) × σ) (ctx : Context) (rnd : Nat → ℚ)
    (s : σ) (R k : Nat) (hc : d.client = true) (hR : d.opts.Retries = (R : Int))
    (hk : k ≤ R) (hctx : ∀ i, ctx.errAfter i = none ∧ ctx.doneInWait i = none)
    (hfail : ∀ i, i < k → attemptErr tryOnce s i ≠ none)
    (hok : attemptErr tryOnce s k = none) :
    ∃ o, Download d tryOnce ctx rnd s = some o ∧ o.attempts = k + 1 ∧ o.err = none ∧
      o.res = attemptRes tryOnce s k := by
  have hkR : (k : Int) ≤ d.opts.Retries := by rw [hR]; exact_mod_cast hk
  obtain ⟨fuel, h⟩ := Download_reaches d tryOnce ctx rnd s k hc hkR hfail (fun i _ => hctx i)
  have hok2 : (tryOnce k (attemptState tryOnce s k)).1.2 = none := hok
  rw [h, downloadLoop]
  simp only [if_pos hkR, hok2]
  exact ⟨_, rfl, rfl, rfl, rfl⟩

/-- C2 witness, the test `TestDownloadRetries`: budget 2, one 502 response,
then success in discard mode. -/
theorem Download_succeeds_after_failures_witness :
    ∃ o, Download ⟨true, true, ⟨false, "", 2⟩⟩
        (fun i (s : Unit) =>
          if i = 0 then (({}, some "unexpected status 502"), s) else ((⟨"", true⟩, none), s))
        Context.background (fun _ => 0) () = some o ∧ o.attempts = 1 + 1 ∧ o.err = none ∧
      o.res = attemptRes (fun i (s : Unit) =>
          if i = 0 then (({}, some "unexpected status 502"), s) else ((⟨"", true⟩, none), s))
        () 1 :=
  Download_succeeds_after_failures ⟨true, true, ⟨false, "", 2⟩⟩ _ Context.background (fun _ => 0) ()
    2 1 rfl rfl (by decide) (fun _ => ⟨rfl, rfl⟩)
    (fun i hi => by have : i = 0 := by omega
                    subst this; simp [attemptErr]) (by simp [attemptErr])

/-- C3: whatever the retry budget, when attempt `k` is reached and fails, and
the context is cancelled when that attempt returns or during the backoff wait
that follows it, `Download` stops after `k + 1` attempts and returns the
error of the context. -/
theorem Download_cancelled {σ : Type} (d : Downloader)
    (tryOnce : Nat → σ → (Result × Option GoError) × σ) (ctx : Context) (rnd : Nat → ℚ)
    (s : σ) (k : Nat) (ce : GoError) (hc : d.client = true)
    (hk : (k : Int) ≤ d.opts.Retries)
    (hfail : ∀ i, i ≤ k → attemptErr tryOnce s i ≠ none)
    (hctx : ∀ i, i < k → ctx.errAfter i = none ∧ ctx.doneInWait i = none)
    (hcancel : ctx.errAfter k = some ce ∨
      (ctx.errAfter k = none ∧ (k : Int) < d.opts.Retries ∧ ctx.doneInWait k = some ce)) :
    ∃ o, Download d tryOnce ctx rnd s = some o ∧ o.attempts = k + 1 ∧ o.err = some ce := by
  obtain ⟨fuel, h⟩ := Download_reaches d tryOnce ctx rnd s k hc hk
    (fun i hi => hfail i (le_of_lt hi)) hctx
  obtain ⟨e, he⟩ := Option.ne_none_iff_exists'.mp (hfail k (le_refl k))
  have he2 : (tryOnce k (attemptState tryOnce s k)).1.2 = some e := he
  rw [h, downloadLoop]
  rcases hcancel with h1 | ⟨h1, h2, h3⟩
  · simp only [if_pos hk, he2, h1]
    exact ⟨_, rfl, rfl, rfl⟩
  · simp only [if_pos hk, he2, h1, if_neg (ne_of_lt h2), h3]
    exact ⟨_, rfl, rfl, rfl⟩

/-- C3 witness: budget 3, the first attempt fails and the context is
cancelled during the first backoff wait. -/
theorem Download_cancelled_witness :
    ∃ o, Download ⟨true, true, ⟨false, "", 3⟩⟩
        (fun _ (s : Unit) => (({}, some "connection refused"), s))
        ⟨fun _ => none, fun _ => some "context canceled"⟩ (fun _ => 0) () = some o ∧
      o.attempts = 0 + 1 ∧ o.err = some "context canceled" :=
  Download_cancelled ⟨true, true, ⟨false, "", 3⟩⟩ _ ⟨fun _ => none, fun _ => some "context canceled"⟩
    (fun _ => 0) () 0 "context canceled" rfl (by decide) (fun _ _ => by simp [attemptErr])
    (fun i hi => by omega) (Or.inr ⟨rfl, by decide, rfl⟩)

/-! ## Theorems: the worker pool -/

/-- Adding one to an `int32` counter commutes with the reduction. -/
theorem wrap32_succ (c : Int) : wrap32 (wrap32 c + 1) = wrap32 (c + 1) := by
  unfold wrap32
  norm_num
  omega

/-- Counts below `2^31` are not changed by the `int32` reduction. -/
theorem wrap32_of_lt (n : Nat) (h : n < 2 ^ 31) : wrap32 (n : Int) = n := by
  unfold wrap32
  norm_num at h ⊢
  omega

/-- The initial state of `Run` satisfies the invariant. -/
theorem runInit_inv (m : Manager) (dlErr : Nat → Option GoError) (urls : List String) :
    RunInv m.workers.toNat dlErr urls (runInit m urls) := by
  refine ⟨rfl, by simp [runInit], by simp [runInit], by simp [runInit], ?_, by simp [runInit],
    by simp [runInit]⟩
  simp [runInit, wrap32]

/-- Every move other than a cancellation preserves the invariant. -/
theorem runStep_inv (W cap : Nat) (dlErr : Nat → Option GoError) (urls : List String)
    (e : Event) (s s1 : RunState) (he : e ≠ Event.cancel)
    (h : runStep cap dlErr e s = some s1) (hinv : RunInv W dlErr urls s) :
    RunInv W dlErr urls s1 := by
  obtain ⟨h1, h2, h3, h4, h5, h6, h7⟩ := hinv
  cases e with
  | send =>
    simp only [runStep] at h
    split at h
    · rename_i u rest hp
      split at h
      · rename_i hc
        cases h
        refine ⟨h1, ?_, ?_, h4, h5, h6, ?_⟩
        · simpa [hp] using h2
        · intro hcl
          have hcl1 : s.closed = true := hcl
          simp [hcl1] at hc
        · intro hlt; have := (h7 hlt).1; simp [this] at hc
      · cases h
    · cases h
  | close =>
    simp only [runStep] at h
    split at h
    · rename_i hc
      cases h
      exact ⟨h1, h2, fun _ => hc.2, h4, h5, h6, fun hlt => ⟨rfl, (h7 hlt).2⟩⟩
    · cases h
  | feederQuit =>
    simp only [runStep] at h
    split at h
    · rename_i hc
      simp [h1] at hc
    · cases h
  | recv =>
    simp only [runStep] at h
    split at h
    · rename_i u rest hj
      split at h
      · rename_i hc
        cases h
        refine ⟨h1, ?_, h3, ?_, h5, ?_, ?_⟩
        · simpa [hj] using h2
        · simp only [List.length_append, List.length_singleton, List.range_succ]
          exact (List.perm_middle).trans ((List.Perm.cons _ h4).trans
            (List.perm_append_singleton _ _).symm)
        · simp only [List.length_cons]; omega
        · intro hlt
          simp only [List.length_cons] at hlt
          have := (h7 (by omega)).2
          simp [hj] at this
      · cases h
    · cases h
  | finish k =>
    simp only [runStep] at h
    split at h
    · rename_i hk
      cases h
      refine ⟨h1, h2, h3, ?_, ?_, ?_, ?_⟩
      · refine List.Perm.trans ?_ h4
        simp only [List.append_assoc, List.singleton_append]
        exact List.Perm.append_left _ (List.perm_cons_erase hk).symm
      · simp only [List.countP_append, List.countP_cons, List.countP_nil]
        cases hd : (dlErr k).isSome
        · simp [h5]
        · simp only [if_true, h5, zero_add]
          rw [wrap32_succ]; push_cast; rfl
      · simp only [List.length_erase_of_mem hk]
        have : 0 < s.busy.length := List.length_pos_of_mem hk
        omega
      · intro hlt
        simp only [List.length_erase_of_mem hk] at hlt
        have : 0 < s.busy.length := List.length_pos_of_mem hk
        exact h7 (by omega)
    · cases h
  | exit =>
    simp only [runStep] at h
    split at h
    · rename_i hc
      cases h
      exact ⟨h1, h2, h3, h4, h5, by simp only; omega, fun _ => ⟨hc.2.2, hc.2.1⟩⟩
    · cases h
  | workerQuit =>
    simp only [runStep] at h
    split at h
    · rename_i hc
      simp [h1] at hc
    · cases h
  | cancel => exact absurd rfl he

/-- Every move other than a cancellation decreases the measure. -/
theorem runStep_measure (cap : Nat) (dlErr : Nat → Option GoError) (e : Event)
    (s s1 : RunState) (he : e ≠ Event.cancel) (h : runStep cap dlErr e s = some s1) :
    runMeasure s1 < runMeasure s := by
  cases e with
  | send =>
    simp only [runStep] at h
    split at h
    · rename_i u rest hp
      split at h
      · rename_i hc
        cases h
        simp only [runMeasure, hp, List.length_cons, List.length_append, List.length_nil]
        omega
      · cases h
    · cases h
  | close =>
    simp only [runStep] at h
    split at h
    · rename_i hc
      cases h
      simp [runMeasure, hc.1]
    · cases h
  | feederQuit =>
    simp only [runStep] at h
    split at h
    · rename_i hc
      cases h
      simp [runMeasure, hc.1]
    · cases h
  | recv =>
    simp only [runStep] at h
    split at h
    · rename_i u rest hj
      split at h
      · rename_i hc
        cases h
        simp only [runMeasure, hj, List.length_cons]
        omega
      · cases h
    · cases h
  | finish k =>
    simp only [runStep] at h
    split at h
    · rename_i hk
      cases h
      have : 0 < s.busy.length := List.length_pos_of_mem hk
      simp only [runMeasure, List.length_erase_of_mem hk]
      omega
    · cases h
  | exit =>
    simp only [runStep] at h
    split at h
    · rename_i hc
      cases h
      simp only [runMeasure]
      omega
    · cases h
  | workerQuit =>
    simp only [runStep] at h
    split at h
    · rename_i hc
      cases h
      simp only [runMeasure]
      omega
    · cases h
  | cancel => exact absurd rfl he

/-- Along a sequence of moves without cancellation the invariant is kept and
the measure pays for every move. -/
theorem runExec_inv (W cap : Nat) (dlErr : Nat → Option GoError) (urls : List String)
    (evs : List Event) (s s1 : RunState) (hnc : Event.cancel ∉ evs)
    (h : runExec cap dlErr evs s = some s1) (hinv : RunInv W dlErr urls s) :
    RunInv W dlErr urls s1 ∧ runMeasure s1 + evs.length ≤ runMeasure s := by
  induction evs generalizing s with
  | nil =>
    simp only [runExec, Option.some.injEq] at h
    subst h
    exact ⟨hinv, by simp⟩
  | cons e es ih =>
    simp only [runExec] at h
    have he : e ≠ Event.cancel := fun hc => hnc (by simp [hc])
    have hes : Event.cancel ∉ es := fun hc => hnc (List.mem_cons_of_mem _ hc)
    cases hstep : runStep cap dlErr e s with
    | none => simp [hstep] at h
    | some s2 =>
      simp only [hstep] at h
      obtain ⟨hi, hm⟩ := ih s2 hes h (runStep_inv W cap dlErr urls e s s2 he hstep hinv)
      have := runStep_measure cap dlErr e s s2 he hstep
      exact ⟨hi, by simp only [List.length_cons]; omega⟩

/-- While a worker has not returned, some goroutine can move: `Run` under a
context that is never cancelled does not deadlock. -/
theorem runStep_progress (cap : Nat) (dlErr : Nat → Option GoError)
    (s : RunState) (hcap : 0 < cap) (hw : s.waitDone = false) :
    ∃ e s1, e ≠ Event.cancel ∧ runStep cap dlErr e s = some s1 := by
  have key : ∃ e, e ≠ Event.cancel ∧ (runStep cap dlErr e s).isSome = true := by
    cases hb : s.busy with
    | cons k ks => exact ⟨Event.finish k, by simp, by simp [runStep, hb]⟩
    | nil =>
      have hidle : 0 < s.idle := by
        simp only [RunState.waitDone, hb, List.isEmpty_nil, Bool.and_true,
          beq_eq_false_iff_ne, ne_eq] at hw
        omega
      cases hj : s.jobs with
      | cons u rest => exact ⟨Event.recv, by simp, by simp [runStep, hj, hidle]⟩
      | nil =>
        cases hc : s.closed with
        | true => exact ⟨Event.exit, by simp, by simp [runStep, hj, hc, hidle]⟩
        | false =>
          cases hp : s.pending with
          | nil => exact ⟨Event.close, by simp, by simp [runStep, hc, hp]⟩
          | cons u rest => exact ⟨Event.send, by simp, by simp [runStep, hc, hp, hj, hcap]⟩
  obtain ⟨e, he, hs⟩ := key
  obtain ⟨s1, hs1⟩ := Option.isSome_iff_exists.mp hs
  exact ⟨e, s1, he, hs1⟩

/-- From every state of the invariant some sequence of moves without
cancellation brings all workers to return. -/
theorem runExec_terminates (W cap : Nat) (dlErr : Nat → Option GoError)
    (urls : List String) (hcap : 0 < cap) (n : Nat) (s : RunState)
    (hn : runMeasure s ≤ n) (hinv : RunInv W dlErr urls s) :
    ∃ evs s1, Event.cancel ∉ evs ∧ runExec cap dlErr evs s = some s1 ∧
      s1.waitDone = true := by
  induction n generalizing s with
  | zero =>
    refine ⟨[], s, by simp, rfl, ?_⟩
    by_contra hw
    obtain ⟨e, s1, he, hs⟩ := runStep_progress cap dlErr s hcap (by simpa using hw)
    have := runStep_measure cap dlErr e s s1 he hs
    omega
  | succ n ih =>
    cases hw : s.waitDone with
    | true => exact ⟨[], s, by simp, rfl, hw⟩
    | false =>
      obtain ⟨e, s1, he, hs⟩ := runStep_progress cap dlErr s hcap hw
      have hm := runStep_measure cap dlErr e s s1 he hs
      obtain ⟨evs, s2, hnc, hex, hd⟩ :=
        ih s1 (by omega) (runStep_inv W cap dlErr urls e s s1 he hs hinv)
      refine ⟨e :: evs, s2, ?_, by simp [runExec, hs, hex], hd⟩
      simp only [List.mem_cons, not_or]
      exact ⟨fun h => he h.symm, hnc⟩

/-- Once all workers have returned, every URL has been handed to `Download`
once, in input order, and the counter holds the number of failed downloads
reduced to `int32`. -/
theorem runInv_waitDone (W : Nat) (dlErr : Nat → Option GoError) (urls : List String)
    (s : RunState) (hW : 0 < W) (hinv : RunInv W dlErr urls s) (hw : s.waitDone = true) :
    s.calls = urls ∧ s.failed = wrap32 (failedDownloads dlErr urls) := by
  obtain ⟨_, h2, h3, h4, h5, _, h7⟩ := hinv
  simp only [RunState.waitDone, Bool.and_eq_true, beq_iff_eq, List.isEmpty_iff] at hw
  obtain ⟨hi, hb⟩ := hw
  obtain ⟨hc, hj⟩ := h7 (by simp [hi, hb, hW])
  have hcalls : s.calls = urls := by simpa [hj, h3 hc] using h2
  refine ⟨hcalls, ?_⟩
  rw [h5, failedDownloads, ← hcalls]
  rw [hb, List.append_nil] at h4
  rw [h4.countP_eq]

/-- A manager made by `NewManager` has at least one worker. -/
theorem NewManager_workers_pos (w : Int) : 0 < (NewManager w).workers.toNat := by
  unfold NewManager
  split
  · simp
  · simp; omega

/-- The job channel of a manager made by `NewManager` has room. -/
theorem NewManager_jobsCap_pos (w : Int) : 0 < jobsCap (NewManager w) := by
  unfold jobsCap NewManager
  split
  · simp
  · simp; omega

/-- The decimal rendering of a natural number read as an `Int`. -/
theorem toString_natCast (n : Nat) : toString (n : Int) = toString n := rfl

/-- What `Run` returns in terms of the number of failed downloads, the
counter being an `int32`. -/
theorem runResult_waitDone (w : Int) (dlErr : Nat → Option GoError) (urls : List String)
    (evs : List Event) (s : RunState) (hrun : runsTo (NewManager w) dlErr urls evs s)
    (hw : s.waitDone = true) :
    s.calls = urls ∧ s.failed = wrap32 (failedDownloads dlErr urls) := by
  obtain ⟨hnc, hex⟩ := hrun
  have hinv := (runExec_inv _ _ dlErr urls evs _ s hnc hex
    (runInit_inv (NewManager w) dlErr urls)).1
  exact runInv_waitDone _ dlErr urls s (NewManager_workers_pos w) hinv hw

/-- C4 (amended): for every list of URLs of which fewer than `2^31` fail, an
execution of `Run` under a context that is never cancelled makes at most
`3 * len(urls) + workers + 1` moves, can move as long as a worker has not
returned, and when all workers have returned `Download` has been invoked
exactly once per list entry, in input order, and `Run` returns nil when no
download failed and the error "n downloads failed" when `n > 0` of them did. -/
theorem Run_reports_failed_downloads (w : Int) (dlErr : Nat → Option GoError)
    (urls : List String) (evs : List Event) (s : RunState)
    (hrun : runsTo (NewManager w) dlErr urls evs s)
    (hsmall : failedDownloads dlErr urls < 2 ^ 31) :
    evs.length ≤ 3 * urls.length + (NewManager w).workers.toNat + 1 ∧
    (s.waitDone = false →
      ∃ e s1, e ≠ Event.cancel ∧ runStep (jobsCap (NewManager w)) dlErr e s = some s1) ∧
    (s.waitDone = true → s.calls = urls ∧
      runResult s = if failedDownloads dlErr urls = 0 then none
        else some (toString (failedDownloads dlErr urls) ++ " downloads failed")) := by
  refine ⟨?_, fun hw => runStep_progress _ dlErr s (NewManager_jobsCap_pos w) hw, fun hw => ?_⟩
  · have h := (runExec_inv _ _ dlErr urls evs _ s hrun.1 hrun.2
      (runInit_inv (NewManager w) dlErr urls)).2
    simp only [runMeasure, runInit, List.length_nil] at h
    simp only [Bool.false_eq_true, if_false] at h
    omega
  · obtain ⟨hc, hf⟩ := runResult_waitDone w dlErr urls evs s hrun hw
    refine ⟨hc, ?_⟩
    rw [wrap32_of_lt _ hsmall] at hf
    unfold runResult
    rw [hf]
    by_cases h0 : failedDownloads dlErr urls = 0
    · simp [h0]
    · have hpos : (0 : Int) < (failedDownloads dlErr urls : Int) := by
        exact_mod_cast Nat.pos_of_ne_zero h0
      rw [if_pos hpos, if_neg h0, toString_natCast]

/-- C4 witness, the test `TestManagerRunFailure`: three URLs, four workers,
the second download fails. -/
theorem Run_reports_failed_downloads_witness :
    runsTo (NewManager 4) (fun k => if k = 1 then some "unexpected status 500" else none)
      ["u0", "u1", "u2"]
      [Event.send, Event.send, Event.recv, Event.send, Event.close, Event.recv, Event.recv,
        Event.finish 1, Event.finish 0, Event.finish 2, Event.exit, Event.exit, Event.exit,
        Event.exit]
      { pending := [], jobs := [], closed := true, cancelled := false, idle := 0, busy := [],
        failed := 1, calls := ["u0", "u1", "u2"], finished := [1, 0, 2] } ∧
    runResult
      { pending := [], jobs := [], closed := true, cancelled := false, idle := 0, busy := [],
        failed := 1, calls := ["u0", "u1", "u2"], finished := [1, 0, 2] } =
      some "1 downloads failed" :=
  have h : runsTo (NewManager 4)
      (fun k => if k = 1 then some "unexpected status 500" else none) ["u0", "u1", "u2"]
      [Event.send, Event.send, Event.recv, Event.send, Event.close, Event.recv, Event.recv,
        Event.finish 1, Event.finish 0, Event.finish 2, Event.exit, Event.exit, Event.exit,
        Event.exit]
      { pending := [], jobs := [], closed := true, cancelled := false, idle := 0, busy := [],
        failed := 1, calls := ["u0", "u1", "u2"], finished := [1, 0, 2] } := by decide
  ⟨h, ((Run_reports_failed_downloads 4 _ _ _ _ h (by decide)).2.2 (by decide)).2.trans
    (by decide)⟩

/-- When every download fails, the number of failed downloads is the number
of URLs. -/
theorem failedDownloads_all (e : GoError) (urls : List String) :
    failedDownloads (fun _ => some e) urls = urls.length := by
  simp [failedDownloads]

/-- The `int32` counter after `2^31` increments is negative. -/
theorem wrap32_two_pow_31 : wrap32 ((2147483648 : Nat) : Int) = -2147483648 := by
  unfold wrap32
  norm_num

/-- C4 counterexample: with `2^31` URLs whose downloads all fail, `Run` under
a context that is never cancelled returns nil. -/
theorem Run_failure_counter_wraps :
    ∃ evs s, runsTo (NewManager 1) (fun _ => some "unexpected status 500")
        (List.replicate 2147483648 "u") evs s ∧ s.waitDone = true ∧
      0 < failedDownloads (fun _ => some "unexpected status 500")
        (List.replicate 2147483648 "u") ∧
      runResult s = none := by
  have hlen : (List.replicate 2147483648 "u").length = 2147483648 := List.length_replicate _ _
  generalize List.replicate 2147483648 "u" = urls at hlen
  have hcount := failedDownloads_all "unexpected status 500" urls
  rw [hlen] at hcount
  obtain ⟨evs, s, hnc, hex, hw⟩ := runExec_terminates _ _
    (fun _ => some "unexpected status 500") urls
    (NewManager_jobsCap_pos 1) _ _ (le_refl _)
    (runInit_inv (NewManager 1) _ urls)
  refine ⟨evs, s, ⟨hnc, hex⟩, hw, by rw [hcount]; norm_num, ?_⟩
  have hf := (runResult_waitDone 1 _ _ evs s ⟨hnc, hex⟩ hw).2
  rw [hcount, wrap32_two_pow_31] at hf
  unfold runResult
  rw [hf]
  rfl

/-! ## Theorems: the byte counters -/

/-- Values of the `int64` range are not changed by the reduction. -/
theorem wrap64_of_range (x : Int) (h1 : -(2 ^ 63) ≤ x) (h2 : x ≤ maxInt64) : wrap64 x = x := by
  unfold wrap64
  unfold maxInt64 at h2
  norm_num at h1 h2 ⊢
  omega

/-- The sum of the strictly positive entries is not negative. -/
theorem positiveSum_nonneg (ns : List Int) : 0 ≤ positiveSum ns := by
  unfold positiveSum
  apply List.sum_nonneg
  intro x hx
  have := (List.mem_filter.mp hx).2
  simp only [decide_eq_true_eq] at this
  exact le_of_lt this

/-- The positive sum of a list with one more entry in front. -/
theorem positiveSum_cons (n : Int) (ns : List Int) :
    positiveSum (n :: ns) = (if 0 < n then n else 0) + positiveSum ns := by
  unfold positiveSum
  by_cases h : 0 < n
  · simp [List.filter_cons, h]
  · simp [List.filter_cons, h]

/-- As long as neither counter overflows, a sequence of `AddBytes` calls adds
the sum of its strictly positive arguments to both counters and leaves the
peak alone. -/
theorem addAll_no_overflow (ns : List Int) (a : Aggregator)
    (hs : 0 ≤ a.bytesThisSec) (ht : 0 ≤ a.bytesTotal)
    (hs2 : a.bytesThisSec + positiveSum ns ≤ maxInt64)
    (ht2 : a.bytesTotal + positiveSum ns ≤ maxInt64) :
    (a.addAll ns).bytesThisSec = a.bytesThisSec + positiveSum ns ∧
    (a.addAll ns).bytesTotal = a.bytesTotal + positiveSum ns ∧
    (a.addAll ns).peakBps = a.peakBps := by
  induction ns generalizing a with
  | nil => simp [Aggregator.addAll, positiveSum]
  | cons n ns ih =>
    have hnn := positiveSum_nonneg ns
    rw [positiveSum_cons] at hs2 ht2 ⊢
    simp only [Aggregator.addAll, List.foldl_cons] at ih ⊢
    by_cases hn : 0 < n
    · simp only [if_pos hn] at hs2 ht2 ⊢
      have e1 : wrap64 (a.bytesThisSec + n) = a.bytesThisSec + n :=
        wrap64_of_range _ (by norm_num; omega) (by omega)
      have e2 : wrap64 (a.bytesTotal + n) = a.bytesTotal + n :=
        wrap64_of_range _ (by norm_num; omega) (by omega)
      have hb1 : (a.AddBytes n).bytesThisSec = a.bytesThisSec + n := by
        simp [Aggregator.AddBytes, not_le.mpr hn, e1]
      have hb2 : (a.AddBytes n).bytesTotal = a.bytesTotal + n := by
        simp [Aggregator.AddBytes, not_le.mpr hn, e2]
      have hb3 : (a.AddBytes n).peakBps = a.peakBps := by
        simp [Aggregator.AddBytes, not_le.mpr hn]
      obtain ⟨h1, h2, h3⟩ := ih (a.AddBytes n) (by rw [hb1]; omega) (by rw [hb2]; omega)
        (by rw [hb1]; omega) (by rw [hb2]; omega)
      rw [hb1] at h1
      rw [hb2] at h2
      rw [hb3] at h3
      exact ⟨by rw [h1]; ring, by rw [h2]; ring, h3⟩
    · simp only [if_neg hn, zero_add] at hs2 ht2 ⊢
      have hstep : a.AddBytes n = a := by simp [Aggregator.AddBytes, not_lt.mp hn]
      rw [hstep]
      exact ih a hs ht hs2 ht2

/-- C6 (amended): for every sequence of `AddBytes` calls on a fresh
Aggregator whose strictly positive arguments sum to at most `2^63 - 1`,
`TotalBytes` equals that sum; a call `AddBytes(n)` with `n <= 0` changes
neither the total nor the interval counter. -/
theorem AddBytes_total_is_positive_sum (ns : List Int) (h : positiveSum ns ≤ maxInt64) :
    (NewAggregator.addAll ns).TotalBytes = positiveSum ns ∧
    ∀ (a : Aggregator) (n : Int), n ≤ 0 → a.AddBytes n = a := by
  refine ⟨?_, fun a n hn => by simp [Aggregator.AddBytes, hn]⟩
  have := (addAll_no_overflow ns NewAggregator (by simp [NewAggregator])
    (by simp [NewAggregator]) (by simpa [NewAggregator] using h)
    (by simpa [NewAggregator] using h)).2.1
  simpa [Aggregator.TotalBytes, NewAggregator] using this

/-- C6 witness, the test `TestAggregatorCounts` with a non-positive call. -/
theorem AddBytes_total_is_positive_sum_witness :
    positiveSum [512, -3, 0] ≤ maxInt64 ∧
    (NewAggregator.addAll [512, -3, 0]).TotalBytes = positiveSum [512, -3, 0] ∧
    (NewAggregator.AddBytes 512).AddBytes (-3) = NewAggregator.AddBytes 512 :=
  ⟨by decide, (AddBytes_total_is_positive_sum [512, -3, 0] (by decide)).1,
    (AddBytes_total_is_positive_sum [512, -3, 0] (by decide)).2 _ (-3) (by decide)⟩

/-- C6 counterexample: `AddBytes(2^63 - 1)` followed by `AddBytes(1)` on a
fresh Aggregator leaves `TotalBytes` at `-2^63`, not at the sum `2^63`. -/
theorem AddBytes_total_overflow :
    (NewAggregator.addAll [9223372036854775807, 1]).TotalBytes = -9223372036854775808 ∧
    positiveSum [9223372036854775807, 1] = 9223372036854775808 := by
  decide

/-- What the swap returns after a sequence of `AddBytes` calls that started
with an interval counter of zero, and what it leaves behind. -/
theorem swap_after_addAll (a : Aggregator) (ns : List Int) (h0 : a.bytesThisSec = 0)
    (h : positiveSum ns ≤ maxInt64) :
    (a.addAll ns).SwapBytesThisSecond.1 = positiveSum ns ∧
    (a.addAll ns).SwapBytesThisSecond.2.SwapBytesThisSecond.1 = 0 ∧
    (a.addAll ns).SwapBytesThisSecond.2.TotalBytes = (a.addAll ns).TotalBytes ∧
    (a.addAll ns).SwapBytesThisSecond.2.peakBps = (a.addAll ns).peakBps := by
  refine ⟨?_, rfl, rfl, rfl⟩
  have hmain : ∀ (ms : List Int) (b : Aggregator), 0 ≤ b.bytesThisSec →
      b.bytesThisSec + positiveSum ms ≤ maxInt64 →
      (b.addAll ms).bytesThisSec = b.bytesThisSec + positiveSum ms := by
    intro ms
    induction ms with
    | nil => intro b _ _; simp [Aggregator.addAll, positiveSum]
    | cons n ms ih =>
      intro b hb hb2
      have hnn := positiveSum_nonneg ms
      rw [positiveSum_cons] at hb2 ⊢
      simp only [Aggregator.addAll, List.foldl_cons] at ih ⊢
      by_cases hn : 0 < n
      · simp only [if_pos hn] at hb2 ⊢
        have e1 : wrap64 (b.bytesThisSec + n) = b.bytesThisSec + n :=
          wrap64_of_range _ (by norm_num; omega) (by omega)
        have hb1 : (b.AddBytes n).bytesThisSec = b.bytesThisSec + n := by
          simp [Aggregator.AddBytes, not_le.mpr hn, e1]
        have := ih (b.AddBytes n) (by rw [hb1]; omega) (by rw [hb1]; omega)
        rw [this, hb1]; ring
      · simp only [if_neg hn, zero_add] at hb2 ⊢
        have hstep : b.AddBytes n = b := by simp [Aggregator.AddBytes, not_lt.mp hn]
        rw [hstep]
        exact ih b hb hb2
  have := hmain ns a (by rw [h0]) (by rw [h0]; simpa using h)
  simpa [Aggregator.SwapBytesThisSecond, h0] using this

/-- C7 (amended): as long as the bytes added since the previous swap (or
since creation) sum to at most `2^63 - 1`, `SwapBytesThisSecond` returns that
sum and resets the interval counter, so that a second call with no
intervening `AddBytes` returns 0; the swap leaves `TotalBytes` and the stored
peak unchanged. -/
theorem SwapBytesThisSecond_returns_interval (x : Aggregator) (ns : List Int)
    (h : positiveSum ns ≤ maxInt64) :
    (∀ a, a = NewAggregator ∨ a = x.SwapBytesThisSecond.2 →
      (a.addAll ns).SwapBytesThisSecond.1 = positiveSum ns ∧
      (a.addAll ns).SwapBytesThisSecond.2.SwapBytesThisSecond.1 = 0 ∧
      (a.addAll ns).SwapBytesThisSecond.2.TotalBytes = (a.addAll ns).TotalBytes ∧
      (a.addAll ns).SwapBytesThisSecond.2.peakBps = (a.addAll ns).peakBps) := by
  intro a ha
  apply swap_after_addAll a ns _ h
  rcases ha with ha | ha <;> rw [ha] <;> rfl

/-- C7 witness, the test `TestAggregatorCounts`: 512 bytes, then two swaps. -/
theorem SwapBytesThisSecond_returns_interval_witness :
    positiveSum [512] ≤ maxInt64 ∧
    (NewAggregator.addAll [512]).SwapBytesThisSecond.1 = positiveSum [512] ∧
    (NewAggregator.addAll [512]).SwapBytesThisSecond.2.SwapBytesThisSecond.1 = 0 ∧
    (NewAggregator.addAll [512]).SwapBytesThisSecond.2.TotalBytes =
      (NewAggregator.addAll [512]).TotalBytes ∧
    (NewAggregator.addAll [512]).SwapBytesThisSecond.2.peakBps =
      (NewAggregator.addAll [512]).peakBps :=
  ⟨by decide, SwapBytesThisSecond_returns_interval NewAggregator [512] (by decide)
    NewAggregator (Or.inl rfl)⟩

/-- C7 counterexample: after a swap, `AddBytes(2^63 - 1)` and `AddBytes(1)`,
the next swap returns `-2^63`, not the `2^63` bytes added. -/
theorem SwapBytesThisSecond_overflow :
    ((NewAggregator.AddBytes 7).SwapBytesThisSecond.2.addAll
      [9223372036854775807, 1]).SwapBytesThisSecond.1 = -9223372036854775808 ∧
    positiveSum [9223372036854775807, 1] = 9223372036854775808 := by
  decide

/-! ## Theorems: the peak -/

/-- A sample that is not positive and finite leaves the Aggregator as it is. -/
theorem UpdatePeakBps_ignores (a : Aggregator) (x : F64) (h : x.posFinite = none) :
    a.UpdatePeakBps x = a := by
  cases x with
  | nan => simp [Aggregator.UpdatePeakBps, F64.isNaN]
  | posInf => simp [Aggregator.UpdatePeakBps, F64.isInf]
  | negInf => simp [Aggregator.UpdatePeakBps, F64.isInf]
  | fin q =>
    have hq : q ≤ 0 := by
      by_contra hc
      simp [F64.posFinite, not_le.mp hc] at h
    simp [Aggregator.UpdatePeakBps, F64.le, hq]

/-- A positive finite sample raises a finite stored peak to the maximum. -/
theorem UpdatePeakBps_posFinite (a : Aggregator) (x : F64) (q p : ℚ)
    (h : x.posFinite = some q) (hp : a.peakBps = F64.fin p) :
    (a.UpdatePeakBps x).peakBps = F64.fin (max p q) := by
  cases x with
  | nan => simp [F64.posFinite] at h
  | posInf => simp [F64.posFinite] at h
  | negInf => simp [F64.posFinite] at h
  | fin r =>
    simp only [F64.posFinite] at h
    split at h
    · rename_i hr
      cases h
      by_cases hle : q ≤ p
      · simp [Aggregator.UpdatePeakBps, F64.le, F64.isNaN, F64.isInf, not_le.mpr hr, hp, hle]
      · simp [Aggregator.UpdatePeakBps, F64.le, F64.isNaN, F64.isInf, not_le.mpr hr, hp, hle,
          max_eq_right (le_of_lt (not_le.mp hle))]
    · cases h

/-- From a finite stored peak `p`, a sequence of samples leads to the maximum
of `p` and the positive finite samples. -/
theorem updateAll_peak (xs : List F64) (a : Aggregator) (p : ℚ) (hp : a.peakBps = F64.fin p) :
    (a.updateAll xs).peakBps = F64.fin ((xs.filterMap F64.posFinite).foldl max p) := by
  induction xs generalizing a p with
  | nil => simpa [Aggregator.updateAll] using hp
  | cons x xs ih =>
    simp only [Aggregator.updateAll, List.foldl_cons] at ih ⊢
    cases hx : x.posFinite with
    | none =>
      rw [UpdatePeakBps_ignores a x hx]
      simpa [List.filterMap_cons, hx] using ih a p hp
    | some q =>
      have := ih (a.UpdatePeakBps x) (max p q) (UpdatePeakBps_posFinite a x q p hx hp)
      simpa [List.filterMap_cons, hx] using this

/-- Folding `max` gives at least the starting value. -/
theorem le_foldl_max (qs : List ℚ) (p : ℚ) : p ≤ qs.foldl max p := by
  induction qs generalizing p with
  | nil => simp
  | cons q qs ih => exact le_trans (le_max_left p q) (ih (max p q))

/-- C8: for every sequence of samples passed to `UpdatePeakBps` on a fresh
Aggregator, `PeakBps` is the maximum of the positive finite samples (0 when
there are none); a sample that is non-positive, NaN or infinite changes
nothing, and one more sample never lowers the peak. -/
theorem PeakBps_is_max_of_samples (xs : List F64) :
    (NewAggregator.updateAll xs).PeakBps =
      F64.fin ((xs.filterMap F64.posFinite).foldl max 0) ∧
    (∀ (a : Aggregator) (x : F64), x.posFinite = none → a.UpdatePeakBps x = a) ∧
    (∀ x : F64, F64.le (NewAggregator.updateAll xs).PeakBps
      (NewAggregator.updateAll (xs ++ [x])).PeakBps = true) := by
  have hpeak : ∀ ys : List F64, (NewAggregator.updateAll ys).PeakBps =
      F64.fin ((ys.filterMap F64.posFinite).foldl max 0) := by
    intro ys
    have := updateAll_peak ys NewAggregator 0 rfl
    unfold Aggregator.PeakBps
    rw [this]
    split
    · rename_i h; rw [h]
    · rfl
  refine ⟨hpeak xs, UpdatePeakBps_ignores, fun x => ?_⟩
  rw [hpeak xs, hpeak (xs ++ [x])]
  simp only [F64.le, decide_eq_true_eq, List.filterMap_append, List.foldl_append]
  exact le_foldl_max _ _

/-- C8 witness, the test `TestPeakBps`: 1000, 5000, 3000, 0, -100, and a NaN. -/
theorem PeakBps_is_max_of_samples_witness :
    (NewAggregator.updateAll [F64.fin 1000, F64.fin 5000, F64.fin 3000, F64.fin 0,
        F64.fin (-100), F64.nan]).PeakBps = F64.fin 5000 ∧
    (NewAggregator.UpdatePeakBps (F64.fin 5000)).UpdatePeakBps F64.nan =
      NewAggregator.UpdatePeakBps (F64.fin 5000) :=
  ⟨((PeakBps_is_max_of_samples [F64.fin 1000, F64.fin 5000, F64.fin 3000, F64.fin 0,
        F64.fin (-100), F64.nan]).1).trans (by decide),
    (PeakBps_is_max_of_samples []).2.1 _ F64.nan rfl⟩

/-! ## Theorems: rounding to `float64` -/

theorem bitLenAux_zero (fuel : Nat) : bitLenAux fuel 0 = 0 := by
  cases fuel <;> simp [bitLenAux]

/-- `bitLen n` is the number of binary digits of a positive `n`. -/
theorem bitLenAux_spec (fuel n : Nat) (h : n ≤ fuel) (hn : 0 < n) :
    2 ^ (bitLenAux fuel n - 1) ≤ n ∧ n < 2 ^ bitLenAux fuel n := by
  induction fuel generalizing n with
  | zero => omega
  | succ f ih =>
    rw [bitLenAux, if_neg (by omega)]
    by_cases h2 : n / 2 = 0
    · rw [h2, bitLenAux_zero]
      have : n = 1 := by omega
      subst this
      simp
    · obtain ⟨h3, h4⟩ := ih (n / 2) (by omega) (by omega)
      have hk : 1 ≤ bitLenAux f (n / 2) := by
        by_contra hc
        have : bitLenAux f (n / 2) = 0 := by omega
        rw [this] at h4
        omega
      obtain ⟨k, hk2⟩ : ∃ k, bitLenAux f (n / 2) = k + 1 := ⟨_, (Nat.sub_add_cancel hk).symm⟩
      rw [hk2] at h3 h4 ⊢
      simp only [Nat.add_sub_cancel] at h3
      have e1 : 1 + (k + 1) - 1 = k + 1 := by omega
      have e2 : 1 + (k + 1) = (k + 1) + 1 := by omega
      rw [e1, e2, pow_succ 2 (k + 1), pow_succ 2 k] at *
      constructor <;> omega

theorem bitLen_spec (n : Nat) (hn : 0 < n) :
    2 ^ (bitLen n - 1) ≤ n ∧ n < 2 ^ bitLen n ∧ 1 ≤ bitLen n := by
  obtain ⟨h1, h2⟩ := bitLenAux_spec n n le_rfl hn
  refine ⟨h1, h2, ?_⟩
  by_contra hc
  have : bitLen n = 0 := by omega
  unfold bitLen at this
  rw [this] at h2
  omega

/-- `floorLog2 n d` is the exponent of `n / d`. -/
theorem floorLog2_spec (n d : Nat) (hn : 0 < n) (hd : 0 < d) :
    (2 : ℚ) ^ floorLog2 n d ≤ (n : ℚ) / d ∧ (n : ℚ) / d < 2 ^ (floorLog2 n d + 1) := by
  obtain ⟨ha1, ha2, ha3⟩ := bitLen_spec n hn
  obtain ⟨hb1, hb2, hb3⟩ := bitLen_spec d hd
  have hdq : (0 : ℚ) < d := by exact_mod_cast hd
  have h2 : (2 : ℚ) ≠ 0 := by norm_num
  unfold floorLog2
  by_cases hab : bitLen n ≥ bitLen d
  · rw [if_pos hab]
    obtain ⟨k, hk⟩ : ∃ k, bitLen n = bitLen d + k := ⟨bitLen n - bitLen d, by omega⟩
    obtain ⟨b, hb⟩ : ∃ b, bitLen d = b + 1 := ⟨bitLen d - 1, by omega⟩
    have hk2 : bitLen n - bitLen d = k := by omega
    rw [hk2]
    rw [hk, hb] at ha1 ha2
    rw [hb] at hb1 hb2
    simp only [Nat.add_sub_cancel] at hb1
    have e1 : b + 1 + k - 1 = b + k := by omega
    rw [e1] at ha1
    by_cases hc : d * 2 ^ k ≤ n
    · rw [if_pos hc]
      rw [zpow_add_one₀ h2, zpow_natCast, le_div_iff₀ hdq, div_lt_iff₀ hdq]
      constructor
      · have : ((d * 2 ^ k : Nat) : ℚ) ≤ (n : ℚ) := by exact_mod_cast hc
        push_cast at this; linarith
      · have h3 : n < d * (2 ^ k * 2) := by
          calc n < 2 ^ (b + 1 + k) := ha2
            _ = 2 ^ b * (2 ^ k * 2) := by ring
            _ ≤ d * (2 ^ k * 2) := Nat.mul_le_mul_right _ hb1
        have : (n : ℚ) < ((d * (2 ^ k * 2) : Nat) : ℚ) := by exact_mod_cast h3
        push_cast at this; linarith
    · rw [if_neg hc]
      rw [sub_add_cancel, zpow_sub_one₀ h2, zpow_natCast, le_div_iff₀ hdq, div_lt_iff₀ hdq]
      constructor
      · have h3 : d * 2 ^ k ≤ 2 * n := by
          calc d * 2 ^ k ≤ 2 ^ (b + 1) * 2 ^ k := Nat.mul_le_mul_right _ (le_of_lt hb2)
            _ = 2 * 2 ^ (b + k) := by ring
            _ ≤ 2 * n := Nat.mul_le_mul_left _ ha1
        have : ((d * 2 ^ k : Nat) : ℚ) ≤ ((2 * n : Nat) : ℚ) := by exact_mod_cast h3
        push_cast at this
        have e : (2 : ℚ) ^ k * 2⁻¹ * d = (d * 2 ^ k) / 2 := by ring
        rw [e]; linarith
      · have : (n : ℚ) < ((d * 2 ^ k : Nat) : ℚ) := by exact_mod_cast (not_le.mp hc)
        push_cast at this; linarith
  · rw [if_neg hab]
    obtain ⟨k, hk⟩ : ∃ k, bitLen d = bitLen n + (k + 1) := ⟨bitLen d - bitLen n - 1, by omega⟩
    obtain ⟨a, ha⟩ : ∃ a, bitLen n = a + 1 := ⟨bitLen n - 1, by omega⟩
    have hk2 : bitLen d - bitLen n = k + 1 := by omega
    rw [hk2]
    rw [hk, ha] at hb1 hb2
    rw [ha] at ha1 ha2
    simp only [Nat.add_sub_cancel] at ha1
    have e1 : a + 1 + (k + 1) - 1 = a + (k + 1) := by omega
    rw [e1] at hb1
    have hpos : (0 : ℚ) < 2 ^ (k + 1) := by positivity
    by_cases hc : d ≤ n * 2 ^ (k + 1)
    · rw [if_pos hc]
      have e2 : -(((k + 1 : Nat)) : Int) + 1 = -((k : Nat) : Int) := by push_cast; ring
      rw [e2, zpow_neg, zpow_neg, zpow_natCast, zpow_natCast, le_div_iff₀ hdq, div_lt_iff₀ hdq,
        inv_mul_le_iff₀ hpos, lt_inv_mul_iff₀ (by positivity)]
      constructor
      · have : ((d : Nat) : ℚ) ≤ ((n * 2 ^ (k + 1) : Nat) : ℚ) := by exact_mod_cast hc
        push_cast at this; linarith
      · have h3 : 2 ^ k * n < d := by
          have : 2 * (2 ^ k * n) < 2 * d := by
            calc 2 * (2 ^ k * n) = n * 2 ^ (k + 1) := by ring
              _ < 2 ^ (a + 1) * 2 ^ (k + 1) :=
                  Nat.mul_lt_mul_of_pos_right ha2 (by positivity)
              _ = 2 * 2 ^ (a + (k + 1)) := by ring
              _ ≤ 2 * d := Nat.mul_le_mul_left _ hb1
          omega
        have : ((2 ^ k * n : Nat) : ℚ) < (d : ℚ) := by exact_mod_cast h3
        push_cast at this; linarith
    · rw [if_neg hc]
      have e2 : -(((k + 1 : Nat)) : Int) - 1 + 1 = -((k + 1 : Nat) : Int) := by ring
      have e3 : -(((k + 1 : Nat)) : Int) - 1 = -((k + 1 + 1 : Nat) : Int) := by push_cast; ring
      rw [e2, e3, zpow_neg, zpow_neg, zpow_natCast, zpow_natCast, le_div_iff₀ hdq,
        div_lt_iff₀ hdq, inv_mul_le_iff₀ (by positivity), lt_inv_mul_iff₀ hpos]
      constructor
      · have h3 : d ≤ 2 ^ (k + 1 + 1) * n := by
          calc d ≤ 2 ^ (a + 1 + (k + 1)) := le_of_lt hb2
            _ = 2 ^ (k + 1 + 1) * 2 ^ a := by ring
            _ ≤ 2 ^ (k + 1 + 1) * n := Nat.mul_le_mul_left _ ha1
        have : ((d : Nat) : ℚ) ≤ ((2 ^ (k + 1 + 1) * n : Nat) : ℚ) := by exact_mod_cast h3
        push_cast at this; linarith
      · have : ((n * 2 ^ (k + 1) : Nat) : ℚ) < (d : ℚ) := by exact_mod_cast (not_le.mp hc)
        push_cast at this; linarith

/-- `roundHalfEven n d` is the integer nearest to `n / d`, ties to even. -/
theorem roundHalfEven_spec (n d : Nat) (hd : 0 < d) :
    NearestEven (roundHalfEven n d) ((n : ℚ) / d) := by
  have hdq : (0 : ℚ) < d := by exact_mod_cast hd
  have hdiv : (n : ℚ) / d = (n / d : Nat) + ((n % d : Nat) : ℚ) / d := by
    field_simp
    have := Nat.div_add_mod n d
    have h2 : ((d * (n / d) + n % d : Nat) : ℚ) = n := by exact_mod_cast this
    push_cast at h2; linarith
  have hr : n % d < d := Nat.mod_lt _ hd
  have hrq : ((n % d : Nat) : ℚ) < d := by exact_mod_cast hr
  have hr0 : (0 : ℚ) ≤ ((n % d : Nat) : ℚ) := by positivity
  set Q := n / d with hQ
  set R := n % d with hR
  unfold roundHalfEven NearestEven
  rw [← hQ, ← hR, hdiv]
  by_cases h1 : 2 * R < d
  · rw [if_pos h1]
    have h1q : (2 : ℚ) * R < d := by exact_mod_cast h1
    have e : (Q : ℚ) + (R : ℚ) / d - Q = R / d := by ring
    rw [e, abs_of_nonneg (by positivity)]
    have : (R : ℚ) / d < 1 / 2 := by rw [div_lt_iff₀ hdq]; linarith
    exact ⟨le_of_lt this, fun h => absurd h (ne_of_lt this)⟩
  · rw [if_neg h1]
    by_cases h2 : d < 2 * R
    · rw [if_pos h2]
      have h2q : (d : ℚ) < 2 * R := by exact_mod_cast h2
      have e : (Q : ℚ) + (R : ℚ) / d - ((Q + 1 : Nat) : ℚ) = -(1 - R / d) := by push_cast; ring
      have hlt : (R : ℚ) / d < 1 := by rw [div_lt_iff₀ hdq]; linarith
      rw [e, abs_neg, abs_of_nonneg (by linarith)]
      have : 1 - (R : ℚ) / d < 1 / 2 := by
        have : (1 : ℚ) / 2 < R / d := by rw [lt_div_iff₀ hdq]; linarith
        linarith
      exact ⟨le_of_lt this, fun h => absurd h (ne_of_lt this)⟩
    · rw [if_neg h2]
      have h3 : 2 * R = d := by omega
      have h3q : (2 : ℚ) * R = d := by exact_mod_cast h3
      have hhalf : (R : ℚ) / d = 1 / 2 := by rw [div_eq_iff hdq.ne.symm]; linarith
      by_cases h4 : Q % 2 = 0
      · rw [if_pos h4]
        have e : (Q : ℚ) + (R : ℚ) / d - Q = 1 / 2 := by rw [hhalf]; ring
        rw [e, abs_of_nonneg (by norm_num)]
        exact ⟨le_rfl, fun _ => h4⟩
      · rw [if_neg h4]
        have e : (Q : ℚ) + (R : ℚ) / d - ((Q + 1 : Nat) : ℚ) = -(1 / 2) := by
          rw [hhalf]; push_cast; ring
        rw [e, abs_neg, abs_of_nonneg (by norm_num)]
        exact ⟨le_rfl, fun _ => by omega⟩

/-- `scaledRound n d e` is the integer nearest to `(n / d) / 2^e`, ties to even. -/
theorem scaledRound_spec (n d : Nat) (hd : 0 < d) (e : Int) :
    NearestEven (scaledRound n d e) ((n : ℚ) / d / 2 ^ e) := by
  unfold scaledRound
  cases e with
  | ofNat k =>
    have h := roundHalfEven_spec n (d * 2 ^ k) (by positivity)
    have e1 : ((n : ℚ) / ((d * 2 ^ k : Nat) : ℚ)) = (n : ℚ) / d / 2 ^ (Int.ofNat k) := by
      rw [Int.ofNat_eq_coe, zpow_natCast]; push_cast; rw [div_div]
    rw [← e1]; exact h
  | negSucc k =>
    have h := roundHalfEven_spec (n * 2 ^ (k + 1)) d hd
    have e1 : (((n * 2 ^ (k + 1) : Nat) : ℚ) / d) = (n : ℚ) / d / 2 ^ (Int.negSucc k) := by
      rw [zpow_negSucc]; push_cast; field_simp
    rw [← e1]; exact h

theorem abs_eq_natAbs_div_den (q : ℚ) : |q| = (q.num.natAbs : ℚ) / q.den := by
  have h := Rat.num_div_den q
  have hd : (0 : ℚ) < q.den := by exact_mod_cast q.den_pos
  conv_lhs => rw [← h]
  rw [abs_div, abs_of_pos hd]
  congr 1
  rw [Nat.cast_natAbs]; push_cast; rfl

/-- `F64.round` is IEEE 754 rounding to nearest, ties to even. -/
theorem F64.round_spec (q : ℚ) : IsF64Round q (F64.round q) := by
  unfold F64.round
  by_cases h0 : q = 0
  · subst h0
    refine ⟨-1074, 0, le_rfl, by rw [abs_zero]; positivity, Or.inl rfl, ?_, ?_⟩
    · simp [NearestEven]
    · have : ¬ ((2 : ℚ) ^ 1024 ≤ 0) := not_le.mpr (by positivity)
      simp [this]
  · rw [if_neg h0]
    have hn : 0 < q.num.natAbs := Int.natAbs_pos.mpr (Rat.num_ne_zero.mpr h0)
    have hd : 0 < q.den := q.den_pos
    obtain ⟨hl1, hl2⟩ := floorLog2_spec _ _ hn hd
    have habs := abs_eq_natAbs_div_den q
    rw [← habs] at hl1 hl2
    refine ⟨ulpExp q.num.natAbs q.den, scaledRound q.num.natAbs q.den (ulpExp q.num.natAbs q.den),
      ?_, ?_, ?_, ?_, rfl⟩
    · unfold ulpExp; exact le_max_right _ _
    · refine lt_of_lt_of_le hl2 (zpow_le_zpow_right₀ (by norm_num) ?_)
      unfold ulpExp
      have := le_max_left (floorLog2 q.num.natAbs q.den - 52) (-1074)
      omega
    · unfold ulpExp
      by_cases hc : floorLog2 q.num.natAbs q.den - 52 ≤ -1074
      · left; exact max_eq_right hc
      · right
        rw [max_eq_left (by omega)]
        have : floorLog2 q.num.natAbs q.den - 52 + 52 = floorLog2 q.num.natAbs q.den := by ring
        rw [this]; exact hl1
    · rw [habs]; exact scaledRound_spec _ _ hd _

theorem NearestEven.le_of_lt {m : Nat} {y : ℚ} (h : NearestEven m y) (B : Nat)
    (hy : y < B + 1 / 2) : m ≤ B := by
  have h1 := (abs_le.mp h.1).1
  have : (m : ℚ) < ((B + 1 : Nat) : ℚ) := by push_cast; linarith
  have : m < B + 1 := by exact_mod_cast this
  omega

theorem NearestEven.ge_of_le {m : Nat} {y : ℚ} (h : NearestEven m y) (A : Nat)
    (hy : (A : ℚ) ≤ y) : A ≤ m := by
  have h1 := (abs_le.mp h.1).2
  have : (A : ℚ) < ((m + 1 : Nat) : ℚ) := by push_cast; linarith
  have : A < m + 1 := by exact_mod_cast this
  omega

/-- Rounding a non-negative real does not cross a `float64` above it. -/
theorem IsF64Round.le {q : ℚ} {r : F64} (h : IsF64Round q r) (B : Nat) (E : Int)
    (hq0 : 0 ≤ q) (hB : B < 2 ^ 53) (hE : -1074 ≤ E) (hqB : q ≤ B * 2 ^ E)
    (hfinite : (B : ℚ) * 2 ^ E < 2 ^ 1024) :
    ∃ x, r = F64.fin x ∧ 0 ≤ x ∧ x ≤ B * 2 ^ E := by
  obtain ⟨e, m, he, hlt, hnorm, hne, hr⟩ := h
  rw [abs_of_nonneg hq0] at hlt hnorm hne
  have h2 : (2 : ℚ) ≠ 0 := by norm_num
  have hpe : (0 : ℚ) < 2 ^ e := by positivity
  have hm : (m : ℚ) * 2 ^ e ≤ B * 2 ^ E := by
    by_cases hEe : e ≤ E
    · obtain ⟨j, hj⟩ : ∃ j : Nat, E = e + j := ⟨(E - e).toNat, by omega⟩
      have hpow : (2 : ℚ) ^ E = 2 ^ e * 2 ^ j := by rw [hj, zpow_add₀ h2, zpow_natCast]
      have hy : q / 2 ^ e ≤ ((B * 2 ^ j : Nat) : ℚ) := by
        rw [div_le_iff₀ hpe]; push_cast
        calc q ≤ B * 2 ^ E := hqB
          _ = B * 2 ^ j * 2 ^ e := by rw [hpow]; ring
      have hmB : m ≤ B * 2 ^ j := hne.le_of_lt _ (by linarith)
      have : (m : ℚ) ≤ ((B * 2 ^ j : Nat) : ℚ) := by exact_mod_cast hmB
      calc (m : ℚ) * 2 ^ e ≤ ((B * 2 ^ j : Nat) : ℚ) * 2 ^ e :=
            mul_le_mul_of_nonneg_right this (le_of_lt hpe)
        _ = B * 2 ^ E := by rw [hpow]; push_cast; ring
    · exfalso
      rcases hnorm with h1 | h1
      · omega
      · have hBq : (B : ℚ) < 2 ^ 53 := by exact_mod_cast hB
        have : q < 2 ^ (e + 52) := by
          calc q ≤ B * 2 ^ E := hqB
            _ < 2 ^ 53 * 2 ^ E := mul_lt_mul_of_pos_right hBq (by positivity)
            _ = 2 ^ (E + 53) := by rw [zpow_add₀ h2]; norm_num; ring
            _ ≤ 2 ^ (e + 52) := zpow_le_zpow_right₀ (by norm_num) (by omega)
        linarith
  have hno := not_le.mpr (lt_of_le_of_lt hm hfinite)
  rw [if_neg hno, if_neg (not_lt.mpr hq0)] at hr
  exact ⟨_, hr, mul_nonneg (Nat.cast_nonneg m) (le_of_lt hpe), hm⟩

/-- Rounding does not cross a `float64` below it. -/
theorem IsF64Round.ge {q : ℚ} {r : F64} (h : IsF64Round q r) (A : Nat) (E : Int)
    (hA : A < 2 ^ 53) (hE : -1074 ≤ E) (hqA : (A : ℚ) * 2 ^ E ≤ q) :
    r = F64.posInf ∨ ∃ x, r = F64.fin x ∧ (A : ℚ) * 2 ^ E ≤ x := by
  have hq0 : 0 ≤ q := le_trans (by positivity) hqA
  obtain ⟨e, m, he, hlt, hnorm, hne, hr⟩ := h
  rw [abs_of_nonneg hq0] at hlt hnorm hne
  have h2 : (2 : ℚ) ≠ 0 := by norm_num
  have hpe : (0 : ℚ) < 2 ^ e := by positivity
  have hm : (A : ℚ) * 2 ^ E ≤ m * 2 ^ e := by
    by_cases hEe : e ≤ E
    · obtain ⟨j, hj⟩ : ∃ j : Nat, E = e + j := ⟨(E - e).toNat, by omega⟩
      have hpow : (2 : ℚ) ^ E = 2 ^ e * 2 ^ j := by rw [hj, zpow_add₀ h2, zpow_natCast]
      have hy : ((A * 2 ^ j : Nat) : ℚ) ≤ q / 2 ^ e := by
        rw [le_div_iff₀ hpe]; push_cast
        calc (A : ℚ) * 2 ^ j * 2 ^ e = A * 2 ^ E := by rw [hpow]; ring
          _ ≤ q := hqA
      have hmA : A * 2 ^ j ≤ m := hne.ge_of_le _ hy
      have : ((A * 2 ^ j : Nat) : ℚ) ≤ (m : ℚ) := by exact_mod_cast hmA
      calc (A : ℚ) * 2 ^ E = ((A * 2 ^ j : Nat) : ℚ) * 2 ^ e := by rw [hpow]; push_cast; ring
        _ ≤ (m : ℚ) * 2 ^ e := mul_le_mul_of_nonneg_right this (le_of_lt hpe)
    · rcases hnorm with h1 | h1
      · omega
      · have hy : (((2 ^ 52 : Nat)) : ℚ) ≤ q / 2 ^ e := by
          rw [le_div_iff₀ hpe]; push_cast
          calc (2 : ℚ) ^ 52 * 2 ^ e = 2 ^ (e + 52) := by rw [zpow_add₀ h2]; norm_num; ring
            _ ≤ q := h1
        have hm52 : 2 ^ 52 ≤ m := hne.ge_of_le _ hy
        have hm52q : ((2 ^ 52 : Nat) : ℚ) ≤ (m : ℚ) := by exact_mod_cast hm52
        have hAq : (A : ℚ) < 2 ^ 53 := by exact_mod_cast hA
        calc (A : ℚ) * 2 ^ E ≤ 2 ^ 53 * 2 ^ E :=
              mul_le_mul_of_nonneg_right (le_of_lt hAq) (by positivity)
          _ = 2 ^ (E + 53) := by rw [zpow_add₀ h2]; norm_num; ring
          _ ≤ 2 ^ (e + 52) := zpow_le_zpow_right₀ (by norm_num) (by omega)
          _ = ((2 ^ 52 : Nat) : ℚ) * 2 ^ e := by rw [zpow_add₀ h2]; norm_num; ring
          _ ≤ (m : ℚ) * 2 ^ e := mul_le_mul_of_nonneg_right hm52q (le_of_lt hpe)
  rw [if_neg (not_lt.mpr hq0), if_neg (not_lt.mpr hq0)] at hr
  by_cases hov : (2 : ℚ) ^ 1024 ≤ m * 2 ^ e
  · left; rw [if_pos hov] at hr; exact hr
  · right; rw [if_neg hov] at hr; exact ⟨_, hr, hm⟩

/-- Rounding a real that lies less than half a unit in the last place above a
`float64` does not exceed that `float64`. -/
theorem IsF64Round.le_near {q : ℚ} {r : F64} (h : IsF64Round q r) (B : Nat) (E : Int)
    (hq0 : 0 ≤ q) (hB1 : 2 ^ 52 ≤ B) (hB : B < 2 ^ 53) (hE : -1074 ≤ E)
    (hqB : q < (B + 1 / 2) * 2 ^ E) (hfinite : (B : ℚ) * 2 ^ E < 2 ^ 1024) :
    ∃ x, r = F64.fin x ∧ 0 ≤ x ∧ x ≤ B * 2 ^ E := by
  by_cases hle : q ≤ B * 2 ^ E
  · exact h.le B E hq0 hB hE hle hfinite
  · have hgt : (B : ℚ) * 2 ^ E < q := not_le.mp hle
    obtain ⟨e, m, he, hlt, hnorm, hne, hr⟩ := h
    rw [abs_of_nonneg hq0] at hlt hnorm hne
    have h2 : (2 : ℚ) ≠ 0 := by norm_num
    have hpe : (0 : ℚ) < 2 ^ e := by positivity
    have hpE : (0 : ℚ) < 2 ^ E := by positivity
    have hBq : (B : ℚ) < 2 ^ 53 := by exact_mod_cast hB
    have hBq2 : (B : ℚ) + 1 ≤ 2 ^ 53 := by exact_mod_cast hB
    have hB1q : (2 : ℚ) ^ 52 ≤ B := by exact_mod_cast hB1
    have heE : e = E := by
      apply le_antisymm
      · by_contra hc
        rcases hnorm with h1 | h1
        · omega
        · have : q < 2 ^ (e + 52) := by
            calc q < (B + 1 / 2) * 2 ^ E := hqB
              _ ≤ 2 ^ 53 * 2 ^ E := mul_le_mul_of_nonneg_right (by linarith) (le_of_lt hpE)
              _ = 2 ^ (E + 53) := by rw [zpow_add₀ h2]; norm_num; ring
              _ ≤ 2 ^ (e + 52) := zpow_le_zpow_right₀ (by norm_num) (by omega)
          linarith
      · by_contra hc
        have : q < 2 ^ (E + 52) :=
          lt_of_lt_of_le hlt (zpow_le_zpow_right₀ (by norm_num) (by omega))
        have h3 : (2 : ℚ) ^ (E + 52) ≤ B * 2 ^ E := by
          calc (2 : ℚ) ^ (E + 52) = 2 ^ 52 * 2 ^ E := by rw [zpow_add₀ h2]; norm_num; ring
            _ ≤ B * 2 ^ E := mul_le_mul_of_nonneg_right hB1q (le_of_lt hpE)
        linarith
    subst heE
    have hy : q / 2 ^ e < B + 1 / 2 := by rw [div_lt_iff₀ hpe]; exact hqB
    have hmB : m ≤ B := hne.le_of_lt B hy
    have hmBq : (m : ℚ) ≤ B := by exact_mod_cast hmB
    have hm : (m : ℚ) * 2 ^ e ≤ B * 2 ^ e := mul_le_mul_of_nonneg_right hmBq (le_of_lt hpe)
    have hno := not_le.mpr (lt_of_le_of_lt hm hfinite)
    rw [if_neg hno, if_neg (not_lt.mpr hq0)] at hr
    exact ⟨_, hr, mul_nonneg (Nat.cast_nonneg m) (le_of_lt hpe), hm⟩

theorem round_four_fifths : F64.round (4 / 5) = F64.fin (7205759403792794 / 2 ^ 53) := by
  decide!

theorem round_two_fifths : F64.round (2 / 5) = F64.fin (7205759403792794 / 2 ^ 54) := by
  decide!

theorem F64.fin_inj {a b : ℚ} (h : F64.fin a = F64.fin b) : a = b := by
  injection h

/-- The factor `0.8 + r*0.4` computed in `float64` lies in [0.8, 1.2] when the
draw `r` is a `float64` in [0, 1), the largest of which is `1 - 2^-53`. -/
theorem jitter_factor_bounds (r : ℚ) (h0 : 0 ≤ r) (h1 : r ≤ 1 - 1 / 2 ^ 53) :
    ∃ f : ℚ, F64.add (F64.round (4 / 5)) (F64.mul (F64.fin r) (F64.round (2 / 5))) = F64.fin f ∧
      4 / 5 ≤ f ∧ f ≤ 6 / 5 := by
  rw [round_four_fifths, round_two_fifths]
  have hmul : F64.mul (F64.fin r) (F64.fin (7205759403792794 / 2 ^ 54)) =
      F64.round (r * (7205759403792794 / 2 ^ 54)) := rfl
  rw [hmul]
  obtain ⟨t, ht, ht0, ht1⟩ := (F64.round_spec (r * (7205759403792794 / 2 ^ 54))).le_near
    7205759403792793 (-54) (by positivity) (by norm_num) (by norm_num) (by norm_num)
    (by
      have : r * (7205759403792794 / 2 ^ 54) ≤
          (1 - 1 / 2 ^ 53) * (7205759403792794 / 2 ^ 54) :=
        mul_le_mul_of_nonneg_right h1 (by positivity)
      refine lt_of_le_of_lt this ?_
      norm_num)
    (by norm_num)
  rw [ht]
  have ht2 : t ≤ 7205759403792793 * 2 ^ (-54 : Int) := by exact_mod_cast ht1
  have hadd : F64.add (F64.fin (7205759403792794 / 2 ^ 53)) (F64.fin t) =
      F64.round (7205759403792794 / 2 ^ 53 + t) := rfl
  rw [hadd]
  have hspec := F64.round_spec (7205759403792794 / 2 ^ 53 + t)
  obtain ⟨f, hf, hf0, hf1⟩ := hspec.le_near 5404319552844595 (-52) (by positivity)
    (by norm_num) (by norm_num) (by norm_num)
    (by
      have : (7205759403792794 : ℚ) / 2 ^ 53 + t ≤
          7205759403792794 / 2 ^ 53 + 7205759403792793 * 2 ^ (-54 : Int) :=
        add_le_add_left ht2 _
      refine lt_of_le_of_lt this ?_
      norm_num)
    (by norm_num)
  have hf2 : f ≤ 5404319552844595 * 2 ^ (-52 : Int) := by exact_mod_cast hf1
  refine ⟨f, hf, ?_, ?_⟩
  · rcases hspec.ge 7205759403792794 (-53) (by norm_num) (by norm_num)
      (by norm_num; linarith) with h | ⟨f3, hf3, hge⟩
    · rw [hf] at h; cases h
    · rw [hf] at hf3
      have := F64.fin_inj hf3
      subst this
      have hge2 : 7205759403792794 * 2 ^ (-53 : Int) ≤ f := by exact_mod_cast hge
      refine le_trans ?_ hge2
      norm_num
  · refine le_trans hf2 ?_
    norm_num

/-- A product of a natural number below `2^53` and a power of two is a
`float64` and rounds to itself. -/
theorem F64.round_exact (A : Nat) (E : Nat) (hA : A < 2 ^ 53)
    (hfinite : (A : ℚ) * 2 ^ (E : Int) < 2 ^ 1024) :
    F64.round ((A : ℚ) * 2 ^ (E : Int)) = F64.fin ((A : ℚ) * 2 ^ (E : Int)) := by
  have hspec := F64.round_spec ((A : ℚ) * 2 ^ (E : Int))
  obtain ⟨x, hx, -, hx1⟩ := hspec.le A E
    (mul_nonneg (Nat.cast_nonneg A) (le_of_lt (zpow_pos (by norm_num) _))) hA (by omega) le_rfl hfinite
  rcases hspec.ge A E hA (by omega) le_rfl with h | ⟨y, hy, hy1⟩
  · rw [hx] at h; cases h
  · rw [hx] at hy
    injection hy with hy
    subst hy
    rw [hx, le_antisymm hx1 hy1]

theorem truncQ_bounds (p : ℚ) (a b : Int) (ha : (a : ℚ) ≤ p) (ha0 : 0 ≤ a) (hb : p ≤ b) :
    a ≤ truncQ p ∧ truncQ p ≤ b := by
  have hp : 0 ≤ p := le_trans (by exact_mod_cast ha0) ha
  unfold truncQ
  rw [if_pos hp]
  constructor
  · exact Int.le_floor.mpr ha
  · have : ((⌊p⌋ : Int) : ℚ) ≤ b := le_trans (Int.floor_le p) hb
    exact_mod_cast this

/-! ## Theorems: the EWMA filter -/

/-- `F64.add` is the IEEE 754 sum. -/
theorem F64.add_spec (x y : F64) : IsSum x y (F64.add x y) := by
  cases x <;> cases y <;> first | rfl | exact F64.round_spec _

/-- `F64.mul` is the IEEE 754 product. -/
theorem F64.mul_spec (x y : F64) : IsProduct x y (F64.mul x y) := by
  cases x <;> cases y <;>
    first
    | rfl
    | exact F64.round_spec _
    | (simp only [IsProduct, F64.mul]
       refine ⟨fun h => by simp [h], fun h => ?_, fun h => ?_⟩
       · simp [h, ne_of_gt h]
       · simp [ne_of_lt h, not_lt.mpr (le_of_lt h)])

/-- One `Update` with a finite observation: the stored value is the returned
one, the factor is kept, and the returned value seeds or smooths. -/
theorem EWMA_Update_fin (e : EWMA) (q : ℚ) :
    (e.Update (F64.fin q)).2.value = (e.Update (F64.fin q)).1 ∧
    (e.Update (F64.fin q)).2.alpha = e.alpha ∧
    (e.Update (F64.fin q)).1 =
      if e.value = F64.fin 0 then F64.fin q
      else F64.add (F64.mul e.alpha (F64.fin q)) (F64.mul (F64.sub (F64.fin 1) e.alpha) e.value) := by
  simp only [EWMA.Update, F64.isNaN, F64.isInf, Bool.or_self, Bool.false_eq_true, if_false]
  split <;> simp

/-- The values returned from state `e` for finite observations `q :: qs`:
each one is determined by the value returned before it. -/
theorem EWMA_updates_step (e : EWMA) (q : ℚ) (qs : List ℚ) (i : Nat)
    (hi : i + 1 < (q :: qs).length) :
    (e.updates ((q :: qs).map F64.fin)).getD (i + 1) F64.nan =
      if (e.updates ((q :: qs).map F64.fin)).getD i F64.nan = F64.fin 0 then
        F64.fin ((q :: qs).getD (i + 1) 0)
      else F64.add (F64.mul e.alpha (F64.fin ((q :: qs).getD (i + 1) 0)))
        (F64.mul (F64.sub (F64.fin 1) e.alpha)
          ((e.updates ((q :: qs).map F64.fin)).getD i F64.nan)) := by
  induction i generalizing e q qs with
  | zero =>
    cases qs with
    | nil => simp at hi
    | cons r rs =>
      obtain ⟨hv, ha, _⟩ := EWMA_Update_fin e q
      obtain ⟨_, _, h3⟩ := EWMA_Update_fin (e.Update (F64.fin q)).2 r
      simp only [List.map_cons, EWMA.updates, List.getD_cons_succ, List.getD_cons_zero]
      rw [h3, hv, ha]
  | succ i ih =>
    cases qs with
    | nil => simp at hi
    | cons r rs =>
      obtain ⟨hv, ha, _⟩ := EWMA_Update_fin e q
      have := ih (e.Update (F64.fin q)).2 r rs (by simpa using hi)
      rw [ha] at this
      simpa only [List.map_cons, EWMA.updates, List.getD_cons_succ] using this

/-- C9 (amended): for every smoothing factor `alpha` in (0,1) and every
sequence of finite observations, the first `Update` returns the first
observation; each later `Update` returns the observation `x` itself when
the value `previous` returned by the preceding `Update` is zero, and
otherwise `alpha*x + (1-alpha)*previous` as `float64` computes it: the
products `alpha*x` and `(1-alpha)*previous`, the difference `1-alpha` and the
sum are each rounded to nearest, ties to even. -/
theorem EWMA_seeded_while_zero (alpha : ℚ) (h0 : 0 < alpha) (h1 : alpha < 1) (qs : List ℚ) :
    ((NewEWMA (F64.fin alpha)).updates (qs.map F64.fin)).length = qs.length ∧
    ((NewEWMA (F64.fin alpha)).updates (qs.map F64.fin)).head? = qs.head?.map F64.fin ∧
    ∀ i, i + 1 < qs.length →
      (((NewEWMA (F64.fin alpha)).updates (qs.map F64.fin)).getD i F64.nan = F64.fin 0 →
        ((NewEWMA (F64.fin alpha)).updates (qs.map F64.fin)).getD (i + 1) F64.nan =
          F64.fin (qs.getD (i + 1) 0)) ∧
      (((NewEWMA (F64.fin alpha)).updates (qs.map F64.fin)).getD i F64.nan ≠ F64.fin 0 →
        ∃ p om t : F64,
          IsF64Round (alpha * qs.getD (i + 1) 0) p ∧ IsF64Round (1 - alpha) om ∧
          IsProduct om (((NewEWMA (F64.fin alpha)).updates (qs.map F64.fin)).getD i F64.nan) t ∧
          IsSum p t (((NewEWMA (F64.fin alpha)).updates (qs.map F64.fin)).getD (i + 1) F64.nan)) := by
  have halpha : (NewEWMA (F64.fin alpha)).alpha = F64.fin alpha := by
    simp [NewEWMA, F64.le, not_le.mpr h0, not_le.mpr h1]
  refine ⟨?_, ?_, ?_⟩
  · generalize NewEWMA (F64.fin alpha) = e
    induction qs generalizing e with
    | nil => rfl
    | cons q qs ih => simp [EWMA.updates, ih]
  · cases qs with
    | nil => rfl
    | cons q qs => simp [EWMA.updates, EWMA.Update, NewEWMA, F64.isNaN, F64.isInf]
  · intro i hi
    cases qs with
    | nil => simp at hi
    | cons q qs =>
      have hstep := EWMA_updates_step (NewEWMA (F64.fin alpha)) q qs i hi
      rw [halpha] at hstep
      constructor
      · intro hz
        rw [hstep, if_pos hz]
      · intro hnz
        rw [hstep, if_neg hnz]
        refine ⟨F64.mul (F64.fin alpha) (F64.fin ((q :: qs).getD (i + 1) 0)),
          F64.sub (F64.fin 1) (F64.fin alpha), _, F64.round_spec _, ?_, F64.mul_spec _ _,
          F64.add_spec _ _⟩
        have : F64.sub (F64.fin 1) (F64.fin alpha) = F64.round (1 - alpha) := by
          simp only [F64.sub, F64.neg, F64.add, sub_eq_add_neg]
        rw [this]
        exact F64.round_spec _

/-- C9 witness, the test `TestEWMA`: alpha 0.5 and 100, 200, 300 give
100, 150, 225. -/
theorem EWMA_seeded_while_zero_witness :
    (0 : ℚ) < 1 / 2 ∧ (1 / 2 : ℚ) < 1 ∧
    (NewEWMA (F64.fin (1 / 2))).updates ([100, 200, 300].map F64.fin) =
      [F64.fin 100, F64.fin 150, F64.fin 225] ∧
    ((NewEWMA (F64.fin (1 / 2))).updates ([100, 200, 300].map F64.fin)).head? =
      ([100, 200, 300] : List ℚ).head?.map F64.fin :=
  ⟨by norm_num, by norm_num, by decide!,
    (EWMA_seeded_while_zero (1 / 2) (by norm_num) (by norm_num) [100, 200, 300]).2.1⟩

/-- C9 counterexample: with alpha 0.5 and the observations 0, 100 the second
`Update` returns 100, the observation itself, where `0.5*100 + 0.5*0` is 50
in `float64`.  The same happens when the value comes back to zero later:
after `2^-1074` and `0` the smoothed value `2^-1075` rounds to zero, and the
third `Update` returns its observation 100 where the formula gives 50. -/
theorem EWMA_reseeds_at_zero :
    (NewEWMA (F64.fin (1 / 2))).updates [F64.fin 0, F64.fin 100] = [F64.fin 0, F64.fin 100] ∧
    F64.add (F64.mul (F64.fin (1 / 2)) (F64.fin 100))
      (F64.mul (F64.sub (F64.fin 1) (F64.fin (1 / 2))) (F64.fin 0)) = F64.fin 50 ∧
    (NewEWMA (F64.fin (1 / 2))).updates [F64.fin (1 / 2 ^ 1074), F64.fin 0, F64.fin 100] =
      [F64.fin (1 / 2 ^ 1074), F64.fin 0, F64.fin 100] := by
  decide!

/-! ## Theorems: the file sink -/

/-- A path with a suffix of positive length differs from the path. -/
theorem append_part_ne (p : String) : p ++ ".part" ≠ p := by
  intro h
  have := congrArg String.length h
  simp only [String.length_append, add_right_eq_self] at this
  exact absurd this (by decide)

/-- A successful `os.MkdirAll` marks the path as a directory. -/
theorem FS.MkdirAll_ok (fs : FS) (p : String) (h : (fs.MkdirAll p).1 = none) :
    (fs.MkdirAll p).2 = fs.setDir p true := by
  unfold FS.MkdirAll at h ⊢
  split at h
  · simp at h
  · split at h
    · simp at h
    · rename_i h1 h2; simp [h1, h2]

/-- A successful `os.Create` leaves an empty file at a path that is no directory. -/
theorem FS.Create_ok (fs : FS) (p : String) (h : (fs.Create p).1 = none) :
    (fs.Create p).2 = fs.setFile p (some []) ∧ fs.dirs p = false := by
  unfold FS.Create at h ⊢
  split at h
  · simp at h
  · split at h
    · simp at h
    · rename_i h1 h2; simp [h1, h2]

/-- A successful write to an existing file appends all the bytes. -/
theorem FS.Write_ok (fs : FS) (p : String) (old data : Bytes) (hf : fs.files p = some old)
    (h : (fs.Write p data).1.2 = none) :
    (fs.Write p data).2 = fs.setFile p (some (old ++ data)) ∧
    (fs.Write p data).1.1 = data.length := by
  unfold FS.Write at h ⊢
  simp only [hf] at h ⊢
  split at h
  · simp at h
  · rename_i h1; simp [h1]

/-- A successful `os.Rename` of a file moves its content to the new path. -/
theorem FS.Rename_ok (fs : FS) (o n : String) (c : Bytes) (hf : fs.files o = some c)
    (hne : o ≠ n) (h : (fs.Rename o n).1 = none) :
    (fs.Rename o n).2 = (fs.setFile o none).setFile n (some c) ∧ fs.dirs n = false := by
  unfold FS.Rename at h ⊢
  simp only [hf] at h ⊢
  split at h
  · simp at h
  · rename_i h1
    split at h
    · simp at h
    · rename_i h2
      simp [h1, h2, hne]

/-- A successful `newFileSink` has made the directory and an empty temporary
file, and returns the handle on it. -/
theorem newFileSink_ok (join : String → String → String) (dir name : String) (fs : FS)
    (h : sinkHandle) (hopen : (newFileSink join dir name fs).1 = Except.ok h) :
    h = { writer := Writer.file (join dir name ++ ".part") false,
          finalize := fileFinalize (join dir name ++ ".part") (join dir name),
          destination := join dir name, discarded := false } ∧
    (newFileSink join dir name fs).2 =
      (fs.setDir dir true).setFile (join dir name ++ ".part") (some []) ∧
    (fs.setDir dir true).dirs (join dir name ++ ".part") = false := by
  unfold newFileSink at hopen ⊢
  dsimp only at hopen ⊢
  rcases hA : fs.MkdirAll dir with ⟨e1, fsA⟩
  have hA1 : (fs.MkdirAll dir).1 = e1 := by rw [hA]
  have hA2 : (fs.MkdirAll dir).2 = fsA := by rw [hA]
  rw [hA] at hopen
  cases e1 with
  | some e => simp at hopen
  | none =>
    have := FS.MkdirAll_ok fs dir hA1
    rw [hA2] at this
    subst this
    dsimp only at hopen ⊢
    rcases hB : (fs.setDir dir true).Create (join dir name ++ ".part") with ⟨e2, fsB⟩
    have hB1 : ((fs.setDir dir true).Create (join dir name ++ ".part")).1 = e2 := by rw [hB]
    have hB2 : ((fs.setDir dir true).Create (join dir name ++ ".part")).2 = fsB := by rw [hB]
    rw [hB] at hopen
    cases e2 with
    | some e => simp at hopen
    | none =>
      obtain ⟨hc, hd⟩ := FS.Create_ok _ _ hB1
      rw [hB2] at hc
      subst hc
      simp only [Except.ok.injEq] at hopen
      exact ⟨hopen.symm, rfl, hd⟩

/-- C10: for every directory, file name and byte string, opening a file
sink, writing the bytes, closing and committing, each without an error,
leaves the final path `dir/name` with exactly the written content and the
temporary path `dir/name.part` not existing. -/
theorem fileSink_commit_roundtrip (join : String → String → String) (dir name : String)
    (data : Bytes) (fs : FS) (h : sinkHandle)
    (hopen : (newFileSink join dir name fs).1 = Except.ok h)
    (hwrite : (h.writer.Write (newFileSink join dir name fs).2 data).1.2 = none)
    (hclose : (h.closeWriter (h.writer.Write (newFileSink join dir name fs).2 data).2).1 = none)
    (hcommit : ((h.closeWriter (h.writer.Write (newFileSink join dir name fs).2 data).2).2.finalizeSuccess
      (h.writer.Write (newFileSink join dir name fs).2 data).2).1 = none) :
    ((h.closeWriter (h.writer.Write (newFileSink join dir name fs).2 data).2).2.finalizeSuccess
      (h.writer.Write (newFileSink join dir name fs).2 data).2).2.files (join dir name) =
        some data ∧
    ((h.closeWriter (h.writer.Write (newFileSink join dir name fs).2 data).2).2.finalizeSuccess
      (h.writer.Write (newFileSink join dir name fs).2 data).2).2.exist
        (join dir name ++ ".part") = false := by
  have hne := append_part_ne (join dir name)
  obtain ⟨hh, hfs1, hnd⟩ := newFileSink_ok join dir name fs h hopen
  subst hh
  rw [hfs1] at hwrite hclose hcommit ⊢
  simp only [Writer.Write, Bool.false_eq_true, if_false] at hwrite hclose hcommit ⊢
  have hfile : ((fs.setDir dir true).setFile (join dir name ++ ".part") (some [])).files
      (join dir name ++ ".part") = some [] := by simp [FS.setFile]
  obtain ⟨hw2, _⟩ := FS.Write_ok _ _ [] data hfile hwrite
  rw [hw2] at hclose hcommit ⊢
  simp only [sinkHandle.finalizeSuccess, sinkHandle.closeWriter, fileFinalize, if_true]
    at hcommit ⊢
  have hfile2 : ((((fs.setDir dir true).setFile (join dir name ++ ".part") (some [])).setFile
      (join dir name ++ ".part") (some ([] ++ data))).files (join dir name ++ ".part")) =
      some data := by simp [FS.setFile]
  obtain ⟨hr2, _⟩ := FS.Rename_ok _ _ (join dir name) data hfile2 hne hcommit
  rw [hr2]
  refine ⟨by simp [FS.setFile], ?_⟩
  simp only [FS.exist, FS.setFile, FS.setDir, if_neg hne, if_true, Option.isSome_none,
    Bool.false_or]
  simpa [FS.setDir] using hnd

/-- C10 witness, the test `TestNewFileSinkSuccess`: directory `out`, name
`file.bin`, two bytes, on an empty file system. -/
theorem fileSink_commit_roundtrip_witness :
    exampleCommitted.files "out/file.bin" = some [104, 105] ∧
    exampleCommitted.exist "out/file.bin.part" = false :=
  fileSink_commit_roundtrip slashJoin "out" "file.bin" [104, 105] FS.empty exampleHandle
    rfl (by decide) (by decide) (by decide)

/-! ## Theorems: the byte attribution of a download -/

/-- `AddBytes` with a positive count that fits adds it to both counters. -/
theorem AddBytes_pos (a : Aggregator) (n : Int) (hn : 0 < n)
    (h1 : -(2 ^ 63) ≤ a.bytesThisSec) (h2 : a.bytesThisSec + n ≤ maxInt64)
    (h3 : -(2 ^ 63) ≤ a.bytesTotal) (h4 : a.bytesTotal + n ≤ maxInt64) :
    (a.AddBytes n).bytesThisSec = a.bytesThisSec + n ∧
    (a.AddBytes n).bytesTotal = a.bytesTotal + n ∧
    (a.AddBytes n).peakBps = a.peakBps := by
  have e1 : wrap64 (a.bytesThisSec + n) = a.bytesThisSec + n :=
    wrap64_of_range _ (by omega) h2
  have e2 : wrap64 (a.bytesTotal + n) = a.bytesTotal + n :=
    wrap64_of_range _ (by omega) h4
  simp [Aggregator.AddBytes, not_le.mpr hn, e1, e2]

/-- A copy that ends without error has passed every chunk to the
destination in full, and the total has grown by the length of the body. -/
theorem copyBuffer_ok_total {σ : Type} (cw : counterWriter σ) (hagg : cw.agg = true)
    (chunks : List Bytes) (readErr : Option GoError) (s : σ) (a : Aggregator)
    (h : (copyBuffer cw chunks readErr (s, a)).1 = none)
    (hs0 : 0 ≤ a.bytesThisSec) (hs1 : a.bytesThisSec + payloadLength chunks ≤ maxInt64)
    (h0 : 0 ≤ a.bytesTotal) (h1 : a.bytesTotal + payloadLength chunks ≤ maxInt64) :
    (copyBuffer cw chunks readErr (s, a)).2.2.bytesTotal =
      a.bytesTotal + payloadLength chunks ∧
    (copyBuffer cw chunks readErr (s, a)).2.2.bytesThisSec =
      a.bytesThisSec + payloadLength chunks := by
  induction chunks generalizing s a with
  | nil => simp [copyBuffer, payloadLength]
  | cons c cs ih =>
    have hpl : payloadLength (c :: cs) = c.length + payloadLength cs := by
      simp [payloadLength]
    rw [hpl] at hs1 h1 ⊢
    push_cast at hs1 h1 ⊢
    unfold copyBuffer at h ⊢
    by_cases hc : 0 < c.length
    · simp only [if_pos hc] at h ⊢
      -- the write was valid and complete
      by_cases hinv : (cw.Write (s, a) c).1.1 < 0 ∨ (c.length : Int) < (cw.Write (s, a) c).1.1
      · simp only [hinv, decide_True, if_true] at h
        cases hw : (cw.Write (s, a) c).1.2 <;> simp [hw] at h
      · simp only [hinv, decide_False, Bool.false_eq_true, if_false] at h ⊢
        cases hw : (cw.Write (s, a) c).1.2 with
        | some e => simp [hw] at h
        | none =>
          simp only [hw] at h ⊢
          by_cases hlen : (c.length : Int) ≠ (cw.Write (s, a) c).1.1
          · simp [hlen] at h
          · simp only [hlen, if_false] at h ⊢
            have hn : (cw.Write (s, a) c).1.1 = c.length := (not_not.mp hlen).symm
            have hagg2 : (cw.Write (s, a) c).2.2 = a.AddBytes c.length := by
              have hn2 : (cw.dst s c).1.1 = c.length := hn
              simp only [counterWriter.Write, hn2, hagg, and_true]
              rw [if_pos (by exact_mod_cast hc)]
            have hpos : (0 : Int) < c.length := by exact_mod_cast hc
            have hpn : (0 : Int) ≤ payloadLength cs := by positivity
            obtain ⟨a1, a2, _⟩ := AddBytes_pos a c.length hpos (by norm_num; omega)
              (by omega) (by norm_num; omega) (by omega)
            have := ih (cw.Write (s, a) c).2.1 (cw.Write (s, a) c).2.2 h
              (by rw [hagg2, a1]; omega) (by rw [hagg2, a1]; omega)
              (by rw [hagg2, a2]; omega) (by rw [hagg2, a2]; omega)
            rw [hagg2, a1, a2] at this
            have hpair : (cw.Write (s, a) c).2 =
                ((cw.Write (s, a) c).2.1, a.AddBytes c.length) := Prod.ext rfl hagg2
            rw [hpair]
            exact ⟨by rw [this.1]; ring, by rw [this.2]; ring⟩
    · simp only [if_neg hc] at h ⊢
      have hz : c.length = 0 := by omega
      rw [hz] at hs1 h1 ⊢
      simpa using ih s a h hs0 (by simpa using hs1) h0 (by simpa using h1)

/-- An attempt that returns a nil error has raised the total and the interval
counter by the length of the body. -/
theorem tryOnce_ok_total (d : Downloader) (join : String → String → String)
    (fileName : String) (x : Exchange) (w : World) (hagg : d.agg = true)
    (h : (tryOnce d join fileName x w).1.2 = none)
    (hs0 : 0 ≤ w.agg.bytesThisSec)
    (hs1 : w.agg.bytesThisSec + payloadLength x.chunks ≤ maxInt64)
    (h0 : 0 ≤ w.agg.bytesTotal)
    (h1 : w.agg.bytesTotal + payloadLength x.chunks ≤ maxInt64) :
    (tryOnce d join fileName x w).2.agg.bytesTotal =
      w.agg.bytesTotal + payloadLength x.chunks ∧
    (tryOnce d join fileName x w).2.agg.bytesThisSec =
      w.agg.bytesThisSec + payloadLength x.chunks := by
  unfold tryOnce at h ⊢
  split at h
  · simp at h
  · split at h
    · simp at h
    · split at h
      · simp at h
      · split at h
        · simp at h
        · rename_i handle fs1 hopen
          dsimp only at h ⊢
          split at h
          · simp at h
          · rename_i hcopy
            split at h
            · simp at h
            · split at h
              · simp at h
              · have hst : ¬(x.StatusCode < 200 ∨ x.StatusCode ≥ 300) := by assumption
                rw [if_neg hst]
                exact copyBuffer_ok_total _ hagg _ _ _ _ hcopy hs0 hs1 h0 h1


/-- With a configured client and a retry budget that is not negative, a
first attempt that succeeds ends `Download` with its result. -/
theorem Download_first_attempt {σ : Type} (d : Downloader)
    (tryOnce : Nat → σ → (Result × Option GoError) × σ) (ctx : Context) (rnd : Nat → ℚ)
    (s : σ) (hc : d.client = true) (hR : 0 ≤ d.opts.Retries)
    (hok : (tryOnce 0 s).1.2 = none) :
    Download d tryOnce ctx rnd s = some ⟨(tryOnce 0 s).1.1, none, 1, [], (tryOnce 0 s).2⟩ := by
  unfold Download
  rw [if_neg (by simp [hc])]
  have hfuel : (d.opts.Retries + 1).toNat = d.opts.Retries.toNat + 1 := by omega
  rw [hfuel, downloadLoop]
  simp [hR, hok]

/-- C5 (amended): for every `Write` through a `counterWriter` with a non-nil
aggregator whose counters stay within `int64`, the total and the interval
counter grow by exactly the number of bytes `n` that the destination reports,
whatever error it returns with it, and the aggregator does not change when
`n <= 0`; hence a download on a fresh aggregator whose first attempt succeeds
ends with a total equal to the length of the body. -/
theorem counterWriter_counts_written_bytes {σ : Type} (cw : counterWriter σ) (s : σ)
    (a : Aggregator) (p : Bytes) (hagg : cw.agg = true)
    (hr1 : -(2 ^ 63) ≤ a.bytesThisSec) (hr2 : -(2 ^ 63) ≤ a.bytesTotal)
    (ho1 : a.bytesThisSec + (cw.dst s p).1.1 ≤ maxInt64)
    (ho2 : a.bytesTotal + (cw.dst s p).1.1 ≤ maxInt64)
    (d : Downloader) (join : String → String → String) (fileName : String)
    (xs : Nat → Exchange) (ctx : Context) (rnd : Nat → ℚ) (fs : FS)
    (hc : d.client = true) (hda : d.agg = true) (hR : 0 ≤ d.opts.Retries)
    (hok : (tryOnce d join fileName (xs 0) ⟨NewAggregator, fs⟩).1.2 = none)
    (hlen : (payloadLength (xs 0).chunks : Int) ≤ maxInt64) :
    (cw.Write (s, a) p).1 = (cw.dst s p).1 ∧
    (0 < (cw.dst s p).1.1 →
      (cw.Write (s, a) p).2.2.bytesTotal = a.bytesTotal + (cw.dst s p).1.1 ∧
      (cw.Write (s, a) p).2.2.bytesThisSec = a.bytesThisSec + (cw.dst s p).1.1) ∧
    ((cw.dst s p).1.1 ≤ 0 → (cw.Write (s, a) p).2.2 = a) ∧
    ∃ o, downloadURL d join fileName xs ctx rnd ⟨NewAggregator, fs⟩ = some o ∧
      o.err = none ∧ o.attempts = 1 ∧
      o.state.agg.TotalBytes = payloadLength (xs 0).chunks := by
  refine ⟨rfl, fun hn => ?_, fun hn => ?_, ?_⟩
  · obtain ⟨a1, a2, _⟩ := AddBytes_pos a _ hn hr1 ho1 hr2 ho2
    simp only [counterWriter.Write, hn, hagg, and_self, if_true]
    exact ⟨a2, a1⟩
  · simp only [counterWriter.Write, not_lt.mpr hn, false_and, if_false]
  · refine ⟨_, Download_first_attempt d _ ctx rnd _ hc hR hok, rfl, rfl, ?_⟩
    have := (tryOnce_ok_total d join fileName (xs 0) ⟨NewAggregator, fs⟩ hda hok
      (by simp [NewAggregator]) (by simpa [NewAggregator] using hlen)
      (by simp [NewAggregator]) (by simpa [NewAggregator] using hlen)).1
    simpa [Aggregator.TotalBytes, NewAggregator] using this

/-- C5 witness, the test `TestDownloadDiscard`: a write of three bytes to
`io.Discard`, and a download in discard mode of a body of four bytes. -/
theorem counterWriter_counts_written_bytes_witness :
    (counterWriter.Write ⟨Writer.discard.Write, true⟩ (FS.empty, NewAggregator)
      [1, 2, 3]).2.2.bytesTotal = 3 ∧
    ∃ o, downloadURL ⟨true, true, ⟨false, "", 0⟩⟩ slashJoin "x" (fun _ => exampleExchange)
        Context.background (fun _ => 0) ⟨NewAggregator, FS.empty⟩ = some o ∧
      o.err = none ∧ o.attempts = 1 ∧ o.state.agg.TotalBytes = (4 : Nat) :=
  have h := counterWriter_counts_written_bytes ⟨Writer.discard.Write, true⟩ FS.empty
    NewAggregator [1, 2, 3] rfl (by decide) (by decide) (by decide) (by decide)
    ⟨true, true, ⟨false, "", 0⟩⟩ slashJoin "x" (fun _ => exampleExchange)
    Context.background (fun _ => 0) FS.empty rfl rfl (by decide) (by decide) (by decide)
  ⟨((h.2.1 (by decide)).1).trans (by decide), h.2.2.2⟩

/-- C5 counterexample: a total of `2^63 - 1` becomes `-2^63` with one more
byte written; and with one retry, a first answer that breaks off after five
bytes and a second answer of eleven bytes, the download succeeds with a total
of sixteen. -/
theorem counterWriter_total_exceeds_payload :
    (counterWriter.Write ⟨Writer.discard.Write, true⟩
      (FS.empty, NewAggregator.AddBytes 9223372036854775807) [1]).2.2.bytesTotal =
        -9223372036854775808 ∧
    (downloadURL ⟨true, true, ⟨false, "", 1⟩⟩ slashJoin "x" flakyExchanges
        Context.background (fun _ => 0) ⟨NewAggregator, FS.empty⟩).map
      (fun o => (o.err, o.attempts, o.state.agg.TotalBytes)) = some (none, 2, 16) ∧
    payloadLength (flakyExchanges 1).chunks = 11 := by
  decide

/-! ## Theorems: the retry loop, negative budgets and backoff -/

/-- The loop returns whenever the fuel covers the iterations left. -/
theorem downloadLoop_total {σ : Type} (tryOnce : Nat → σ → (Result × Option GoError) × σ)
    (ctx : Context) (rnd : Nat → ℚ) (retries : Int) (fuel attempt : Nat)
    (lastErr : Option GoError) (waits : List Int) (s : σ)
    (hfuel : (retries + 1 - attempt).toNat ≤ fuel) :
    ∃ o, downloadLoop tryOnce ctx rnd retries fuel attempt lastErr waits s = some o := by
  induction fuel generalizing attempt lastErr waits s with
  | zero =>
    rw [downloadLoop]
    rw [if_neg (by omega)]
    exact ⟨_, rfl⟩
  | succ fuel ih =>
    rw [downloadLoop]
    by_cases hle : (attempt : Int) ≤ retries
    · rw [if_pos hle]
      dsimp only
      split
      · exact ⟨_, rfl⟩
      · split
        · exact ⟨_, rfl⟩
        · split
          · exact ⟨_, rfl⟩
          · split
            · exact ⟨_, rfl⟩
            · exact ih (attempt + 1) _ _ _ (by push_cast; omega)
    · rw [if_neg hle]
      exact ⟨_, rfl⟩

/-- `Download` always returns. -/
theorem Download_total {σ : Type} (d : Downloader)
    (tryOnce : Nat → σ → (Result × Option GoError) × σ) (ctx : Context) (rnd : Nat → ℚ)
    (s : σ) : ∃ o, Download d tryOnce ctx rnd s = some o := by
  unfold Download
  split
  · exact ⟨_, rfl⟩
  · exact downloadLoop_total tryOnce ctx rnd _ _ 0 none [] s (by simp)

/-- The waits recorded so far stay an initial segment of the waits of the
outcome. -/
theorem downloadLoop_waits_prefix {σ : Type}
    (tryOnce : Nat → σ → (Result × Option GoError) × σ)
    (ctx : Context) (rnd : Nat → ℚ) (retries : Int) (fuel attempt : Nat)
    (lastErr : Option GoError) (waits : List Int) (s : σ) (o : Outcome σ)
    (h : downloadLoop tryOnce ctx rnd retries fuel attempt lastErr waits s = some o) :
    waits <+: o.waits := by
  induction fuel generalizing attempt lastErr waits s with
  | zero =>
    rw [downloadLoop] at h
    split at h
    · simp at h
    · cases h; exact List.prefix_refl _
  | succ fuel ih =>
    rw [downloadLoop] at h
    split at h
    · dsimp only at h
      split at h
      · cases h; exact List.prefix_refl _
      · split at h
        · cases h; exact List.prefix_refl _
        · split at h
          · cases h; exact List.prefix_refl _
          · split at h
            · cases h; exact List.prefix_append _ _
            · exact (List.prefix_append _ _).trans (ih _ _ _ _ h)
    · cases h; exact List.prefix_refl _

/-- A nil error from `Download` with a budget that is not negative comes
from an attempt that succeeded, whose `Result` is returned. -/
theorem downloadLoop_nil_error {σ : Type}
    (tryOnce : Nat → σ → (Result × Option GoError) × σ)
    (ctx : Context) (rnd : Nat → ℚ) (retries : Int) (s0 : σ) (fuel attempt : Nat)
    (lastErr : Option GoError) (waits : List Int) (o : Outcome σ)
    (hinv : (attempt : Int) ≤ retries ∨ lastErr ≠ none)
    (h : downloadLoop tryOnce ctx rnd retries fuel attempt lastErr waits
      (attemptState tryOnce s0 attempt) = some o)
    (herr : o.err = none) :
    1 ≤ o.attempts ∧ attemptErr tryOnce s0 (o.attempts - 1) = none ∧
      o.res = attemptRes tryOnce s0 (o.attempts - 1) := by
  induction fuel generalizing attempt lastErr waits with
  | zero =>
    rw [downloadLoop] at h
    split at h
    · simp at h
    · rename_i hgt
      cases h
      rcases hinv with h1 | h1
      · exact absurd h1 hgt
      · exact absurd herr h1
  | succ fuel ih =>
    rw [downloadLoop] at h
    split at h
    · dsimp only at h
      split at h
      · rename_i hok
        cases h
        exact ⟨by simp, by simpa [attemptErr] using hok, by simp [attemptRes]⟩
      · split at h
        · cases h; simp at herr
        · split at h
          · cases h; simp at herr
          · split at h
            · cases h; simp at herr
            · exact ih (attempt + 1) _ _ (Or.inr (by simp)) h
    · rename_i hgt
      cases h
      rcases hinv with h1 | h1
      · exact absurd h1 hgt
      · exact absurd herr h1

/-- C18 (amended): for every `Options` value with a retry count that is not
negative and every URL, if `Download` with a configured client returns a nil
error then at least one attempt (`tryOnce`) was made and the returned
`Result` is the `Result` of an attempt that succeeded, the last one. -/
theorem Download_nil_error_attempted {σ : Type} (d : Downloader)
    (tryOnce : Nat → σ → (Result × Option GoError) × σ) (ctx : Context) (rnd : Nat → ℚ)
    (s : σ) (o : Outcome σ) (hc : d.client = true) (hR : 0 ≤ d.opts.Retries)
    (h : Download d tryOnce ctx rnd s = some o) (herr : o.err = none) :
    1 ≤ o.attempts ∧ attemptErr tryOnce s (o.attempts - 1) = none ∧
      o.res = attemptRes tryOnce s (o.attempts - 1) := by
  unfold Download at h
  rw [if_neg (by simp [hc])] at h
  exact downloadLoop_nil_error tryOnce ctx rnd _ s _ 0 none [] o (Or.inl (by simpa using hR))
    h herr

/-- C18 witness, the test `TestDownloadRetries`: budget 2, one 502 response,
then success in discard mode.  The nil error comes with two attempts, and
the `Result` is that of the second one. -/
theorem Download_nil_error_attempted_witness :
    ∃ o, Download ⟨true, true, ⟨false, "", 2⟩⟩
        (fun i (s : Unit) =>
          if i = 0 then (({}, some "unexpected status 502"), s) else ((⟨"", true⟩, none), s))
        Context.background (fun _ => 0) () = some o ∧ o.err = none ∧ o.attempts = 2 ∧
      o.res = ⟨"", true⟩ ∧
      (1 ≤ o.attempts ∧
        attemptErr (fun i (s : Unit) =>
          if i = 0 then (({}, some "unexpected status 502"), s) else ((⟨"", true⟩, none), s))
          () (o.attempts - 1) = none ∧
        o.res = attemptRes (fun i (s : Unit) =>
          if i = 0 then (({}, some "unexpected status 502"), s) else ((⟨"", true⟩, none), s))
          () (o.attempts - 1)) :=
  ⟨⟨⟨"", true⟩, none, 2, [backoffDelay (fun _ => 0) 0], ()⟩, rfl, rfl, rfl, rfl,
    Download_nil_error_attempted ⟨true, true, ⟨false, "", 2⟩⟩ _ Context.background
      (fun _ => 0) () _ rfl (by decide) rfl rfl⟩

/-- C18 counterexample: with `Retries = -1` and a configured client,
`Download` returns the zero `Result` and a nil error without calling
`tryOnce` at all, here for an endpoint on which every attempt would fail. -/
theorem Download_negative_retries_no_attempt :
    (Download ⟨true, true, ⟨false, "", -1⟩⟩
        (fun _ (s : Unit) => (({}, some "connection refused"), s))
        Context.background (fun _ => 0) ()).map
      (fun o => (o.res, o.err, o.attempts)) = some ({}, none, 0) := by
  decide

/-- Up to attempt 34 the shifted base delay fits `int64`. -/
theorem baseDelay_shift_fits (i : Nat) (hi : i ≤ 34) :
    wrap64 (baseDelay * 2 ^ i) = baseDelay * 2 ^ i ∧ 0 < baseDelay * 2 ^ i := by
  have h1 : (2 : Int) ^ i ≤ 2 ^ 34 := by
    exact_mod_cast Nat.pow_le_pow_right (by norm_num) hi
  have h0 : (0 : Int) < 2 ^ i := by positivity
  have hb : baseDelay = 500000000 := by norm_num [baseDelay]
  refine ⟨wrap64_of_range _ ?_ ?_, ?_⟩
  · rw [hb]; norm_num; nlinarith
  · rw [hb]; unfold maxInt64; norm_num at h1 ⊢; nlinarith
  · rw [hb]; positivity

/-- For a shifted delay `d = baseDelay * 2^i` with `i <= 33` and a draw that
is a `float64` in [0, 1), `jitter` returns a value between `0.8*d` and
`1.2*d`. -/
theorem jitter_bounds (i : Nat) (r : ℚ) (hi : i ≤ 33) (h0 : 0 ≤ r) (h1 : r ≤ 1 - 1 / 2 ^ 53) :
    400000000 * 2 ^ i ≤ jitter (baseDelay * 2 ^ i) r ∧
      jitter (baseDelay * 2 ^ i) r ≤ 600000000 * 2 ^ i := by
  have hpow : (2 : ℚ) ^ i ≤ 2 ^ 33 := pow_le_pow_right₀ (by norm_num) hi
  have hpowpos : (0 : ℚ) < 2 ^ i := by positivity
  have hpowI : (2 : Int) ^ i ≤ 2 ^ 33 := by
    exact_mod_cast Nat.pow_le_pow_right (by norm_num) hi
  have hpowIpos : (0 : Int) < 2 ^ i := by positivity
  have hz : (2 : ℚ) ^ (i : Int) = 2 ^ i := zpow_natCast 2 i
  obtain ⟨f, hf, hf0, hf1⟩ := jitter_factor_bounds r h0 h1
  have hd : (0 : Int) < baseDelay * 2 ^ i := (baseDelay_shift_fits i (by omega)).2
  have hcast : (((baseDelay * 2 ^ i : Int)) : ℚ) = ((500000000 : Nat) : ℚ) * 2 ^ (i : Int) := by
    rw [hz]; simp [baseDelay]
  have hD : F64.ofInt (baseDelay * 2 ^ i) = F64.fin (500000000 * 2 ^ i) := by
    unfold F64.ofInt
    rw [hcast, F64.round_exact 500000000 i (by norm_num)
      (by rw [hz]; push_cast
          calc (500000000 : ℚ) * 2 ^ i ≤ 500000000 * 2 ^ 33 := by linarith
            _ < 2 ^ 1024 := by norm_num), hz]
    push_cast; rfl
  unfold jitter
  rw [if_neg (not_le.mpr hd), hf, hD]
  have hmul : F64.mul (F64.fin (500000000 * 2 ^ i)) (F64.fin f) =
      F64.round (500000000 * 2 ^ i * f) := rfl
  rw [hmul]
  have hspec := F64.round_spec (500000000 * 2 ^ i * f)
  have hlo : ((400000000 : Nat) : ℚ) * 2 ^ (i : Int) ≤ 500000000 * 2 ^ i * f := by
    rw [hz]; push_cast; nlinarith
  have hhi : 500000000 * 2 ^ i * f ≤ ((600000000 : Nat) : ℚ) * 2 ^ (i : Int) := by
    rw [hz]; push_cast; nlinarith
  have hfin : ((600000000 : Nat) : ℚ) * 2 ^ (i : Int) < 2 ^ 1024 := by
    rw [hz]; push_cast
    calc (600000000 : ℚ) * 2 ^ i ≤ 600000000 * 2 ^ 33 := by linarith
      _ < 2 ^ 1024 := by norm_num
  obtain ⟨p, hp, -, hp1⟩ := hspec.le 600000000 i
    (le_trans (mul_nonneg (Nat.cast_nonneg _) (le_of_lt (zpow_pos (by norm_num) _))) hlo)
    (by norm_num) (by omega) hhi hfin
  rcases hspec.ge 400000000 i (by norm_num) (by omega) hlo with h | ⟨p2, hp2, hp0⟩
  · rw [hp] at h; cases h
  · rw [hp] at hp2
    injection hp2 with hp2
    subst hp2
    rw [hp]
    rw [hz] at hp0 hp1
    obtain ⟨ht1, ht2⟩ := truncQ_bounds p (400000000 * 2 ^ i) (600000000 * 2 ^ i)
      (by push_cast at hp0 ⊢; exact hp0) (by positivity) (by push_cast at hp1 ⊢; exact hp1)
    have hconv : F64.toInt64 (F64.fin p) =
        if minInt64 ≤ truncQ p ∧ truncQ p ≤ maxInt64 then truncQ p else minInt64 := rfl
    rw [hconv, if_pos ⟨by unfold minInt64; omega, by unfold maxInt64; omega⟩]
    exact ⟨ht1, ht2⟩

/-- For a shifted delay that fits with room for the factor, the jittered
delay lies between 0.8 and 1.2 times the shifted delay. -/
theorem backoffDelay_bounds (rnd : Nat → ℚ) (i : Nat) (hi : i ≤ 33)
    (h0 : 0 ≤ rnd i) (h1 : rnd i ≤ 1 - 1 / 2 ^ 53) :
    (0.8 : ℚ) * (baseDelay * 2 ^ i : Int) ≤ (backoffDelay rnd i : ℚ) ∧
    (backoffDelay rnd i : ℚ) ≤ (1.2 : ℚ) * (baseDelay * 2 ^ i : Int) := by
  obtain ⟨hw, -⟩ := baseDelay_shift_fits i (by omega)
  obtain ⟨hlo, hhi⟩ := jitter_bounds i (rnd i) hi h0 h1
  unfold backoffDelay
  rw [hw]
  have hlo2 : ((400000000 * 2 ^ i : Int) : ℚ) ≤ (jitter (baseDelay * 2 ^ i) (rnd i) : ℚ) := by
    exact_mod_cast hlo
  have hhi2 : (jitter (baseDelay * 2 ^ i) (rnd i) : ℚ) ≤ ((600000000 * 2 ^ i : Int) : ℚ) := by
    exact_mod_cast hhi
  have e1 : (0.8 : ℚ) * ((baseDelay * 2 ^ i : Int) : ℚ) = ((400000000 * 2 ^ i : Int) : ℚ) := by
    simp [baseDelay]; ring
  have e2 : (1.2 : ℚ) * ((baseDelay * 2 ^ i : Int) : ℚ) = ((600000000 * 2 ^ i : Int) : ℚ) := by
    simp [baseDelay]; ring
  rw [e1, e2]
  exact ⟨hlo2, hhi2⟩

/-- At attempt 35 the shifted base delay is negative and `jitter` returns 0. -/
theorem backoffDelay_35 (rnd : Nat → ℚ) : backoffDelay rnd 35 = 0 := by
  have : wrap64 (baseDelay * 2 ^ 35) = -1266874889709551616 := by decide
  unfold backoffDelay jitter
  rw [this]
  simp

/-- C14 (amended): for every retry budget `R` and every failed attempt index
`i` with `0 <= i < R` and `i <= 33`, reached without cancellation, the
backoff wait before the next attempt is the base delay 500ms times `2^i`
scaled by a factor in [0.8, 1.2]: it lies between `0.8*500ms*2^i` and
`1.2*500ms*2^i`.  The draw of `rng.Float64()` is a `float64` in [0, 1), so
at most `1 - 2^-53`. -/
theorem Download_backoff_wait_bounds {σ : Type} (d : Downloader)
    (tryOnce : Nat → σ → (Result × Option GoError) × σ) (ctx : Context) (rnd : Nat → ℚ)
    (s : σ) (i : Nat) (hc : d.client = true) (hi : (i : Int) < d.opts.Retries)
    (hsmall : i ≤ 33) (hfail : ∀ j, j ≤ i → attemptErr tryOnce s j ≠ none)
    (hctx : ∀ j, j ≤ i → ctx.errAfter j = none ∧ ctx.doneInWait j = none)
    (h0 : 0 ≤ rnd i) (h1 : rnd i ≤ 1 - 1 / 2 ^ 53) :
    ∃ o, Download d tryOnce ctx rnd s = some o ∧
      o.waits[i]? = some (backoffDelay rnd i) ∧
      (0.8 : ℚ) * (baseDelay * 2 ^ i : Int) ≤ (backoffDelay rnd i : ℚ) ∧
      (backoffDelay rnd i : ℚ) ≤ (1.2 : ℚ) * (baseDelay * 2 ^ i : Int) := by
  obtain ⟨o, ho⟩ := Download_total d tryOnce ctx rnd s
  refine ⟨o, ho, ?_, backoffDelay_bounds rnd i hsmall h0 h1⟩
  obtain ⟨fuel, hreach⟩ := Download_reaches d tryOnce ctx rnd s (i + 1) hc
    (by push_cast; omega) (fun j hj => hfail j (by omega)) (fun j hj => hctx j (by omega))
  rw [hreach] at ho
  obtain ⟨t, ht⟩ := downloadLoop_waits_prefix tryOnce ctx rnd _ _ _ _ _ _ o ho
  rw [← ht, List.getElem?_append_left (by simp)]
  simp

/-- C14 witness: budget 3, failing attempts, the wait after the second
attempt (index 1) with the draw 1/2, which is 1000000000 ns. -/
theorem Download_backoff_wait_bounds_witness :
    backoffDelay (fun _ => 1 / 2) 1 = 1000000000 ∧
    ∃ o, Download ⟨true, true, ⟨false, "", 3⟩⟩
        (fun _ (s : Unit) => (({}, some "connection refused"), s))
        Context.background (fun _ => 1 / 2) () = some o ∧
      o.waits[1]? = some (backoffDelay (fun _ => 1 / 2) 1) ∧
      (0.8 : ℚ) * (baseDelay * 2 ^ 1 : Int) ≤ (backoffDelay (fun _ => 1 / 2) 1 : ℚ) ∧
      (backoffDelay (fun _ => 1 / 2) 1 : ℚ) ≤ (1.2 : ℚ) * (baseDelay * 2 ^ 1 : Int) :=
  ⟨by decide!,
    Download_backoff_wait_bounds ⟨true, true, ⟨false, "", 3⟩⟩ _ Context.background
      (fun _ => 1 / 2) () 1 rfl (by decide) (by decide) (fun _ _ => by simp [attemptErr])
      (fun _ _ => ⟨rfl, rfl⟩) (by norm_num) (by norm_num)⟩

/-- C14 counterexample: with budget 36, failing attempts and the draw 7/8,
the wait after attempt index 35 is 0, because `baseDelay << 35` is negative
as an `int64`, and the wait after attempt index 34 is the smallest `int64`,
because `float64(baseDelay << 34) * factor`, with the factor 1.15, is above
the largest `int64` and
the conversion does not hold it (the value shown is the one of amd64);
`0.8*500ms*2^34` and `0.8*500ms*2^35` are positive. -/
theorem Download_backoff_shift_overflows :
    (Download ⟨true, true, ⟨false, "", 36⟩⟩
        (fun _ (s : Unit) => (({}, some "connection refused"), s))
        Context.background (fun _ => 7 / 8) ()).map
      (fun o => (o.attempts, o.waits.length, o.waits.getD 34 1, o.waits.getD 35 1)) =
        some (37, 36, -9223372036854775808, 0) ∧
    100 * maxInt64 < 115 * (500000000 * 2 ^ 34) ∧
    (0 : Int) < 400000000 * 2 ^ 34 ∧ (0 : Int) < 400000000 * 2 ^ 35 := by
  decide!

/-! ## Theorems: rollback, closing and the temporary artifact -/

/-- A write changes neither the injected failures nor the directories, and
touches no other file. -/
theorem FS.Write_frame (fs : FS) (p : String) (data : Bytes) :
    (fs.Write p data).2.fault = fs.fault ∧ (fs.Write p data).2.dirs = fs.dirs ∧
    ∀ q, q ≠ p → (fs.Write p data).2.files q = fs.files q := by
  unfold FS.Write
  split
  · exact ⟨rfl, rfl, fun _ _ => rfl⟩
  · split
    · exact ⟨rfl, rfl, fun q hq => by simp [FS.setFile, hq]⟩
    · exact ⟨rfl, rfl, fun q hq => by simp [FS.setFile, hq]⟩

/-- The writer of a file sink changes neither the injected failures nor the
directories, and touches no other file. -/
theorem fileWriter_frame (p : String) (c : Bool) (fs : FS) (data : Bytes) :
    ((Writer.file p c).Write fs data).2.fault = fs.fault ∧
    ((Writer.file p c).Write fs data).2.dirs = fs.dirs ∧
    ∀ q, q ≠ p → ((Writer.file p c).Write fs data).2.files q = fs.files q := by
  cases c with
  | true => exact ⟨rfl, rfl, fun _ _ => rfl⟩
  | false => exact FS.Write_frame fs p data

/-- Rolling back removes the temporary path when `os.Remove` is not made to
fail, and touches no other file. -/
theorem fileFinalize_false (tmp final : String) (fs : FS)
    (hrm : fs.fault (FsOp.remove tmp) = none) :
    (fileFinalize tmp final false fs).1 = none ∧
    (fileFinalize tmp final false fs).2.exist tmp = false ∧
    (∀ q, q ≠ tmp → (fileFinalize tmp final false fs).2.files q = fs.files q) ∧
    (fs.exist tmp = false → (fileFinalize tmp final false fs).2 = fs) := by
  unfold fileFinalize FS.Remove
  simp only [Bool.false_eq_true, if_false, hrm]
  cases he : fs.exist tmp with
  | true =>
    simp only [if_true]
    refine ⟨trivial, ?_, fun q hq => by simp [FS.setFile, FS.setDir, hq], fun h => by simp at h⟩
    simp [FS.exist, FS.setFile, FS.setDir]
  | false =>
    simp only [Bool.false_eq_true, if_false]
    have : IsNotExist errNotExist = true := by decide
    simp only [this, Bool.not_true, Bool.false_eq_true, if_false]
    exact ⟨trivial, he, fun _ _ => trivial, fun _ => trivial⟩

/-- C11 (amended): for every file sink, after a rollback whose `os.Remove` is
not made to fail, the temporary path `dir/name.part` does not exist and the
final name `dir/name` holds what it held before the sink was opened (no file
when there was none); rolling back when the temporary path is already absent
returns no error and changes nothing. -/
theorem fileSink_rollback (join : String → String → String) (dir name : String)
    (data : Bytes) (fs : FS) (h : sinkHandle)
    (hopen : (newFileSink join dir name fs).1 = Except.ok h)
    (hrm : fs.fault (FsOp.remove (join dir name ++ ".part")) = none) :
    ((h.closeWriter (h.writer.Write (newFileSink join dir name fs).2 data).2).2.finalizeFailure
      (h.writer.Write (newFileSink join dir name fs).2 data).2).exist
        (join dir name ++ ".part") = false ∧
    ((h.closeWriter (h.writer.Write (newFileSink join dir name fs).2 data).2).2.finalizeFailure
      (h.writer.Write (newFileSink join dir name fs).2 data).2).files (join dir name) =
        fs.files (join dir name) ∧
    ∀ fs1 : FS, fs1.fault (FsOp.remove (join dir name ++ ".part")) = none →
      fs1.exist (join dir name ++ ".part") = false → h.finalize false fs1 = (none, fs1) := by
  have hne := append_part_ne (join dir name)
  obtain ⟨hh, hfs1, _⟩ := newFileSink_ok join dir name fs h hopen
  subst hh
  rw [hfs1]
  obtain ⟨wf, _, wfiles⟩ := fileWriter_frame (join dir name ++ ".part") false
    ((fs.setDir dir true).setFile (join dir name ++ ".part") (some [])) data
  simp only [sinkHandle.finalizeFailure, sinkHandle.closeWriter]
  have hrm2 : ((Writer.file (join dir name ++ ".part") false).Write
      ((fs.setDir dir true).setFile (join dir name ++ ".part") (some [])) data).2.fault
      (FsOp.remove (join dir name ++ ".part")) = none := by
    rw [wf]; exact hrm
  obtain ⟨_, f2, f3, _⟩ := fileFinalize_false (join dir name ++ ".part") (join dir name) _ hrm2
  refine ⟨f2, ?_, fun fs1 h1 h2 => ?_⟩
  · rw [f3 _ hne.symm, wfiles _ hne.symm]
    simp [FS.setFile, FS.setDir, hne.symm]
  · obtain ⟨g1, _, _, g4⟩ := fileFinalize_false (join dir name ++ ".part") (join dir name)
      fs1 h1
    exact Prod.ext g1 (g4 h2)

/-- C11 witness, the test `TestNewFileSinkFailure`: `out/file.bin` on an
empty file system, two bytes written, then rolled back. -/
theorem fileSink_rollback_witness :
    (exampleRolledBack FS.empty).exist "out/file.bin.part" = false ∧
    (exampleRolledBack FS.empty).files "out/file.bin" = none ∧
    exampleHandle.finalize false (exampleRolledBack FS.empty) =
      (none, exampleRolledBack FS.empty) :=
  have h := fileSink_rollback slashJoin "out" "file.bin" [104, 105] FS.empty exampleHandle
    rfl rfl
  ⟨h.1, h.2.1, h.2.2 _ rfl h.1⟩

/-- C11 counterexample: when an earlier download left a file at
`out/file.bin`, that file is still there after the rollback; and when
removing `out/file.bin.part` is denied, the temporary file is still there. -/
theorem fileSink_rollback_leaves_files :
    (exampleRolledBack fsWithFinal).files "out/file.bin" = some [7] ∧
    (exampleRolledBack fsRemoveDenied).exist "out/file.bin.part" = true := by
  decide

/-- C13 (amended): a second `closeWriter` on a discard handle returns no
error and changes nothing; on a file handle whose first `closeWriter`
succeeded, the second one returns the error of closing a closed file;
`closeWriter` returns exactly the error of closing the underlying writer. -/
theorem closeWriter_twice (join : String → String → String) (dir name : String)
    (fs0 fs fs1 : FS) (h hd : sinkHandle)
    (hopen : (newFileSink join dir name fs0).1 = Except.ok h)
    (hdisc : newDiscardSink = Except.ok hd)
    (hfirst : (h.closeWriter fs).1 = none) :
    ((h.closeWriter fs).2.closeWriter fs1).1 = some "file already closed" ∧
    (hd.closeWriter fs).1 = none ∧ ((hd.closeWriter fs).2.closeWriter fs1).1 = none ∧
    ((hd.closeWriter fs).2.closeWriter fs1).2.writer = hd.writer ∧
    ∀ (s : sinkHandle) (fs2 : FS), (s.closeWriter fs2).1 = (s.writer.Close fs2).1 := by
  obtain ⟨hh, _, _⟩ := newFileSink_ok join dir name fs0 h hopen
  subst hh
  simp only [newDiscardSink, Except.ok.injEq] at hdisc
  subst hdisc
  exact ⟨rfl, rfl, rfl, rfl, fun _ _ => rfl⟩

/-- C13 witness: the handles of `newFileSink` for `out/file.bin` and of
`newDiscardSink`, on an empty file system. -/
theorem closeWriter_twice_witness :
    ((exampleHandle.closeWriter FS.empty).2.closeWriter FS.empty).1 =
      some "file already closed" ∧
    ∀ hd : sinkHandle, newDiscardSink = Except.ok hd →
      ((hd.closeWriter FS.empty).2.closeWriter FS.empty).1 = none :=
  ⟨(closeWriter_twice slashJoin "out" "file.bin" FS.empty FS.empty FS.empty exampleHandle
      { writer := Writer.discard, finalize := fun _ fs => (none, fs), destination := "",
        discarded := true } rfl rfl rfl).1,
   fun hd hdisc => (closeWriter_twice slashJoin "out" "file.bin" FS.empty FS.empty FS.empty
      exampleHandle hd rfl hdisc rfl).2.2.1⟩

/-- C13 counterexample: on the file handle for `out/file.bin` the first
`closeWriter` returns no error and the second one returns an error. -/
theorem closeWriter_second_call_fails :
    (exampleHandle.closeWriter (newFileSink slashJoin "out" "file.bin" FS.empty).2).1 = none ∧
    ((exampleHandle.closeWriter (newFileSink slashJoin "out" "file.bin" FS.empty).2).2.closeWriter
      (newFileSink slashJoin "out" "file.bin" FS.empty).2).1 ≠ none := by
  decide

/-- C12: the code at the failing input.  In save mode with `out/file.bin`
being a directory, the attempt streams the body, closes the file, fails to
rename, and returns the error while `out/file.bin.part` still exists. -/
theorem tryOnce_commit_failure_leaves_part :
    (tryOnce ⟨true, true, ⟨true, "out", 0⟩⟩ slashJoin "file.bin" exampleExchange
      ⟨NewAggregator, fsFinalIsDir⟩).1 = ({}, some "file exists") ∧
    (tryOnce ⟨true, true, ⟨true, "out", 0⟩⟩ slashJoin "file.bin" exampleExchange
      ⟨NewAggregator, fsFinalIsDir⟩).2.fs.files "out/file.bin.part" =
        some [97, 98, 99, 100] := by
  decide

/-- One chunk of the copy: the copy stops after the write of the chunk, or
goes on after it, or skips an empty chunk. -/
theorem copyBuffer_cons_cases {σ : Type} (cw : counterWriter σ) (c : Bytes)
    (cs : List Bytes) (readErr : Option GoError) (s : σ × Aggregator) :
    (∃ e, copyBuffer cw (c :: cs) readErr s = (e, (cw.Write s c).2)) ∨
    copyBuffer cw (c :: cs) readErr s = copyBuffer cw cs readErr (cw.Write s c).2 ∨
    copyBuffer cw (c :: cs) readErr s = copyBuffer cw cs readErr s := by
  rw [copyBuffer]
  by_cases hc : 0 < c.length
  · rw [if_pos hc]
    dsimp only
    repeat' split
    all_goals first
      | exact Or.inl ⟨_, rfl⟩
      | exact Or.inr (Or.inl rfl)
  · rw [if_neg hc]
    exact Or.inr (Or.inr rfl)

/-- The copy into a file sink changes neither the injected failures nor the
directories, and touches no file but the temporary one. -/
theorem copyBuffer_frame (p : String) (c agg : Bool) (chunks : List Bytes)
    (readErr : Option GoError) (fs : FS) (a : Aggregator) :
    (copyBuffer ⟨(Writer.file p c).Write, agg⟩ chunks readErr (fs, a)).2.1.fault = fs.fault ∧
    (copyBuffer ⟨(Writer.file p c).Write, agg⟩ chunks readErr (fs, a)).2.1.dirs = fs.dirs ∧
    ∀ q, q ≠ p →
      (copyBuffer ⟨(Writer.file p c).Write, agg⟩ chunks readErr (fs, a)).2.1.files q =
        fs.files q := by
  induction chunks generalizing fs a with
  | nil => exact ⟨rfl, rfl, fun _ _ => rfl⟩
  | cons ch cs ih =>
    obtain ⟨w1, w2, w3⟩ := fileWriter_frame p c fs ch
    have hpair : (counterWriter.Write ⟨(Writer.file p c).Write, agg⟩ (fs, a) ch).2 =
        (((Writer.file p c).Write fs ch).2,
          (counterWriter.Write ⟨(Writer.file p c).Write, agg⟩ (fs, a) ch).2.2) := rfl
    rcases copyBuffer_cons_cases ⟨(Writer.file p c).Write, agg⟩ ch cs readErr (fs, a) with
      ⟨e, he⟩ | he | he
    · rw [he, hpair]; exact ⟨w1, w2, w3⟩
    · rw [he, hpair]
      obtain ⟨i1, i2, i3⟩ := ih ((Writer.file p c).Write fs ch).2
        (counterWriter.Write ⟨(Writer.file p c).Write, agg⟩ (fs, a) ch).2.2
      exact ⟨i1.trans w1, i2.trans w2, fun q hq => (i3 q hq).trans (w3 q hq)⟩
    · rw [he]; exact ih fs a

/-- A successful commit leaves no file at the temporary path. -/
theorem fileFinalize_true_ok (tmp final : String) (fs : FS) (hne : tmp ≠ final)
    (h : (fileFinalize tmp final true fs).1 = none) :
    (fileFinalize tmp final true fs).2.files tmp = none ∧
    (fileFinalize tmp final true fs).2.dirs = fs.dirs := by
  unfold fileFinalize at h ⊢
  simp only [if_true] at h ⊢
  cases hf : fs.files tmp with
  | none =>
    unfold FS.Rename at h
    split at h
    · simp at h
    · simp [hf, errNotExist] at h
  | some content =>
    obtain ⟨hr, _⟩ := FS.Rename_ok fs tmp final content hf hne h
    rw [hr]
    exact ⟨by simp [FS.setFile, hne], rfl⟩

/-- In save mode, an attempt that opened its file sink leaves no temporary
artifact behind when `os.Remove` is not made to fail and the attempt does not
end in a failed commit: after a streaming failure, after a close failure, and
after a successful commit, `dir/name.part` does not exist. -/
theorem tryOnce_part_removed (d : Downloader) (join : String → String → String)
    (fileName : String) (x : Exchange) (w : World) (h : sinkHandle)
    (hsave : d.opts.Save = true)
    (hopen : (newFileSink join d.opts.OutDir fileName w.fs).1 = Except.ok h)
    (hreq : x.reqErr = none) (hdo : x.doErr = none)
    (hst : ¬(x.StatusCode < 200 ∨ x.StatusCode ≥ 300))
    (hrm : w.fs.fault (FsOp.remove (join d.opts.OutDir fileName ++ ".part")) = none)
    (hcommit :
      (copyBuffer ⟨h.writer.Write, d.agg⟩ x.chunks x.readErr
        ((newFileSink join d.opts.OutDir fileName w.fs).2, w.agg)).1 = none →
      (h.closeWriter (copyBuffer ⟨h.writer.Write, d.agg⟩ x.chunks x.readErr
        ((newFileSink join d.opts.OutDir fileName w.fs).2, w.agg)).2.1).1 = none →
      ((h.closeWriter (copyBuffer ⟨h.writer.Write, d.agg⟩ x.chunks x.readErr
        ((newFileSink join d.opts.OutDir fileName w.fs).2, w.agg)).2.1).2.finalizeSuccess
        (copyBuffer ⟨h.writer.Write, d.agg⟩ x.chunks x.readErr
          ((newFileSink join d.opts.OutDir fileName w.fs).2, w.agg)).2.1).1 = none) :
    (tryOnce d join fileName x w).2.fs.exist (join d.opts.OutDir fileName ++ ".part") =
      false := by
  have hne := append_part_ne (join d.opts.OutDir fileName)
  obtain ⟨hh, hfs1, hdir⟩ := newFileSink_ok join d.opts.OutDir fileName w.fs h hopen
  have hpair : newFileSink join d.opts.OutDir fileName w.fs =
      (Except.ok h, (newFileSink join d.opts.OutDir fileName w.fs).2) := Prod.ext hopen rfl
  generalize hfs : (newFileSink join d.opts.OutDir fileName w.fs).2 = fs1 at hpair hcommit hfs1
  subst hh
  obtain ⟨c1, c2, c3⟩ := copyBuffer_frame (join d.opts.OutDir fileName ++ ".part") false d.agg
    x.chunks x.readErr fs1 w.agg
  have hfault : fs1.fault = w.fs.fault := by rw [hfs1]; rfl
  have hdirs : fs1.dirs (join d.opts.OutDir fileName ++ ".part") = false := by
    rw [hfs1]; exact hdir
  generalize hcp : copyBuffer ⟨(Writer.file (join d.opts.OutDir fileName ++ ".part") false).Write,
    d.agg⟩ x.chunks x.readErr (fs1, w.agg) = copied at hcommit c1 c2 c3
  have hrm2 : copied.2.1.fault (FsOp.remove (join d.opts.OutDir fileName ++ ".part")) = none := by
    rw [c1, hfault]; exact hrm
  obtain ⟨_, r2, _, _⟩ := fileFinalize_false (join d.opts.OutDir fileName ++ ".part")
    (join d.opts.OutDir fileName) copied.2.1 hrm2
  unfold tryOnce
  simp only [hreq, hdo, if_neg hst, hsave, if_true, hpair, hcp]
  cases hc1 : copied.1 with
  | some e => exact r2
  | none =>
    simp only [sinkHandle.closeWriter, Writer.Close, Bool.false_eq_true, if_false]
    simp only [hc1, sinkHandle.closeWriter, Writer.Close, Bool.false_eq_true, if_false,
      forall_true_left] at hcommit
    cases hcl : copied.2.1.fault (FsOp.close (join d.opts.OutDir fileName ++ ".part")) with
    | some e => exact r2
    | none =>
      have hfin := hcommit hcl
      simp only [sinkHandle.finalizeSuccess] at hfin ⊢
      obtain ⟨t1, t2⟩ := fileFinalize_true_ok _ _ copied.2.1 hne hfin
      have hres : fileFinalize (join d.opts.OutDir fileName ++ ".part")
          (join d.opts.OutDir fileName) true copied.2.1 =
          (none, (fileFinalize (join d.opts.OutDir fileName ++ ".part")
            (join d.opts.OutDir fileName) true copied.2.1).2) := Prod.ext hfin rfl
      rw [hres]
      simp only [FS.exist, t1, t2, c2, Option.isSome_none, Bool.false_or]
      exact hdirs

/-! ## Theorems: the configuration -/

/-- `filepath.Clean` never returns the empty string. -/
theorem pathClean_ne_empty (p : String) : pathClean p ≠ "" := by
  unfold pathClean
  split
  · decide
  · dsimp only
    split
    · intro h
      have := congrArg String.length h
      simp [String.length_append] at this
      exact absurd this.1 (by decide)
    · split
      · decide
      · assumption

/-- `DefaultWorkers` lies between 1 and 64. -/
theorem DefaultWorkers_range (numCPU : Int) :
    1 ≤ DefaultWorkers numCPU ∧ DefaultWorkers numCPU ≤ 64 := by
  unfold DefaultWorkers
  split <;> split <;> omega

/-- What the `OutDir` and `Save` part of `Normalize` establishes. -/
theorem normalizeOut_spec (c : Config) :
    (TrimSpace c.OutDir ≠ "" → c.normalizeOut.Save = true) ∧
    (c.normalizeOut.Save = true → c.normalizeOut.OutDir ≠ "") ∧
    (TrimSpace c.OutDir = "" → c.Save = true → c.normalizeOut.OutDir = "downloads") ∧
    c.normalizeOut.ListPath = c.ListPath ∧ c.normalizeOut.Workers = c.Workers ∧
    c.normalizeOut.Timeout = c.Timeout ∧ c.normalizeOut.Retries = c.Retries := by
  unfold Config.normalizeOut
  by_cases h1 : TrimSpace c.OutDir ≠ ""
  · simp [h1, pathClean_ne_empty]
  · by_cases h2 : c.Save = true
    · simp [h1, h2]
    · simp only [h1, h2, if_false]
      simp at h1 h2
      simp [h1, h2]

/-- C17: for every Config, when `Normalize` returns no error then `ListPath`
is non-empty, `Workers >= 1`, `Timeout > 0`, `Retries >= 0`, a non-blank
`OutDir` has forced `Save` to true, `Save` true implies a non-empty `OutDir`,
which is "downloads" when a blank one was given; and `Normalize` returns an
error exactly when `ListPath` is empty, `Timeout <= 0` or `Retries < 0`. -/
theorem Normalize_validates (numCPU : Int) (c : Config) :
    ((c.Normalize numCPU).1 = none →
      (c.Normalize numCPU).2.ListPath ≠ "" ∧ 1 ≤ (c.Normalize numCPU).2.Workers ∧
      0 < (c.Normalize numCPU).2.Timeout ∧ 0 ≤ (c.Normalize numCPU).2.Retries ∧
      (TrimSpace c.OutDir ≠ "" → (c.Normalize numCPU).2.Save = true) ∧
      ((c.Normalize numCPU).2.Save = true → (c.Normalize numCPU).2.OutDir ≠ "") ∧
      (TrimSpace c.OutDir = "" → c.Save = true →
        (c.Normalize numCPU).2.OutDir = "downloads")) ∧
    ((c.Normalize numCPU).1 ≠ none ↔ c.ListPath = "" ∨ c.Timeout ≤ 0 ∨ c.Retries < 0) := by
  have hw := DefaultWorkers_range numCPU
  unfold Config.Normalize
  by_cases hl : c.ListPath = ""
  · simp [hl]
  · by_cases ht : c.Timeout ≤ 0
    · by_cases hwk : c.Workers ≤ 0 <;> simp [hl, ht, hwk]
    · by_cases hr : c.Retries < 0
      · by_cases hwk : c.Workers ≤ 0 <;> simp [hl, ht, hr, hwk]
      · by_cases hwk : c.Workers ≤ 0
        · obtain ⟨n1, n2, n3, n4, n5, n6, n7⟩ :=
            normalizeOut_spec { c with Workers := DefaultWorkers numCPU }
          simp only [hl, ht, hr, hwk, if_true, if_false, ne_eq, not_true_eq_false,
            false_or, or_self, iff_true, forall_true_left, not_false_eq_true]
          simp only at n1 n2 n3 n4 n5 n6 n7
          refine ⟨⟨by rw [n4]; exact hl, by rw [n5]; exact hw.1, by rw [n6]; omega,
            by rw [n7]; omega, n1, n2, n3⟩, trivial⟩
        · obtain ⟨n1, n2, n3, n4, n5, n6, n7⟩ := normalizeOut_spec c
          simp only [hl, ht, hr, hwk, if_false, ne_eq, not_true_eq_false,
            false_or, or_self, iff_true, forall_true_left, not_false_eq_true]
          refine ⟨⟨by rw [n4]; exact hl, by rw [n5]; omega, by rw [n6]; omega,
            by rw [n7]; omega, n1, n2, n3⟩, trivial⟩

/-- C17 witness, the tests `TestNormalizeOutDirImpliesSave` and
`TestNormalizeDefaults` on four cores. -/
theorem Normalize_validates_witness :
    Config.Normalize 4 ⟨"urls.txt", false, "./downloads/test", 0, 1000000000, 0, true⟩ =
      (none, ⟨"urls.txt", true, "downloads/test", 8, 1000000000, 0, true⟩) ∧
    (Config.Normalize 4 ⟨"urls.txt", true, "", 0, 1000000000, 1, true⟩).2.OutDir =
      "downloads" ∧
    (Config.Normalize 4 ⟨"", true, "", 0, 1000000000, 1, true⟩).1 ≠ none :=
  ⟨by decide,
   ((Normalize_validates 4 ⟨"urls.txt", true, "", 0, 1000000000, 1, true⟩).1 (by decide)).2.2.2.2.2.2
      (by decide) rfl,
   (Normalize_validates 4 ⟨"", true, "", 0, 1000000000, 1, true⟩).2.mpr (Or.inl rfl)⟩

/-! ## Theorems: file names -/

/-- Replacing a character leaves no occurrence of it, when the replacement is
another character. -/
theorem replaceChar_not_mem (old new : Char) (s : String) (h : new ≠ old) :
    old ∉ (replaceChar old new s).data := by
  unfold replaceChar
  simp only [List.mem_map, not_exists, not_and]
  intro c _
  split
  · exact h
  · assumption

/-- Replacing a character introduces no character but the replacement. -/
theorem replaceChar_keeps_not_mem (old new x : Char) (s : String) (hx : x ∉ s.data)
    (h : new ≠ x) : x ∉ (replaceChar old new s).data := by
  unfold replaceChar
  simp only [List.mem_map, not_exists, not_and]
  intro c hc
  split
  · exact h
  · intro hcx; exact hx (hcx ▸ hc)

/-- Replacing a character keeps a non-empty string non-empty. -/
theorem replaceChar_ne_empty (old new : Char) (s : String) (h : s ≠ "") :
    replaceChar old new s ≠ "" := by
  unfold replaceChar
  intro hc
  apply h
  have := congrArg String.data hc
  simp only [List.map_eq_nil_iff] at this
  exact String.ext this

/-- A name that `sanitize` does not replace by the fallback name is not
empty and contains neither a slash nor a backslash. -/
theorem sanitize_safe (now : Int) (s : String) :
    sanitize now s = fallbackName now ∨
    (sanitize now s ≠ "" ∧ '/' ∉ (sanitize now s).data ∧ '\\' ∉ (sanitize now s).data) := by
  unfold sanitize
  split
  · exact Or.inl rfl
  · rename_i hne
    refine Or.inr ⟨replaceChar_ne_empty _ _ _ (replaceChar_ne_empty _ _ _ hne),
      replaceChar_not_mem _ _ _ (by decide), ?_⟩
    exact replaceChar_keeps_not_mem _ _ _ _ (replaceChar_not_mem _ _ _ (by decide)) (by decide)

/-- A name that `FileNameFromURL` does not take from the fallback is not
empty and contains neither a slash nor a backslash. -/
theorem FileNameFromURL_no_separator (parse : String → Except GoError String) (now : Int)
    (raw : String) :
    FileNameFromURL parse now raw = fallbackName now ∨
    (FileNameFromURL parse now raw ≠ "" ∧ '/' ∉ (FileNameFromURL parse now raw).data ∧
      '\\' ∉ (FileNameFromURL parse now raw).data) := by
  unfold FileNameFromURL
  split
  · exact Or.inl rfl
  · split
    · exact Or.inl rfl
    · split
      · exact Or.inl rfl
      · exact sanitize_safe now _

/-- C19: the code at the failing input.  For a URL whose path ends in `..`
`FileNameFromURL` returns `..`, not the fallback name, and
`filepath.Join("downloads", "..")` is `.`, the parent of the output
directory, with the temporary file at `..part` next to it. -/
theorem FileNameFromURL_returns_dotdot (now : Int) :
    FileNameFromURL exampleParse now "http://example.com/.." = ".." ∧
    ".." ≠ fallbackName now ∧
    filepathJoin "downloads" (FileNameFromURL exampleParse now "http://example.com/..") = "." ∧
    filepathJoin "downloads" (FileNameFromURL exampleParse now "http://example.com/..") ++
      ".part" = "..part" := by
  have h1 : FileNameFromURL exampleParse now "http://example.com/.." = ".." := by
    unfold FileNameFromURL
    have hp : exampleParse "http://example.com/.." = Except.ok "/.." := rfl
    have hb : pathBase "/.." = ".." := by decide
    have ht : trimSuffixSlash ".." = ".." := by decide
    have hs : sanitize now ".." = ".." := by
      unfold sanitize
      have hts : TrimSpace (String.mk ("..".data.takeWhile (fun c => c ≠ '?'))) = ".." := by
        decide
      rw [hts, if_neg (by decide)]
      decide
    simp only [hp, hb, ht, hs]
    rw [if_neg (by decide), if_neg (by decide)]
  refine ⟨h1, ?_, ?_, ?_⟩
  · intro h
    have := congrArg String.length h
    simp [fallbackName, String.length_append] at this
    have h2 : "..".length = 2 := by decide
    have h3 : "download_".length = 9 := by decide
    omega
  · rw [h1]; decide
  · rw [h1]; decide

/-! ## Theorems: formatting -/

theorem padDigits_two : ∀ f, f < 100 →
    padDigits 2 f = String.mk [Nat.digitChar (f / 10), Nat.digitChar (f % 10)] := by
  decide

/-- `Sprintf("%.2f")` of a non-negative fraction shows the nearest multiple
of `1/100`. -/
theorem fmtFixed_two (n d : Nat) (hd : 0 < d) : IsTwoDecimals ((n : ℚ) / d) (fmtFixed 2 false n d) := by
  refine ⟨roundHalfEven (n * 100) d, ?_, ?_⟩
  · have h := roundHalfEven_spec (n * 100) d hd
    have e : (((n * 100 : Nat)) : ℚ) / d = (n : ℚ) / d * 100 := by push_cast; ring
    rw [← e]; exact h
  · have hlt : roundHalfEven (n * 100) d % 100 < 100 := Nat.mod_lt _ (by norm_num)
    have e1 : roundHalfEven (n * 100) d % 100 / 10 = roundHalfEven (n * 100) d / 10 % 10 := by omega
    have e2 : roundHalfEven (n * 100) d % 100 % 10 = roundHalfEven (n * 100) d % 10 := by omega
    have e3 : (10 : Nat) ^ 2 = 100 := by norm_num
    simp only [fmtFixed, e3]
    rw [padDigits_two _ hlt, e1, e2]
    simp [String.append_assoc]

/-- `Sprintf("%.0f")` of a non-negative fraction shows the nearest integer. -/
theorem fmtFixed_zero (n d : Nat) (hd : 0 < d) : IsWhole ((n : ℚ) / d) (fmtFixed 0 false n d) := by
  refine ⟨roundHalfEven n d, roundHalfEven_spec n d hd, ?_⟩
  simp [fmtFixed]

theorem F64.fmt_nonneg (prec : Nat) (x : ℚ) (hx : 0 ≤ x) :
    F64.fmt prec (F64.fin x) = fmtFixed prec false x.num.natAbs x.den ∧
      (x.num.natAbs : ℚ) / x.den = x := by
  constructor
  · simp [F64.fmt, not_lt.mpr hx]
  · rw [← abs_eq_natAbs_div_den, abs_of_nonneg hx]

/-- The quotient of a `float64` `v >= k` by a positive constant `k`, printed
with `%.2f`: the quotient is rounded to `float64`, and the text shows the
multiple of `1/100` nearest to the rounded quotient. -/
theorem fmt_div_two (v : ℚ) (k : Nat) (hk : 1000 ≤ k) (hv : (k : ℚ) ≤ v) (hfin : v < 2 ^ 1024) :
    ∃ x s, IsF64Round (v / k) (F64.fin x) ∧ IsTwoDecimals x s ∧
      F64.fmt 2 (F64.div (F64.fin v) (F64.fin k)) = s := by
  have hkq : (1000 : ℚ) ≤ k := by exact_mod_cast hk
  have hk0 : (0 : ℚ) < k := by linarith
  have hdiv : F64.div (F64.fin v) (F64.fin k) = F64.round (v / k) := by
    simp [F64.div, hk0.ne.symm]
  have hspec := F64.round_spec (v / k)
  have hq0 : 0 ≤ v / k := div_nonneg (by linarith) (le_of_lt hk0)
  have hup : v / k ≤ ((2 ^ 52 : Nat) : ℚ) * 2 ^ (963 : Int) := by
    rw [div_le_iff₀ hk0]
    have h1 : ((2 ^ 52 : Nat) : ℚ) * 2 ^ (963 : Int) = 2 ^ 1015 := by norm_num
    rw [h1]
    have h2 : (2 : ℚ) ^ 1024 ≤ 2 ^ 1015 * 1000 := by norm_num
    calc v ≤ 2 ^ 1024 := le_of_lt hfin
      _ ≤ 2 ^ 1015 * 1000 := h2
      _ ≤ 2 ^ 1015 * k := by
          apply mul_le_mul_of_nonneg_left hkq
          norm_num
  clear hfin
  obtain ⟨x, hx, hx0, -⟩ := hspec.le (2 ^ 52) 963 hq0 (by norm_num) (by norm_num) hup
    (by norm_num)
  rw [hdiv, hx]
  obtain ⟨hf, hval⟩ := F64.fmt_nonneg 2 x hx0
  refine ⟨x, _, ?_, ?_, hf⟩
  · rw [← hx]; exact hspec
  · have := fmtFixed_two x.num.natAbs x.den x.den_pos
    rw [hval] at this
    exact this

theorem fmt_whole (v : ℚ) (hv : 0 < v) :
    ∃ s, IsWhole v s ∧ F64.fmt 0 (F64.fin v) = s := by
  obtain ⟨hf, hval⟩ := F64.fmt_nonneg 0 v (le_of_lt hv)
  refine ⟨_, ?_, hf⟩
  have := fmtFixed_zero v.num.natAbs v.den v.den_pos
  rw [hval] at this
  exact this

/-- C15 (amended): for every finite value `v` (a `float64` is below
`2^1024`), `HumanBitsPerSecond` picks the largest of Gbit/s (10^9), Mbit/s
(10^6), Kbit/s (10^3) whose threshold is `<= v` and prints `v` divided by it
with two decimals: the quotient is rounded to `float64` and the text shows
the multiple of `1/100` nearest to it.  It prints whole "bit/s" for
`0 < v < 1000` and "0 bit/s" for `v <= 0`.  `HumanBytes` does the same with
GiB/MiB/KiB at powers of 1024, "B" and "0 B".  Of the values that are not
finite, `+Inf` prints "+Inf Gbit/s" and "+Inf GiB", without decimals, and
NaN and `-Inf` print "0 bit/s" and "0 B". -/
theorem Human_units_by_threshold (v : ℚ) (hfin : v < 2 ^ 1024) :
    (1000000000 ≤ v → ∃ x s, IsF64Round (v / 1000000000) (F64.fin x) ∧ IsTwoDecimals x s ∧
      HumanBitsPerSecond (F64.fin v) = s ++ " Gbit/s") ∧
    (1000000 ≤ v → v < 1000000000 →
      ∃ x s, IsF64Round (v / 1000000) (F64.fin x) ∧ IsTwoDecimals x s ∧
        HumanBitsPerSecond (F64.fin v) = s ++ " Mbit/s") ∧
    (1000 ≤ v → v < 1000000 →
      ∃ x s, IsF64Round (v / 1000) (F64.fin x) ∧ IsTwoDecimals x s ∧
        HumanBitsPerSecond (F64.fin v) = s ++ " Kbit/s") ∧
    (0 < v → v < 1000 → ∃ s, IsWhole v s ∧ HumanBitsPerSecond (F64.fin v) = s ++ " bit/s") ∧
    (v ≤ 0 → HumanBitsPerSecond (F64.fin v) = "0 bit/s") ∧
    (1073741824 ≤ v → ∃ x s, IsF64Round (v / 1073741824) (F64.fin x) ∧ IsTwoDecimals x s ∧
      HumanBytes (F64.fin v) = s ++ " GiB") ∧
    (1048576 ≤ v → v < 1073741824 →
      ∃ x s, IsF64Round (v / 1048576) (F64.fin x) ∧ IsTwoDecimals x s ∧
        HumanBytes (F64.fin v) = s ++ " MiB") ∧
    (1024 ≤ v → v < 1048576 →
      ∃ x s, IsF64Round (v / 1024) (F64.fin x) ∧ IsTwoDecimals x s ∧
        HumanBytes (F64.fin v) = s ++ " KiB") ∧
    (0 < v → v < 1024 → ∃ s, IsWhole v s ∧ HumanBytes (F64.fin v) = s ++ " B") ∧
    (v ≤ 0 → HumanBytes (F64.fin v) = "0 B") ∧
    HumanBitsPerSecond F64.posInf = "+Inf Gbit/s" ∧ HumanBytes F64.posInf = "+Inf GiB" ∧
    HumanBitsPerSecond F64.nan = "0 bit/s" ∧ HumanBytes F64.nan = "0 B" ∧
    HumanBitsPerSecond F64.negInf = "0 bit/s" ∧ HumanBytes F64.negInf = "0 B" := by
  refine ⟨?_, ?_, ?_, ?_, ?_, ?_, ?_, ?_, ?_, ?_, rfl, rfl, rfl, rfl, rfl, rfl⟩
  · intro h
    obtain ⟨x, s, h1, h2, h3⟩ := fmt_div_two v 1000000000 (by norm_num) (by exact_mod_cast h) hfin
    refine ⟨x, s, by exact_mod_cast h1, h2, ?_⟩
    simp only [HumanBitsPerSecond, F64.le, decide_eq_true h, if_true]
    rw [← h3]; norm_num
  · intro h h'
    obtain ⟨x, s, h1, h2, h3⟩ := fmt_div_two v 1000000 (by norm_num) (by exact_mod_cast h) hfin
    refine ⟨x, s, by exact_mod_cast h1, h2, ?_⟩
    simp only [HumanBitsPerSecond, F64.le, decide_eq_false (not_le.mpr h'), decide_eq_true h,
      if_true, Bool.false_eq_true, if_false]
    rw [← h3]; norm_num
  · intro h h'
    have h'' : v < 1000000000 := by linarith
    obtain ⟨x, s, h1, h2, h3⟩ := fmt_div_two v 1000 (by norm_num) (by exact_mod_cast h) hfin
    refine ⟨x, s, by exact_mod_cast h1, h2, ?_⟩
    simp only [HumanBitsPerSecond, F64.le, decide_eq_false (not_le.mpr h'),
      decide_eq_false (not_le.mpr h''), decide_eq_true h, if_true, Bool.false_eq_true, if_false]
    rw [← h3]; norm_num
  · intro h h'
    have h2 : v < 1000000 := by linarith
    have h3 : v < 1000000000 := by linarith
    obtain ⟨s, hs, hf⟩ := fmt_whole v h
    refine ⟨s, hs, ?_⟩
    simp only [HumanBitsPerSecond, F64.le, F64.gt, decide_eq_false (not_le.mpr h'),
      decide_eq_false (not_le.mpr h2), decide_eq_false (not_le.mpr h3),
      decide_eq_true (le_of_lt h), decide_eq_false (not_le.mpr h), Bool.false_eq_true,
      if_false, Bool.not_false, Bool.and_self, if_true, hf]
  · intro h
    have h1 : v < 1000 := by linarith
    have h2 : v < 1000000 := by linarith
    have h3 : v < 1000000000 := by linarith
    simp [HumanBitsPerSecond, F64.le, F64.gt, not_le.mpr h1, not_le.mpr h2, not_le.mpr h3, h]
  · intro h
    obtain ⟨x, s, h1, h2, h3⟩ := fmt_div_two v 1073741824 (by norm_num) (by exact_mod_cast h) hfin
    refine ⟨x, s, by exact_mod_cast h1, h2, ?_⟩
    simp only [HumanBytes, F64.le, decide_eq_true h, if_true]
    rw [← h3]; norm_num
  · intro h h'
    obtain ⟨x, s, h1, h2, h3⟩ := fmt_div_two v 1048576 (by norm_num) (by exact_mod_cast h) hfin
    refine ⟨x, s, by exact_mod_cast h1, h2, ?_⟩
    simp only [HumanBytes, F64.le, decide_eq_false (not_le.mpr h'), decide_eq_true h,
      if_true, Bool.false_eq_true, if_false]
    rw [← h3]; norm_num
  · intro h h'
    have h'' : v < 1073741824 := by linarith
    obtain ⟨x, s, h1, h2, h3⟩ := fmt_div_two v 1024 (by norm_num) (by exact_mod_cast h) hfin
    refine ⟨x, s, by exact_mod_cast h1, h2, ?_⟩
    simp only [HumanBytes, F64.le, decide_eq_false (not_le.mpr h'),
      decide_eq_false (not_le.mpr h''), decide_eq_true h, if_true, Bool.false_eq_true, if_false]
    rw [← h3]; norm_num
  · intro h h'
    have h2 : v < 1048576 := by linarith
    have h3 : v < 1073741824 := by linarith
    obtain ⟨s, hs, hf⟩ := fmt_whole v h
    refine ⟨s, hs, ?_⟩
    simp only [HumanBytes, F64.le, F64.gt, decide_eq_false (not_le.mpr h'),
      decide_eq_false (not_le.mpr h2), decide_eq_false (not_le.mpr h3),
      decide_eq_true (le_of_lt h), decide_eq_false (not_le.mpr h), Bool.false_eq_true,
      if_false, Bool.not_false, Bool.and_self, if_true, hf]
  · intro h
    have h1 : v < 1024 := by linarith
    have h2 : v < 1048576 := by linarith
    have h3 : v < 1073741824 := by linarith
    simp [HumanBytes, F64.le, F64.gt, not_le.mpr h1, not_le.mpr h2, not_le.mpr h3, h]

/-- C15 witness, the test `TestHumanFormatting`: 1500 prints "1.50 Kbit/s"
and 2048 prints "2.00 KiB". -/
theorem Human_units_by_threshold_witness :
    (1500 : ℚ) < 2 ^ 1024 ∧
    HumanBitsPerSecond (F64.fin 1500) = "1.50 Kbit/s" ∧
    HumanBytes (F64.fin 2048) = "2.00 KiB" ∧
    (∃ x s, IsF64Round ((1500 : ℚ) / 1000) (F64.fin x) ∧ IsTwoDecimals x s ∧
      HumanBitsPerSecond (F64.fin 1500) = s ++ " Kbit/s") :=
  ⟨by norm_num, by decide!, by decide!,
    (Human_units_by_threshold 1500 (by norm_num)).2.2.1 (by norm_num) (by norm_num)⟩

/-- Printed values on both sides of the thresholds and of the rounding. -/
theorem Human_units_examples :
    HumanBitsPerSecond (F64.fin 125000000) = "125.00 Mbit/s" ∧
    HumanBitsPerSecond (F64.fin 1999) = "2.00 Kbit/s" ∧
    HumanBitsPerSecond (F64.fin 1994) = "1.99 Kbit/s" ∧
    HumanBitsPerSecond (F64.fin 999999) = "1000.00 Kbit/s" ∧
    HumanBitsPerSecond (F64.fin 2500000000) = "2.50 Gbit/s" ∧
    HumanBitsPerSecond (F64.fin 999) = "999 bit/s" ∧
    HumanBitsPerSecond (F64.fin (1 / 2)) = "0 bit/s" ∧
    HumanBitsPerSecond (F64.fin (3 / 2)) = "2 bit/s" ∧
    HumanBitsPerSecond (F64.fin (-5)) = "0 bit/s" ∧
    HumanBytes (F64.fin 1048576) = "1.00 MiB" ∧
    HumanBytes (F64.fin 1536) = "1.50 KiB" ∧
    HumanBytes (F64.fin 1023) = "1023 B" ∧
    HumanBytes (F64.fin 5368709120) = "5.00 GiB" := by
  decide!

/-- C15 counterexample: `+Inf` is at least every threshold, and the text
printed for it is "+Inf Gbit/s" ("+Inf GiB" for bytes), which is no number
with two decimals. -/
theorem Human_units_infinity :
    F64.le (F64.fin 1000000000) F64.posInf = true ∧
    HumanBitsPerSecond F64.posInf = "+Inf Gbit/s" ∧ HumanBytes F64.posInf = "+Inf GiB" ∧
    ¬ ∃ x s, IsTwoDecimals x s ∧ HumanBitsPerSecond F64.posInf = s ++ " Gbit/s" := by
  refine ⟨rfl, rfl, rfl, ?_⟩
  rintro ⟨x, s, ⟨N, -, hs⟩, h⟩
  have h1 : HumanBitsPerSecond F64.posInf = "+Inf Gbit/s" := rfl
  rw [h1, hs] at h
  have h2 := congrArg (fun t : String => t.data.reverse.getD 9 'x') h
  simp at h2

/-- C16: the code at the failing input.  For the duration of 4097 hours minus
one nanosecond `Hours()` is `4096 + 0.99999999999972...`, which rounds to the
`float64` 4097, and `formatDuration` renders "4097h 59m 59s": 14752799 seconds,
while the duration truncated to whole seconds is 14749199 seconds, that is
4096h 59m 59s. -/
theorem formatDuration_hours_round_up :
    formatDuration 14749199999999999 = "4097h 59m 59s" ∧
    truncInt (durationIn Hour 14749199999999999) = 4097 ∧
    (14749199999999999 : Int) / 1000000000 = 4096 * 3600 + 59 * 60 + 59 ∧
    (4097 * 3600 + 59 * 60 + 59 : Int) ≠ 14749199999999999 / 1000000000 := by
  decide

/-- The tests of `TestFormatDuration`, and a duration of 59.95 seconds. -/
theorem formatDuration_tests :
    formatDuration 5000000000 = "5.0s" ∧ formatDuration 45000000000 = "45.0s" ∧
    formatDuration 90000000000 = "1m 30s" ∧ formatDuration 3665000000000 = "1h 1m 5s" ∧
    formatDuration 59950000000 = "60.0s" := by
  decide

end Netperf
